import Mathlib

/-!
Verification of a regular-expression compilation pipeline
(regex text → postfix → AST → Thompson NFA → subset-construction DFA →
partition-refinement minimized DFA, with NFA/DFA simulators).

The Python source keeps automata as graphs of mutable state objects; state
objects are referenced by unique integer ids handed out by a counter.  The
shallow embedding below represents the heap of state objects as an
association list from ids to state data (an arena), and the worklist loops
of the source (epsilon-closure, state collection, subset construction,
DFA state collection) as one generic fueled worklist function.  The fuel
is an upper bound on the number of loop iterations computed from a finite
universe that contains every element the worklist can ever see; lemmas
below show the fuel is always sufficient, so the fueled function computes
exactly the fixed point the Python loops compute.
-/

namespace RegexProj

/-! ## Generic worklist closure

Both `NFA.get_epsilon_closure`, `NFA._collect_states_and_alphabet`,
`SubsetConstructor.construct_dfa`'s worklist and `DFA._collect_states`
are worklist loops of the shape: pop an item, skip it if already visited,
otherwise mark it visited and push its successors.  The visiting order
differs between them (stack vs queue) but the visited set that results is
order-independent, so a single head-pop formulation models all of them. -/

/-- One worklist run: pop the head; if unvisited, record it and push its
successors.  `fuel` bounds the number of iterations. -/
def wlRun {α : Type _} [DecidableEq α] (succs : α → List α) :
    Nat → List α → List α → List α
  | 0, _, vis => vis
  | _ + 1, [], vis => vis
  | fuel + 1, x :: rest, vis =>
    if x ∈ vis then wlRun succs fuel rest vis
    else wlRun succs fuel (succs x ++ rest) (x :: vis)

/-- Fuel sufficient to drain a worklist whose elements stay inside `U`. -/
def wlFuel {α : Type _} [DecidableEq α] (succs : α → List α) (U : Finset α)
    (seeds : List α) : Nat :=
  seeds.length + U.sum (fun x => (succs x).length + 1) + 1

/-- The set computed by a worklist loop seeded with `seeds`, with the
finite universe `U` supplying the iteration bound. -/
def closureOfL {α : Type _} [DecidableEq α] (succs : α → List α)
    (U : Finset α) (seeds : List α) : List α :=
  wlRun succs (wlFuel succs U seeds) seeds []

/-- The successor-step relation of a worklist loop. -/
def succStep {α : Type _} (succs : α → List α) (x y : α) : Prop :=
  y ∈ succs x

theorem wlRun_vis_subset {α : Type _} [DecidableEq α] (succs : α → List α) :
    ∀ (fuel : Nat) (stack vis : List α), ∀ y ∈ vis,
      y ∈ wlRun succs fuel stack vis := by
  intro fuel
  induction fuel with
  | zero => intro stack vis y hy; simpa [wlRun] using hy
  | succ f ih =>
    intro stack vis y hy
    cases stack with
    | nil => simpa [wlRun] using hy
    | cons x rest =>
      by_cases hx : x ∈ vis
      · simpa [wlRun, hx] using ih rest vis y hy
      · simpa [wlRun, hx] using ih (succs x ++ rest) (x :: vis) y (by simp [hy])

theorem wlRun_sound {α : Type _} [DecidableEq α] (succs : α → List α) :
    ∀ (fuel : Nat) (stack vis : List α), ∀ y ∈ wlRun succs fuel stack vis,
      y ∈ vis ∨ ∃ x ∈ stack, Relation.ReflTransGen (succStep succs) x y := by
  intro fuel
  induction fuel with
  | zero => intro stack vis y hy; exact Or.inl (by simpa [wlRun] using hy)
  | succ f ih =>
    intro stack vis y hy
    cases stack with
    | nil => exact Or.inl (by simpa [wlRun] using hy)
    | cons x rest =>
      by_cases hx : x ∈ vis
      · rcases ih rest vis y (by simpa [wlRun, hx] using hy) with h | ⟨z, hz, hr⟩
        · exact Or.inl h
        · exact Or.inr ⟨z, by simp [hz], hr⟩
      · rcases ih (succs x ++ rest) (x :: vis) y
            (by simpa [wlRun, hx] using hy) with h | ⟨z, hz, hr⟩
        · rcases List.mem_cons.mp h with h | h
          · exact Or.inr ⟨x, by simp, h ▸ Relation.ReflTransGen.refl⟩
          · exact Or.inl h
        · rcases List.mem_append.mp hz with h | h
          · exact Or.inr ⟨x, by simp,
              Relation.ReflTransGen.head h hr⟩
          · exact Or.inr ⟨z, by simp [h], hr⟩

theorem wlRun_nodup {α : Type _} [DecidableEq α] (succs : α → List α) :
    ∀ (fuel : Nat) (stack vis : List α), vis.Nodup →
      (wlRun succs fuel stack vis).Nodup := by
  intro fuel
  induction fuel with
  | zero => intro stack vis h; simpa [wlRun]
  | succ f ih =>
    intro stack vis h
    cases stack with
    | nil => simpa [wlRun]
    | cons x rest =>
      by_cases hx : x ∈ vis
      · simpa [wlRun, hx] using ih rest vis h
      · simpa [wlRun, hx] using ih (succs x ++ rest) (x :: vis) (by simp [h, hx])

/-- Completeness of the fueled worklist: with enough fuel (measured against
a universe `U` containing the stack and closed under successors) the run
visits the whole stack and the result is closed under successors outside
the initial visited list. -/
theorem wlRun_complete {α : Type _} [DecidableEq α] (succs : α → List α)
    (U : Finset α) (hU : ∀ x ∈ U, ∀ y ∈ succs x, y ∈ U) :
    ∀ (fuel : Nat) (stack vis : List α),
      (∀ x ∈ stack, x ∈ U) →
      (stack.length + (U.filter (fun x => x ∉ vis)).sum
          (fun x => (succs x).length + 1) ≤ fuel) →
      (∀ x ∈ stack, x ∈ wlRun succs fuel stack vis) ∧
      (∀ y ∈ wlRun succs fuel stack vis, y ∉ vis →
        ∀ z ∈ succs y, z ∈ wlRun succs fuel stack vis) := by
  intro fuel
  induction fuel with
  | zero =>
    intro stack vis hst hb
    have hstack : stack = [] := by
      cases stack with
      | nil => rfl
      | cons a l => simp at hb
    subst hstack
    refine ⟨by simp, ?_⟩
    intro y hy hyv
    exact absurd (by simpa [wlRun] using hy) hyv
  | succ f ih =>
    intro stack vis hst hb
    cases stack with
    | nil =>
      refine ⟨by simp, ?_⟩
      intro y hy hyv
      exact absurd (by simpa [wlRun] using hy) hyv
    | cons x rest =>
      by_cases hx : x ∈ vis
      · have hrec := ih rest vis (fun a ha => hst a (by simp [ha]))
          (by simp at hb; omega)
        constructor
        · intro a ha
          rcases List.mem_cons.mp ha with rfl | ha
          · simpa [wlRun, hx] using wlRun_vis_subset succs f rest vis a hx
          · simpa [wlRun, hx] using hrec.1 a ha
        · intro y hy hyv z hz
          simpa [wlRun, hx] using
            hrec.2 y (by simpa [wlRun, hx] using hy) hyv z hz
      · have hxU : x ∈ U := hst x (by simp)
        have hsum :
            (U.filter (fun a => a ∉ x :: vis)).sum
                (fun a => (succs a).length + 1) + ((succs x).length + 1) =
            (U.filter (fun a => a ∉ vis)).sum
                (fun a => (succs a).length + 1) := by
          have hmem : x ∈ U.filter (fun a => a ∉ vis) := by
            simp [Finset.mem_filter, hxU, hx]
          have herase :
              U.filter (fun a => a ∉ x :: vis) =
              (U.filter (fun a => a ∉ vis)).erase x := by
            ext a
            simp only [Finset.mem_filter, Finset.mem_erase, List.mem_cons]
            constructor
            · rintro ⟨haU, ha⟩
              push_neg at ha
              exact ⟨ha.1, haU, ha.2⟩
            · rintro ⟨hne, haU, ha⟩
              exact ⟨haU, by push_neg; exact ⟨hne, ha⟩⟩
          rw [herase]
          exact Finset.sum_erase_add _ _ hmem
        have hfuel :
            (succs x ++ rest).length +
              (U.filter (fun a => a ∉ x :: vis)).sum
                (fun a => (succs a).length + 1) ≤ f := by
          have := hb
          simp only [List.length_cons] at this
          simp only [List.length_append]
          omega
        have hsx : ∀ a ∈ succs x ++ rest, a ∈ U := by
          intro a ha
          rcases List.mem_append.mp ha with ha | ha
          · exact hU x hxU a ha
          · exact hst a (by simp [ha])
        have hrec := ih (succs x ++ rest) (x :: vis) hsx hfuel
        constructor
        · intro a ha
          rcases List.mem_cons.mp ha with rfl | ha
          · simpa [wlRun, hx] using
              wlRun_vis_subset succs f (succs a ++ rest) (a :: vis) a (by simp)
          · simpa [wlRun, hx] using hrec.1 a (by simp [ha])
        · intro y hy hyv z hz
          by_cases hyx : y = x
          · subst hyx
            simpa [wlRun, hx] using hrec.1 z (by simp [hz])
          · have hyv2 : y ∉ x :: vis := by simp [hyv, hyx]
            simpa [wlRun, hx] using
              hrec.2 y (by simpa [wlRun, hx] using hy) hyv2 z hz

theorem closureOfL_sound {α : Type _} [DecidableEq α] (succs : α → List α)
    (U : Finset α) (seeds : List α) :
    ∀ y ∈ closureOfL succs U seeds, ∃ x ∈ seeds,
      Relation.ReflTransGen (succStep succs) x y := by
  intro y hy
  rcases wlRun_sound succs _ seeds [] y hy with h | h
  · simp at h
  · exact h

theorem closureOfL_seeds {α : Type _} [DecidableEq α] (succs : α → List α)
    (U : Finset α) (seeds : List α)
    (hseeds : ∀ x ∈ seeds, x ∈ U) (hU : ∀ x ∈ U, ∀ y ∈ succs x, y ∈ U) :
    ∀ x ∈ seeds, x ∈ closureOfL succs U seeds := by
  have hb : seeds.length + (U.filter (fun x => x ∉ ([] : List α))).sum
      (fun x => (succs x).length + 1) ≤ wlFuel succs U seeds := by
    simp [wlFuel]
  exact (wlRun_complete succs U hU _ seeds [] hseeds hb).1

theorem closureOfL_closed {α : Type _} [DecidableEq α] (succs : α → List α)
    (U : Finset α) (seeds : List α)
    (hseeds : ∀ x ∈ seeds, x ∈ U) (hU : ∀ x ∈ U, ∀ y ∈ succs x, y ∈ U) :
    ∀ y ∈ closureOfL succs U seeds, ∀ z ∈ succs y,
      z ∈ closureOfL succs U seeds := by
  have hb : seeds.length + (U.filter (fun x => x ∉ ([] : List α))).sum
      (fun x => (succs x).length + 1) ≤ wlFuel succs U seeds := by
    simp [wlFuel]
  intro y hy z hz
  exact (wlRun_complete succs U hU _ seeds [] hseeds hb).2 y hy (by simp) z hz

/-- Characterization of the worklist closure: exactly the elements
reachable from the seeds through the successor relation. -/
theorem mem_closureOfL {α : Type _} [DecidableEq α] (succs : α → List α)
    (U : Finset α) (seeds : List α)
    (hseeds : ∀ x ∈ seeds, x ∈ U) (hU : ∀ x ∈ U, ∀ y ∈ succs x, y ∈ U) :
    ∀ y, y ∈ closureOfL succs U seeds ↔
      ∃ x ∈ seeds, Relation.ReflTransGen (succStep succs) x y := by
  intro y
  constructor
  · exact closureOfL_sound succs U seeds y
  · rintro ⟨x, hx, hr⟩
    induction hr with
    | refl => exact closureOfL_seeds succs U seeds hseeds hU x hx
    | tail _ hstep ih =>
      exact closureOfL_closed succs U seeds hseeds hU _ ih _ hstep

theorem closureOfL_nodup {α : Type _} [DecidableEq α] (succs : α → List α)
    (U : Finset α) (seeds : List α) : (closureOfL succs U seeds).Nodup :=
  wlRun_nodup succs _ seeds [] (by simp)

theorem closureOfL_subset_univ {α : Type _} [DecidableEq α]
    (succs : α → List α) (U : Finset α) (seeds : List α)
    (hseeds : ∀ x ∈ seeds, x ∈ U) (hU : ∀ x ∈ U, ∀ y ∈ succs x, y ∈ U) :
    ∀ y ∈ closureOfL succs U seeds, y ∈ U := by
  intro y hy
  rcases closureOfL_sound succs U seeds y hy with ⟨x, hx, hr⟩
  clear hy
  induction hr with
  | refl => exact hseeds x hx
  | tail _ hstep ih => exact hU _ ih _ hstep

/-! ## NFA data model (`models.py`)

`NFAState` carries an integer id, a finality flag, a dict
`transitions : symbol → list of target states` and a list
`epsilon_transitions`.  The heap of state objects is modelled as an
association list from ids to state data; object references become ids.
Symbols are Python strings, modelled as `String`. -/

/-- Data of one `NFAState` apart from its id: the `is_final` flag, the
`transitions` dict (as an association list preserving insertion order)
and the `epsilon_transitions` list. -/
structure StateData where
  isFinal : Bool
  trans : List (String × List Nat)
  eps : List Nat
deriving DecidableEq, Repr

/-- The heap of NFA state objects, keyed by state id. -/
abbrev Arena := List (Nat × StateData)

/-- An `NFA` object: its `start_state`, its `final_states` list and the
arena holding every state object it references.  The derived `states`
and `alphabet` fields of the Python class are the functions
`nfaStatesL` and `nfaAlphabet` below. -/
structure NFAr where
  start : Nat
  finals : List Nat
  arena : Arena
deriving DecidableEq, Repr

/-- Association-list lookup (a Python dict lookup / object dereference
by id; dict keys are unique, so first-match lookup is exact). -/
def alookup {κ β : Type _} [DecidableEq κ] (i : κ) : List (κ × β) → Option β
  | [] => none
  | (k, d) :: rest => if k = i then some d else alookup i rest

theorem alookup_mem {κ β : Type _} [DecidableEq κ] {i : κ}
    {l : List (κ × β)} {d : β} (h : alookup i l = some d) : (i, d) ∈ l := by
  induction l with
  | nil => simp [alookup] at h
  | cons p rest ih =>
    obtain ⟨k, v⟩ := p
    by_cases hip : k = i
    · subst hip
      simp only [alookup, if_pos] at h
      cases h
      exact List.mem_cons_self _ _
    · simp only [alookup, if_neg hip] at h
      exact List.mem_cons_of_mem _ (ih h)

/-- Looking a state object up by id (a Python object dereference). -/
def lookupSt (A : Arena) (i : Nat) : Option StateData :=
  alookup i A

/-- Value of `state.transitions[symbol]`, `[]` when the key is absent. -/
def symTargets (A : Arena) (i : Nat) (c : String) : List Nat :=
  match lookupSt A i with
  | none => []
  | some d =>
    match alookup c d.trans with
    | none => []
    | some l => l

/-- The keys of `state.transitions`. -/
def transKeys (A : Arena) (i : Nat) : List String :=
  match lookupSt A i with
  | none => []
  | some d => d.trans.map Prod.fst

/-- Value of `state.epsilon_transitions`. -/
def epsTargets (A : Arena) (i : Nat) : List Nat :=
  match lookupSt A i with
  | none => []
  | some d => d.eps

/-- Value of `state.is_final`. -/
def isFinalSt (A : Arena) (i : Nat) : Bool :=
  match lookupSt A i with
  | none => false
  | some d => d.isFinal

/-- All successors of a state through symbol or epsilon transitions, as
walked by `NFA._collect_states_and_alphabet`. -/
def stateSuccs (A : Arena) (i : Nat) : List Nat :=
  match lookupSt A i with
  | none => []
  | some d => (d.trans.map Prod.snd).flatten ++ d.eps

/-- Every id mentioned in the arena: keys plus all transition targets.
A finite universe for the worklist loops. -/
def arenaUniv (A : Arena) : Finset Nat :=
  (A.map Prod.fst).toFinset ∪
    (A.map (fun p => (p.2.trans.map Prod.snd).flatten ++ p.2.eps)).flatten.toFinset

/-- The id universe of one NFA object: start, finals and the arena. -/
def nfaUniv (N : NFAr) : Finset Nat :=
  insert N.start (N.finals.toFinset ∪ arenaUniv N.arena)

theorem stateSuccs_subset_arenaUniv (A : Arena) (i : Nat) :
    ∀ y ∈ stateSuccs A i, y ∈ arenaUniv A := by
  intro y hy
  unfold stateSuccs at hy
  cases hA : lookupSt A i with
  | none => rw [hA] at hy; simp at hy
  | some d =>
    rw [hA] at hy
    have hmem : (i, d) ∈ A := alookup_mem hA
    unfold arenaUniv
    refine Finset.mem_union_right _ ?_
    simp only [List.mem_toFinset, List.mem_flatten, List.mem_map]
    exact ⟨(d.trans.map Prod.snd).flatten ++ d.eps, ⟨(i, d), hmem, rfl⟩, hy⟩

theorem epsTargets_subset_stateSuccs (A : Arena) (i : Nat) :
    ∀ y ∈ epsTargets A i, y ∈ stateSuccs A i := by
  intro y hy
  unfold epsTargets at hy
  unfold stateSuccs
  cases hA : lookupSt A i with
  | none => rw [hA] at hy; simp at hy
  | some d =>
    rw [hA] at hy
    simp [hy]

theorem epsTargets_subset_arenaUniv (A : Arena) (i : Nat) :
    ∀ y ∈ epsTargets A i, y ∈ arenaUniv A :=
  fun y hy => stateSuccs_subset_arenaUniv A i y
    (epsTargets_subset_stateSuccs A i y hy)

theorem symTargets_subset_stateSuccs (A : Arena) (i : Nat) (c : String) :
    ∀ y ∈ symTargets A i c, y ∈ stateSuccs A i := by
  intro y hy
  unfold symTargets at hy
  unfold stateSuccs
  cases hA : lookupSt A i with
  | none => simp only [hA] at hy; simp at hy
  | some d =>
    simp only [hA] at hy
    cases hc : alookup c d.trans with
    | none => simp only [hc] at hy; simp at hy
    | some l =>
      simp only [hc] at hy
      have : l ∈ d.trans.map Prod.snd :=
        List.mem_map.mpr ⟨(c, l), alookup_mem hc, rfl⟩
      simp only [List.mem_append, List.mem_flatten]
      exact Or.inl ⟨l, this, hy⟩

/-! ## Epsilon closure and NFA simulation (`models.py`) -/

/-- Worklist epsilon-closure of a list of seed states
(`NFA.get_epsilon_closure`). -/
def ecloseL (A : Arena) (seeds : List Nat) : List Nat :=
  closureOfL (epsTargets A) (seeds.toFinset ∪ arenaUniv A) seeds

/-- Epsilon-closure of a set of states; the Python call passes the set
object itself, modelled by its sorted element list. -/
def ecloseF (A : Arena) (S : Finset Nat) : Finset Nat :=
  (ecloseL A (S.sort (· ≤ ·))).toFinset

theorem mem_ecloseL (A : Arena) (seeds : List Nat) :
    ∀ y, y ∈ ecloseL A seeds ↔
      ∃ x ∈ seeds, Relation.ReflTransGen (succStep (epsTargets A)) x y := by
  intro y
  refine mem_closureOfL (epsTargets A) _ seeds ?_ ?_ y
  · intro x hx
    simp [List.mem_toFinset, hx]
  · intro x _ z hz
    exact Finset.mem_union_right _ (epsTargets_subset_arenaUniv A x z hz)

theorem mem_ecloseF (A : Arena) (S : Finset Nat) :
    ∀ y, y ∈ ecloseF A S ↔
      ∃ x ∈ S, Relation.ReflTransGen (succStep (epsTargets A)) x y := by
  intro y
  unfold ecloseF
  rw [List.mem_toFinset, mem_ecloseL]
  constructor
  · rintro ⟨x, hx, hr⟩
    exact ⟨x, (Finset.mem_sort _).mp hx, hr⟩
  · rintro ⟨x, hx, hr⟩
    exact ⟨x, (Finset.mem_sort _).mpr hx, hr⟩

/-- One step of `NFA.simulate`: the set of targets reachable from the
current set on an input symbol (`next_states`). -/
def nfaStep (A : Arena) (cur : Finset Nat) (c : Char) : Finset Nat :=
  cur.biUnion (fun s => (symTargets A s (String.mk [c])).toFinset)

/-- The loop of `NFA.simulate`: reject as soon as no target exists,
otherwise advance to the epsilon closure of the targets; at the end
accept iff some current state has `is_final` set. -/
def nfaSimGo (N : NFAr) : Finset Nat → List Char → Bool
  | cur, [] => decide (∃ s ∈ cur, isFinalSt N.arena s = true)
  | cur, c :: w =>
    let T := nfaStep N.arena cur c
    if T = ∅ then false else nfaSimGo N (ecloseF N.arena T) w

/-- `NFA.simulate`. -/
def nfaSimulate (N : NFAr) (w : String) : Bool :=
  nfaSimGo N (ecloseL N.arena [N.start]).toFinset w.toList

/-- The reachable state set computed by
`NFA._collect_states_and_alphabet` (the derived `states` field). -/
def nfaStatesL (N : NFAr) : List Nat :=
  closureOfL (stateSuccs N.arena) (nfaUniv N) (N.start :: N.finals)

/-- The derived `alphabet` field: every key of every collected state's
transitions dict. -/
def nfaAlphabet (N : NFAr) : Finset String :=
  (nfaStatesL N).toFinset.biUnion (fun s => (transKeys N.arena s).toFinset)

theorem mem_nfaStatesL (N : NFAr) :
    ∀ y, y ∈ nfaStatesL N ↔ ∃ x ∈ N.start :: N.finals,
      Relation.ReflTransGen (succStep (stateSuccs N.arena)) x y := by
  intro y
  refine mem_closureOfL (stateSuccs N.arena) _ _ ?_ ?_ y
  · intro x hx
    rcases List.mem_cons.mp hx with rfl | hx
    · simp [nfaUniv]
    · simp [nfaUniv, hx]
  · intro x _ z hz
    unfold nfaUniv
    exact Finset.mem_insert_of_mem
      (Finset.mem_union_right _ (stateSuccs_subset_arenaUniv N.arena x z hz))

/-! ## DFA data model and simulator (`models.py`)

A `DFA` object holds a start state, a set of final states, an alphabet
and the derived set of states collected by reachability.  `DFAState`
equality is by id; ids are unique per construction, so states are
modelled by the values identifying them (`Finset Nat` of represented
NFA ids for the subset construction, lists of merged states for the
minimizer).  The `transitions` dict of each state is modelled by a
transition function returning `none` where the dict has no key. -/

/-- A `DFA` object.  `states` is the list collected by
`DFA._collect_states` (a Python set; modelled as a duplicate-free
list). -/
structure DFAr (σ : Type _) where
  start : σ
  finals : List σ
  alphabet : Finset String
  delta : σ → String → Option σ
  states : List σ

/-- The loop of `DFA.simulate`: follow the deterministic transition for
each symbol, rejecting as soon as one is missing; accept at the end iff
the current state is final. -/
def dfaSimGo {σ : Type _} [DecidableEq σ] (D : DFAr σ) : σ → List Char → Bool
  | s, [] => decide (s ∈ D.finals)
  | s, c :: w =>
    match D.delta s (String.mk [c]) with
    | none => false
    | some t => dfaSimGo D t w

/-- `DFA.simulate`. -/
def dfaSimulate {σ : Type _} [DecidableEq σ] (D : DFAr σ) (w : String) : Bool :=
  dfaSimGo D D.start w.toList

/-- The (partial) run of a DFA on an input: the state reached after the
whole input, or `none` if some symbol lacked a transition. -/
def dfaRunOpt {σ : Type _} (D : DFAr σ) : σ → List Char → Option σ
  | s, [] => some s
  | s, c :: w => (D.delta s (String.mk [c])).bind (fun t => dfaRunOpt D t w)

theorem dfaSimGo_eq_run {σ : Type _} [DecidableEq σ] (D : DFAr σ) :
    ∀ (w : List Char) (s : σ), dfaSimGo D s w =
      match dfaRunOpt D s w with
      | none => false
      | some t => decide (t ∈ D.finals) := by
  intro w
  induction w with
  | nil => intro s; simp [dfaSimGo, dfaRunOpt]
  | cons c w ih =>
    intro s
    simp only [dfaSimGo, dfaRunOpt]
    cases D.delta s (String.mk [c]) with
    | none => simp
    | some t => simpa using ih t

/-! ## Subset construction (`automata_constructors.py`)

`SubsetConstructor.construct_dfa` identifies DFA states with the
epsilon-closed sets of NFA states they represent: the memo table is
keyed by the sorted tuple of NFA ids, which is in bijection with the
set itself, so a DFA state is modelled as the `Finset Nat` it
represents.  `discoveredL` is the set of DFA states created by the
worklist loop; transitions are installed exactly on those states, for
exactly the alphabet symbols whose move set is nonempty. -/

/-- Targets reachable from a subset on one symbol
(`next_subset` before the closure). -/
def moveSet (A : Arena) (S : Finset Nat) (c : String) : Finset Nat :=
  S.biUnion (fun s => (symTargets A s c).toFinset)

/-- The transition formula of the subset construction: no transition
when the move set is empty, otherwise the epsilon closure of the move
set. -/
def dfaDelta (N : NFAr) (S : Finset Nat) (c : String) : Option (Finset Nat) :=
  let M := moveSet N.arena S c
  if M = ∅ then none else some (ecloseF N.arena M)

/-- The initial DFA state: the epsilon closure of the NFA start. -/
def dfaStart (N : NFAr) : Finset Nat :=
  (ecloseL N.arena [N.start]).toFinset

/-- The NFA alphabet in sorted order, as iterated by the subset
construction loop. -/
def sortedAlphabet (N : NFAr) : List String :=
  (nfaAlphabet N).sort (· ≤ ·)

/-- All DFA states created from one state by the inner loop of the
subset construction. -/
def dfaSuccs (N : NFAr) (S : Finset Nat) : List (Finset Nat) :=
  (sortedAlphabet N).filterMap (fun c => dfaDelta N S c)

/-- The DFA states created by the subset-construction worklist. -/
def discoveredL (N : NFAr) : List (Finset Nat) :=
  closureOfL (dfaSuccs N) ((nfaUniv N).powerset) [dfaStart N]

/-- Whether a DFA state is final: its subset contains some state of
`nfa.final_states` (`_get_or_create_dfa_state`). -/
def dfaAcceptS (N : NFAr) (S : Finset Nat) : Bool :=
  N.finals.any (fun f => f ∈ S)

/-- The transition function of the constructed DFA object: transitions
were installed only on discovered states and only for alphabet
symbols, via `dfaDelta`. -/
def subsetDelta (N : NFAr) (S : Finset Nat) (c : String) : Option (Finset Nat) :=
  if S ∈ discoveredL N ∧ c ∈ nfaAlphabet N then dfaDelta N S c else none

/-- The final-state list of the constructed DFA (`final_dfa_states`:
every created state that is final). -/
def subsetFinals (N : NFAr) : List (Finset Nat) :=
  (discoveredL N).filter (fun S => dfaAcceptS N S)

/-- The derived `states` field of the constructed DFA object, collected
by `DFA._collect_states` from the start and final states through the
installed transitions. -/
def subsetCollect (N : NFAr) : List (Finset Nat) :=
  closureOfL (fun S => (sortedAlphabet N).filterMap (fun c => subsetDelta N S c))
    ((nfaUniv N).powerset) (dfaStart N :: subsetFinals N)

/-- The `DFA` object returned by `SubsetConstructor.construct_dfa`. -/
def subsetDfa (N : NFAr) : DFAr (Finset Nat) :=
  { start := dfaStart N
    finals := subsetFinals N
    alphabet := nfaAlphabet N
    delta := subsetDelta N
    states := subsetCollect N }

theorem ecloseL_subset_univ (N : NFAr) (seeds : List Nat)
    (hseeds : ∀ x ∈ seeds, x ∈ nfaUniv N) :
    ∀ y ∈ ecloseL N.arena seeds, y ∈ nfaUniv N := by
  intro y hy
  rcases (mem_ecloseL N.arena seeds y).mp hy with ⟨x, hx, hr⟩
  induction hr with
  | refl => exact hseeds x hx
  | tail _ hstep ih =>
    unfold nfaUniv
    exact Finset.mem_insert_of_mem (Finset.mem_union_right _
      (epsTargets_subset_arenaUniv N.arena _ _ hstep))

theorem ecloseF_subset_univ (N : NFAr) (S : Finset Nat)
    (hS : ∀ x ∈ S, x ∈ nfaUniv N) :
    ∀ y ∈ ecloseF N.arena S, y ∈ nfaUniv N := by
  intro y hy
  rcases (mem_ecloseF N.arena S y).mp hy with ⟨x, hx, hr⟩
  induction hr with
  | refl => exact hS x hx
  | tail _ hstep ih =>
    unfold nfaUniv
    exact Finset.mem_insert_of_mem (Finset.mem_union_right _
      (epsTargets_subset_arenaUniv N.arena _ _ hstep))

theorem dfaStart_mem_powerset (N : NFAr) :
    dfaStart N ∈ (nfaUniv N).powerset := by
  rw [Finset.mem_powerset]
  intro y hy
  refine ecloseL_subset_univ N [N.start] ?_ y (by simpa [dfaStart] using hy)
  intro x hx
  simp at hx
  simp [hx, nfaUniv]

theorem dfaSuccs_subset_powerset (N : NFAr) (S : Finset Nat) :
    ∀ T ∈ dfaSuccs N S, T ∈ (nfaUniv N).powerset := by
  intro T hT
  rcases List.mem_filterMap.mp hT with ⟨c, _, hc⟩
  unfold dfaDelta at hc
  by_cases hM : moveSet N.arena S c = ∅
  · simp [hM] at hc
  · simp only [hM, if_neg, not_false_iff] at hc
    cases hc
    rw [Finset.mem_powerset]
    intro y hy
    refine ecloseF_subset_univ N _ ?_ y hy
    intro x hx
    unfold moveSet at hx
    rcases Finset.mem_biUnion.mp hx with ⟨s, _, hs⟩
    rw [List.mem_toFinset] at hs
    unfold nfaUniv
    exact Finset.mem_insert_of_mem (Finset.mem_union_right _
      (stateSuccs_subset_arenaUniv N.arena s x
        (symTargets_subset_stateSuccs N.arena s c x hs)))

theorem mem_discoveredL (N : NFAr) :
    ∀ S, S ∈ discoveredL N ↔
      Relation.ReflTransGen (succStep (dfaSuccs N)) (dfaStart N) S := by
  intro S
  unfold discoveredL
  rw [mem_closureOfL (dfaSuccs N) _ _ ?_ ?_ S]
  · constructor
    · rintro ⟨x, hx, hr⟩
      simp at hx
      exact hx ▸ hr
    · intro hr
      exact ⟨dfaStart N, by simp, hr⟩
  · intro x hx
    simp at hx
    exact hx ▸ dfaStart_mem_powerset N
  · intro x _ z hz
    exact dfaSuccs_subset_powerset N x z hz

theorem discoveredL_start (N : NFAr) : dfaStart N ∈ discoveredL N :=
  (mem_discoveredL N _).mpr Relation.ReflTransGen.refl

theorem discoveredL_closed (N : NFAr) {S T : Finset Nat}
    (hS : S ∈ discoveredL N) (hT : T ∈ dfaSuccs N S) : T ∈ discoveredL N :=
  (mem_discoveredL N _).mpr
    (Relation.ReflTransGen.tail ((mem_discoveredL N _).mp hS) hT)

/-! ## The subset-construction DFA simulates the NFA -/

theorem nfaStatesL_closed (N : NFAr) {x y : Nat}
    (hx : x ∈ nfaStatesL N) (hy : y ∈ stateSuccs N.arena x) :
    y ∈ nfaStatesL N := by
  rcases (mem_nfaStatesL N x).mp hx with ⟨z, hz, hr⟩
  exact (mem_nfaStatesL N y).mpr ⟨z, hz, Relation.ReflTransGen.tail hr hy⟩

theorem start_mem_nfaStatesL (N : NFAr) : N.start ∈ nfaStatesL N :=
  (mem_nfaStatesL N _).mpr ⟨N.start, by simp, Relation.ReflTransGen.refl⟩

theorem finals_mem_nfaStatesL (N : NFAr) :
    ∀ f ∈ N.finals, f ∈ nfaStatesL N := by
  intro f hf
  exact (mem_nfaStatesL N _).mpr ⟨f, by simp [hf], Relation.ReflTransGen.refl⟩

theorem ecloseF_mem_states (N : NFAr) {S : Finset Nat}
    (hS : ∀ x ∈ S, x ∈ nfaStatesL N) :
    ∀ y ∈ ecloseF N.arena S, y ∈ nfaStatesL N := by
  intro y hy
  rcases (mem_ecloseF N.arena S y).mp hy with ⟨x, hx, hr⟩
  have := Relation.ReflTransGen.mono
    (fun a b hb => epsTargets_subset_stateSuccs N.arena a b hb) hr
  rcases (mem_nfaStatesL N x).mp (hS x hx) with ⟨z, hz, hr2⟩
  exact (mem_nfaStatesL N y).mpr ⟨z, hz, hr2.trans this⟩

theorem dfaStart_mem_states (N : NFAr) :
    ∀ y ∈ dfaStart N, y ∈ nfaStatesL N := by
  intro y hy
  simp only [dfaStart, List.mem_toFinset] at hy
  rcases (mem_ecloseL N.arena [N.start] y).mp hy with ⟨x, hx, hr⟩
  simp at hx
  subst hx
  have := Relation.ReflTransGen.mono
    (fun a b hb => epsTargets_subset_stateSuccs N.arena a b hb) hr
  exact (mem_nfaStatesL N y).mpr ⟨N.start, by simp, this⟩

theorem nfaStep_mem_states (N : NFAr) {S : Finset Nat} (c : Char)
    (hS : ∀ x ∈ S, x ∈ nfaStatesL N) :
    ∀ y ∈ nfaStep N.arena S c, y ∈ nfaStatesL N := by
  intro y hy
  rcases Finset.mem_biUnion.mp hy with ⟨s, hs, hmem⟩
  rw [List.mem_toFinset] at hmem
  exact nfaStatesL_closed N (hS s hs)
    (symTargets_subset_stateSuccs N.arena s _ y hmem)

theorem symTargets_key_mem {A : Arena} {s : Nat} {c : String} {y : Nat}
    (h : y ∈ symTargets A s c) : c ∈ transKeys A s := by
  unfold symTargets at h
  unfold transKeys
  cases hA : lookupSt A s with
  | none => simp only [hA] at h; simp at h
  | some d =>
    simp only [hA] at h
    cases hc : alookup c d.trans with
    | none => simp only [hc] at h; simp at h
    | some l =>
      exact List.mem_map.mpr ⟨(c, l), alookup_mem hc, rfl⟩

theorem nfaStep_key_mem_alphabet (N : NFAr) {S : Finset Nat} {c : Char}
    (hS : ∀ x ∈ S, x ∈ nfaStatesL N)
    (hne : nfaStep N.arena S c ≠ ∅) : String.mk [c] ∈ nfaAlphabet N := by
  rcases Finset.nonempty_iff_ne_empty.mpr hne with ⟨y, hy⟩
  rcases Finset.mem_biUnion.mp hy with ⟨s, hs, hmem⟩
  rw [List.mem_toFinset] at hmem
  unfold nfaAlphabet
  refine Finset.mem_biUnion.mpr ⟨s, List.mem_toFinset.mpr (hS s hs), ?_⟩
  exact List.mem_toFinset.mpr (symTargets_key_mem hmem)

theorem nfaStep_eq_moveSet (A : Arena) (S : Finset Nat) (c : Char) :
    nfaStep A S c = moveSet A S (String.mk [c]) := rfl

/-- Key equivalence: on discovered subset states whose members are
collected NFA states, the NFA simulation loop and the DFA simulation
loop of the constructed subset DFA agree, provided the `is_final` flags
agree with the `final_states` list. -/
theorem nfaSimGo_eq_dfaSimGo (N : NFAr)
    (flagCons : ∀ s ∈ nfaStatesL N, (isFinalSt N.arena s = true ↔ s ∈ N.finals)) :
    ∀ (w : List Char) (S : Finset Nat), S ∈ discoveredL N →
      (∀ x ∈ S, x ∈ nfaStatesL N) →
      nfaSimGo N S w = dfaSimGo (subsetDfa N) S w := by
  intro w
  induction w with
  | nil =>
    intro S hdisc hSst
    simp only [nfaSimGo, dfaSimGo, subsetDfa]
    have : (∃ s ∈ S, isFinalSt N.arena s = true) ↔ S ∈ subsetFinals N := by
      constructor
      · rintro ⟨s, hs, hfin⟩
        refine List.mem_filter.mpr ⟨hdisc, ?_⟩
        simp only [dfaAcceptS, List.any_eq_true, decide_eq_true_eq]
        exact ⟨s, (flagCons s (hSst s hs)).mp hfin, hs⟩
      · intro hmem
        rcases List.mem_filter.mp hmem with ⟨_, hacc⟩
        simp only [dfaAcceptS, List.any_eq_true, decide_eq_true_eq] at hacc
        rcases hacc with ⟨f, hf, hfS⟩
        exact ⟨f, hfS, (flagCons f (hSst f hfS)).mpr hf⟩
    simp [this]
  | cons c w ih =>
    intro S hdisc hSst
    simp only [nfaSimGo, dfaSimGo, subsetDfa]
    by_cases hT : nfaStep N.arena S c = ∅
    · have hdelta : subsetDelta N S (String.mk [c]) = none := by
        unfold subsetDelta dfaDelta
        rw [← nfaStep_eq_moveSet]
        simp [hT]
      simp [hT, hdelta]
    · have hkey : String.mk [c] ∈ nfaAlphabet N :=
        nfaStep_key_mem_alphabet N hSst hT
      have hdd : dfaDelta N S (String.mk [c]) =
          some (ecloseF N.arena (nfaStep N.arena S c)) := by
        unfold dfaDelta
        rw [← nfaStep_eq_moveSet]
        simp [hT]
      have hdelta : subsetDelta N S (String.mk [c]) =
          some (ecloseF N.arena (nfaStep N.arena S c)) := by
        unfold subsetDelta
        rw [if_pos ⟨hdisc, hkey⟩]
        exact hdd
      have hnext : ecloseF N.arena (nfaStep N.arena S c) ∈ discoveredL N := by
        refine discoveredL_closed N hdisc ?_
        unfold dfaSuccs
        refine List.mem_filterMap.mpr ⟨String.mk [c], ?_, hdd⟩
        simpa [sortedAlphabet] using hkey
      have hnextst : ∀ x ∈ ecloseF N.arena (nfaStep N.arena S c),
          x ∈ nfaStatesL N :=
        ecloseF_mem_states N (nfaStep_mem_states N c hSst)
      simp only [hT, if_neg, not_false_iff, hdelta]
      exact ih _ hnext hnextst

/-- `NFA.simulate` agrees with `DFA.simulate` on the constructed subset
DFA (for NFAs whose finality flags match their final-state list, as
Thompson guarantees). -/
theorem nfaSimulate_eq_subset (N : NFAr)
    (flagCons : ∀ s ∈ nfaStatesL N, (isFinalSt N.arena s = true ↔ s ∈ N.finals))
    (w : String) : nfaSimulate N w = dfaSimulate (subsetDfa N) w := by
  unfold nfaSimulate dfaSimulate
  have hstart : (subsetDfa N).start = dfaStart N := rfl
  rw [hstart]
  exact nfaSimGo_eq_dfaSimGo N flagCons w.toList (dfaStart N)
    (discoveredL_start N) (dfaStart_mem_states N)

/-! ## The collected states of the subset DFA are the discovered states -/

theorem discoveredL_subset_powerset (N : NFAr) :
    ∀ S ∈ discoveredL N, S ∈ (nfaUniv N).powerset := by
  intro S hS
  induction (mem_discoveredL N S).mp hS with
  | refl => exact dfaStart_mem_powerset N
  | tail _ hstep ih => exact dfaSuccs_subset_powerset N _ _ hstep

theorem subsetCollect_seeds_powerset (N : NFAr) :
    ∀ S ∈ dfaStart N :: subsetFinals N, S ∈ (nfaUniv N).powerset := by
  intro S hS
  rcases List.mem_cons.mp hS with rfl | hS
  · exact dfaStart_mem_powerset N
  · exact discoveredL_subset_powerset N S (List.mem_filter.mp hS).1

theorem subsetDelta_target_powerset (N : NFAr) :
    ∀ (S : Finset Nat), ∀ T ∈ (sortedAlphabet N).filterMap
      (fun c => subsetDelta N S c), T ∈ (nfaUniv N).powerset := by
  intro S T hT
  rcases List.mem_filterMap.mp hT with ⟨c, hc, hdel⟩
  unfold subsetDelta at hdel
  by_cases hg : S ∈ discoveredL N ∧ c ∈ nfaAlphabet N
  · rw [if_pos hg] at hdel
    refine dfaSuccs_subset_powerset N S T ?_
    exact List.mem_filterMap.mpr ⟨c, hc, hdel⟩
  · rw [if_neg hg] at hdel
    cases hdel

theorem subsetCollect_eq_discovered (N : NFAr) :
    ∀ S, S ∈ subsetCollect N ↔ S ∈ discoveredL N := by
  have hseeds := subsetCollect_seeds_powerset N
  have hU : ∀ x ∈ (nfaUniv N).powerset,
      ∀ y ∈ (sortedAlphabet N).filterMap (fun c => subsetDelta N x c),
        y ∈ (nfaUniv N).powerset :=
    fun x _ y hy => subsetDelta_target_powerset N x y hy
  intro S
  constructor
  · intro hS
    rcases (mem_closureOfL _ _ _ hseeds hU S).mp hS with ⟨x, hx, hr⟩
    have hx0 : x ∈ discoveredL N := by
      rcases List.mem_cons.mp hx with rfl | hx
      · exact discoveredL_start N
      · exact (List.mem_filter.mp hx).1
    clear hS hx
    induction hr with
    | refl => exact hx0
    | tail hr2 hstep ih =>
      rename_i b t
      rcases List.mem_filterMap.mp hstep with ⟨c, hc, hdel⟩
      unfold subsetDelta at hdel
      by_cases hg : b ∈ discoveredL N ∧ c ∈ nfaAlphabet N
      · rw [if_pos hg] at hdel
        refine discoveredL_closed N ih ?_
        exact List.mem_filterMap.mpr ⟨c, hc, hdel⟩
      · rw [if_neg hg] at hdel
        cases hdel
  · intro hS
    induction (mem_discoveredL N S).mp hS with
    | refl =>
      exact closureOfL_seeds _ _ _ hseeds hU (dfaStart N) (by simp)
    | tail hr2 hstep ih =>
      rename_i b c2
      have hb : b ∈ discoveredL N := (mem_discoveredL N b).mpr hr2
      have hbc : b ∈ subsetCollect N := ih hb
      refine closureOfL_closed _ _ _ hseeds hU b hbc c2 ?_
      rcases List.mem_filterMap.mp hstep with ⟨c, hc, hdel⟩
      refine List.mem_filterMap.mpr ⟨c, hc, ?_⟩
      unfold subsetDelta
      rw [if_pos ⟨hb, by simpa [sortedAlphabet] using hc⟩]
      exact hdel

/-! ## DFA minimization (`automata_constructors.py`, `DFAMinimizer`)

Partitions are lists of classes; a class is the list of DFA states it
groups (Python keeps sets; insertion order models iteration order, and
every set-level fact proved below is order-independent).  `minimize_dfa`
returns the input object unchanged when it has at most one state, so the
observable outcomes of minimization are exposed as
`minimizeStatesCount` and `minimizeSimulate`. -/

/-- Index of the first partition containing a state, as computed by the
loop over `enumerate(all_partitions)` in `_split_partition`; `none` when
no partition contains it. -/
def classIdx {σ : Type _} [DecidableEq σ] (t : σ) : List (List σ) → Option Nat
  | [] => none
  | C :: P => if t ∈ C then some 0 else (classIdx t P).map (· + 1)

/-- The first partition containing a state, as found by the loop over
`partitions` in `_build_minimized_dfa`. -/
def minFind {σ : Type _} [DecidableEq σ] (t : σ) : List (List σ) → Option (List σ)
  | [] => none
  | C :: P => if t ∈ C then some C else minFind t P

/-- The behaviour signature of a state (`_split_partition`): for each
alphabet symbol in sorted order, the index of the partition containing
the transition target, or `none` when there is no transition (or the
target lies in no partition, which the source also encodes as `None`). -/
def behaviorSig {σ : Type _} [DecidableEq σ] (alpha : List String)
    (delta : σ → String → Option σ) (P : List (List σ)) (s : σ) :
    List (Option Nat) :=
  alpha.map (fun c =>
    match delta s c with
    | some t => classIdx t P
    | none => none)

/-- Insert a state into the behaviour group of its signature, keeping
first-seen group order (a Python dict of lists). -/
def groupInsert {σ : Type _} [DecidableEq σ] (key : List (Option Nat)) (s : σ) :
    List (List (Option Nat) × List σ) → List (List (Option Nat) × List σ)
  | [] => [(key, [s])]
  | (k, g) :: rest =>
    if k = key then (k, g ++ [s]) :: rest else (k, g) :: groupInsert key s rest

/-- Group the members of a class by behaviour signature
(`behavior_groups`). -/
def sigGroups {σ : Type _} [DecidableEq σ] (alpha : List String)
    (delta : σ → String → Option σ) (P : List (List σ)) (C : List σ) :
    List (List (Option Nat) × List σ) :=
  C.foldl (fun acc s => groupInsert (behaviorSig alpha delta P s) s acc) []

/-- `_split_partition`: classes of at most one state are returned
unchanged, larger classes are split by behaviour signature. -/
def splitClass {σ : Type _} [DecidableEq σ] (alpha : List String)
    (delta : σ → String → Option σ) (P : List (List σ)) (C : List σ) :
    List (List σ) :=
  if C.length ≤ 1 then [C] else (sigGroups alpha delta P C).map Prod.snd

/-- One full refinement pass over all partitions (the body of the
`while changed` loop). -/
def refineOnce {σ : Type _} [DecidableEq σ] (alpha : List String)
    (delta : σ → String → Option σ) (P : List (List σ)) : List (List σ) :=
  (P.map (fun C => splitClass alpha delta P C)).flatten

/-- Whether a pass would set `changed`: some partition splits into more
than one subgroup. -/
def refineChanged {σ : Type _} [DecidableEq σ] (alpha : List String)
    (delta : σ → String → Option σ) (P : List (List σ)) : Bool :=
  P.any (fun C => decide (1 < (splitClass alpha delta P C).length))

/-- The refinement loop.  The source runs passes until one makes no
change; a changeless pass returns the partition list unchanged
(`refineOnce_of_not_changed` below), so testing before the pass is
equivalent.  The fuel bounds pass count; `refineLoop_spec` shows
`|states| + 1` passes always reach the fixed point. -/
def refineLoop {σ : Type _} [DecidableEq σ] (alpha : List String)
    (delta : σ → String → Option σ) : Nat → List (List σ) → List (List σ)
  | 0, P => P
  | fuel + 1, P =>
    if refineChanged alpha delta P then
      refineLoop alpha delta fuel (refineOnce alpha delta P)
    else P

/-- The initial partition: non-final states then final states, empty
groups omitted. -/
def initPartition {σ : Type _} [DecidableEq σ] (D : DFAr σ) : List (List σ) :=
  let fin := D.states.filter (fun s => decide (s ∈ D.finals))
  let nonfin := D.states.filter (fun s => decide (s ∉ D.finals))
  (if nonfin.isEmpty then [] else [nonfin]) ++
    (if fin.isEmpty then [] else [fin])

/-- The DFA alphabet in sorted order (`sorted(alphabet)`). -/
def alphaSorted {σ : Type _} (D : DFAr σ) : List String :=
  D.alphabet.sort (· ≤ ·)

/-- The partition computed by the refinement loop of `minimize_dfa`. -/
def refinedPartition {σ : Type _} [DecidableEq σ] (D : DFAr σ) :
    List (List σ) :=
  refineLoop (alphaSorted D) D.delta (D.states.length + 1) (initPartition D)

/-- Transition function of the minimized DFA: for an alphabet symbol on
which the representative (first member) of the class has a transition,
the first partition containing the target (`_build_minimized_dfa`). -/
def minDelta {σ : Type _} [DecidableEq σ] (D : DFAr σ) (P : List (List σ))
    (C : List σ) (c : String) : Option (List σ) :=
  if c ∈ D.alphabet then
    match C.head? with
    | none => none
    | some rep =>
      match D.delta rep c with
      | none => none
      | some t => minFind t P
  else none

/-- The start state of the minimized DFA: the partition containing the
original start state. -/
def minStart {σ : Type _} [DecidableEq σ] (D : DFAr σ) (P : List (List σ)) :
    List σ :=
  (minFind D.start P).getD []

/-- Final states of the minimized DFA: partitions containing some
original final state. -/
def minFinalsL {σ : Type _} [DecidableEq σ] (D : DFAr σ) (P : List (List σ)) :
    List (List σ) :=
  P.filter (fun C => C.any (fun s => decide (s ∈ D.finals)))

/-- The `states` field of the minimized DFA object, recollected by
`DFA._collect_states` from its start and final states. -/
def minCollect {σ : Type _} [DecidableEq σ] (D : DFAr σ) (P : List (List σ)) :
    List (List σ) :=
  closureOfL (fun C => (alphaSorted D).filterMap (fun c => minDelta D P C c))
    P.toFinset (minStart D P :: minFinalsL D P)

/-- The `DFA` object built by `_build_minimized_dfa`. -/
def buildMinimized {σ : Type _} [DecidableEq σ] (D : DFAr σ) : DFAr (List σ) :=
  { start := minStart D (refinedPartition D)
    finals := minFinalsL D (refinedPartition D)
    alphabet := D.alphabet
    delta := minDelta D (refinedPartition D)
    states := minCollect D (refinedPartition D) }

/-- State count of the DFA returned by `minimize_dfa` (the input object
itself when it has at most one state). -/
def minimizeStatesCount {σ : Type _} [DecidableEq σ] (D : DFAr σ) : Nat :=
  if D.states.length ≤ 1 then D.states.length
  else (buildMinimized D).states.length

/-- Simulation behaviour of the DFA returned by `minimize_dfa`. -/
def minimizeSimulate {σ : Type _} [DecidableEq σ] (D : DFAr σ) (w : String) :
    Bool :=
  if D.states.length ≤ 1 then dfaSimulate D w
  else dfaSimulate (buildMinimized D) w

/-! ## Properties of the refinement -/

/-- Well-formedness of a partition list for a DFA: classes are nonempty,
together they are a permutation of the state list, and each class is
pure with respect to finality. -/
def ClassesOk {σ : Type _} [DecidableEq σ] (D : DFAr σ) (P : List (List σ)) :
    Prop :=
  (∀ C ∈ P, C ≠ []) ∧ P.flatten.Perm D.states ∧
    (∀ C ∈ P, ∀ s ∈ C, ∀ t ∈ C, (s ∈ D.finals ↔ t ∈ D.finals))

theorem groupInsert_flatten_perm {σ : Type _} [DecidableEq σ]
    (key : List (Option Nat)) (s : σ) :
    ∀ acc : List (List (Option Nat) × List σ),
      ((groupInsert key s acc).map Prod.snd).flatten.Perm
        (s :: (acc.map Prod.snd).flatten) := by
  intro acc
  induction acc with
  | nil => simp [groupInsert]
  | cons p rest ih =>
    obtain ⟨k, g⟩ := p
    by_cases hk : k = key
    · simp only [groupInsert, if_pos hk, List.map_cons, List.flatten_cons]
      have : g ++ [s] ++ (rest.map Prod.snd).flatten =
          g ++ (s :: (rest.map Prod.snd).flatten) := by simp
      rw [this]
      exact (List.perm_middle).trans (List.Perm.refl _)
    · simp only [groupInsert, if_neg hk, List.map_cons, List.flatten_cons]
      refine ((ih.append_left g).trans ?_)
      exact List.perm_middle

theorem sigGroups_flatten_perm {σ : Type _} [DecidableEq σ]
    (alpha : List String) (delta : σ → String → Option σ)
    (P : List (List σ)) :
    ∀ (C : List σ) (acc : List (List (Option Nat) × List σ)),
      ((C.foldl (fun acc s =>
          groupInsert (behaviorSig alpha delta P s) s acc) acc).map
            Prod.snd).flatten.Perm (C ++ (acc.map Prod.snd).flatten) := by
  intro C
  induction C with
  | nil => intro acc; simp
  | cons x C ih =>
    intro acc
    simp only [List.foldl_cons, List.cons_append]
    refine (ih _).trans ?_
    refine ((groupInsert_flatten_perm _ x acc).append_left C).trans ?_
    exact List.perm_middle

theorem splitClass_flatten_perm {σ : Type _} [DecidableEq σ]
    (alpha : List String) (delta : σ → String → Option σ)
    (P : List (List σ)) (C : List σ) :
    (splitClass alpha delta P C).flatten.Perm C := by
  unfold splitClass
  by_cases h : C.length ≤ 1
  · simp [h]
  · rw [if_neg h]
    unfold sigGroups
    simpa using sigGroups_flatten_perm alpha delta P C []

theorem groupInsert_mem_sig {σ : Type _} [DecidableEq σ]
    (sig : σ → List (Option Nat)) (x : σ) :
    ∀ acc : List (List (Option Nat) × List σ),
      (∀ kg ∈ acc, ∀ s ∈ kg.2, sig s = kg.1) →
      ∀ kg ∈ groupInsert (sig x) x acc, ∀ s ∈ kg.2, sig s = kg.1 := by
  intro acc
  induction acc with
  | nil =>
    intro _ kg hkg s hs
    simp only [groupInsert, List.mem_singleton] at hkg
    subst hkg
    simp at hs
    subst hs
    rfl
  | cons p rest ih =>
    obtain ⟨k, g⟩ := p
    intro hacc kg hkg s hs
    by_cases hk : k = sig x
    · simp only [groupInsert, if_pos hk] at hkg
      rcases List.mem_cons.mp hkg with rfl | hkg
      · simp only [List.mem_append, List.mem_singleton] at hs
        rcases hs with hs | rfl
        · exact hacc (k, g) (by simp) s hs
        · exact hk.symm
      · exact hacc kg (by simp [hkg]) s hs
    · simp only [groupInsert, if_neg hk] at hkg
      rcases List.mem_cons.mp hkg with rfl | hkg
      · exact hacc (k, g) (by simp) s hs
      · exact ih (fun kg2 h2 => hacc kg2 (by simp [h2])) kg hkg s hs

theorem sigGroups_mem_sig {σ : Type _} [DecidableEq σ]
    (alpha : List String) (delta : σ → String → Option σ)
    (P : List (List σ)) (C : List σ) :
    ∀ kg ∈ sigGroups alpha delta P C, ∀ s ∈ kg.2,
      behaviorSig alpha delta P s = kg.1 := by
  unfold sigGroups
  suffices h : ∀ (C2 : List σ) (acc : List (List (Option Nat) × List σ)),
      (∀ kg ∈ acc, ∀ s ∈ kg.2, behaviorSig alpha delta P s = kg.1) →
      ∀ kg ∈ C2.foldl (fun acc s =>
        groupInsert (behaviorSig alpha delta P s) s acc) acc, ∀ s ∈ kg.2,
        behaviorSig alpha delta P s = kg.1 by
    exact h C [] (by simp)
  intro C2
  induction C2 with
  | nil => intro acc hacc; simpa using hacc
  | cons x C2 ih =>
    intro acc hacc
    simp only [List.foldl_cons]
    exact ih _ (groupInsert_mem_sig (behaviorSig alpha delta P) x acc hacc)

/-- If a class does not split, all its members share one behaviour
signature. -/
theorem splitClass_uniform {σ : Type _} [DecidableEq σ]
    (alpha : List String) (delta : σ → String → Option σ)
    (P : List (List σ)) (C : List σ)
    (h : ¬ 1 < (splitClass alpha delta P C).length) :
    ∀ s ∈ C, ∀ t ∈ C, behaviorSig alpha delta P s = behaviorSig alpha delta P t := by
  intro s hs t ht
  by_cases hl : C.length ≤ 1
  · have : s = t := by
      cases C with
      | nil => simp at hs
      | cons a l =>
        cases l with
        | nil =>
          simp at hs ht
          rw [hs, ht]
        | cons b l2 => simp at hl
    rw [this]
  · have hsplit : splitClass alpha delta P C =
        (sigGroups alpha delta P C).map Prod.snd := by
      unfold splitClass
      rw [if_neg hl]
    have hmem : ∀ x ∈ C, ∃ kg ∈ sigGroups alpha delta P C, x ∈ kg.2 := by
      intro x hx
      have hperm := splitClass_flatten_perm alpha delta P C
      have : x ∈ (splitClass alpha delta P C).flatten := hperm.mem_iff.mpr hx
      rw [hsplit] at this
      rcases List.mem_flatten.mp this with ⟨g, hg, hxg⟩
      rcases List.mem_map.mp hg with ⟨kg, hkg, rfl⟩
      exact ⟨kg, hkg, hxg⟩
    rcases hmem s hs with ⟨kgs, hkgs, hsin⟩
    rcases hmem t ht with ⟨kgt, hkgt, htin⟩
    have hone : kgs = kgt := by
      have hlen : (sigGroups alpha delta P C).length ≤ 1 := by
        rw [hsplit] at h
        simpa using h
      cases hgroups : sigGroups alpha delta P C with
      | nil => rw [hgroups] at hkgs; simp at hkgs
      | cons a l =>
        cases l with
        | nil =>
          rw [hgroups] at hkgs hkgt
          simp at hkgs hkgt
          rw [hkgs, hkgt]
        | cons b l2 => rw [hgroups] at hlen; simp at hlen
    rw [sigGroups_mem_sig alpha delta P C kgs hkgs s hsin,
      sigGroups_mem_sig alpha delta P C kgt hkgt t htin, hone]

theorem groupInsert_snd_ne_nil {σ : Type _} [DecidableEq σ]
    (key : List (Option Nat)) (x : σ) :
    ∀ acc : List (List (Option Nat) × List σ),
      (∀ kg ∈ acc, kg.2 ≠ []) →
      ∀ kg ∈ groupInsert key x acc, kg.2 ≠ [] := by
  intro acc
  induction acc with
  | nil =>
    intro _ kg hkg
    simp only [groupInsert, List.mem_singleton] at hkg
    subst hkg
    simp
  | cons p rest ih =>
    obtain ⟨k, g⟩ := p
    intro hacc kg hkg
    by_cases hk : k = key
    · simp only [groupInsert, if_pos hk] at hkg
      rcases List.mem_cons.mp hkg with rfl | hkg
      · simp
      · exact hacc kg (by simp [hkg])
    · simp only [groupInsert, if_neg hk] at hkg
      rcases List.mem_cons.mp hkg with rfl | hkg
      · exact hacc (k, g) (by simp)
      · exact ih (fun kg2 h2 => hacc kg2 (by simp [h2])) kg hkg

theorem splitClass_ne_nil {σ : Type _} [DecidableEq σ]
    (alpha : List String) (delta : σ → String → Option σ)
    (P : List (List σ)) (C : List σ) (hC : C ≠ []) :
    ∀ g ∈ splitClass alpha delta P C, g ≠ [] := by
  intro g hg
  unfold splitClass at hg
  by_cases hl : C.length ≤ 1
  · rw [if_pos hl] at hg
    simp at hg
    rw [hg]
    exact hC
  · rw [if_neg hl] at hg
    rcases List.mem_map.mp hg with ⟨kg, hkg, rfl⟩
    unfold sigGroups at hkg
    suffices h : ∀ (C2 : List σ) (acc : List (List (Option Nat) × List σ)),
        (∀ kg2 ∈ acc, kg2.2 ≠ []) →
        ∀ kg2 ∈ C2.foldl (fun acc s =>
          groupInsert (behaviorSig alpha delta P s) s acc) acc, kg2.2 ≠ [] by
      exact h C [] (by simp) kg hkg
    intro C2
    induction C2 with
    | nil => intro acc hacc; simpa using hacc
    | cons x C2 ih =>
      intro acc hacc
      simp only [List.foldl_cons]
      exact ih _ (groupInsert_snd_ne_nil _ x acc hacc)

theorem passSplit_flatten_perm {σ : Type _} [DecidableEq σ]
    (alpha : List String) (delta : σ → String → Option σ)
    (ctx : List (List σ)) :
    ∀ Q : List (List σ),
      ((Q.map (fun C => splitClass alpha delta ctx C)).flatten).flatten.Perm
        Q.flatten := by
  intro Q
  induction Q with
  | nil => simp
  | cons C Q ih =>
    simp only [List.map_cons, List.flatten_cons, List.flatten_append]
    exact (splitClass_flatten_perm alpha delta ctx C).append ih

theorem refineOnce_flatten_perm {σ : Type _} [DecidableEq σ]
    (alpha : List String) (delta : σ → String → Option σ)
    (P : List (List σ)) :
    (refineOnce alpha delta P).flatten.Perm P.flatten :=
  passSplit_flatten_perm alpha delta P P

theorem refineOnce_ClassesOk {σ : Type _} [DecidableEq σ] (D : DFAr σ)
    (P : List (List σ)) (h : ClassesOk D P) :
    ClassesOk D (refineOnce (alphaSorted D) D.delta P) := by
  obtain ⟨hne, hperm, hpure⟩ := h
  refine ⟨?_, (refineOnce_flatten_perm _ _ P).trans hperm, ?_⟩
  · intro C hC
    unfold refineOnce at hC
    rcases List.mem_flatten.mp hC with ⟨l, hl, hCl⟩
    rcases List.mem_map.mp hl with ⟨C0, hC0, rfl⟩
    exact splitClass_ne_nil _ _ _ C0 (hne C0 hC0) C hCl
  · intro C hC s hs t ht
    unfold refineOnce at hC
    rcases List.mem_flatten.mp hC with ⟨l, hl, hCl⟩
    rcases List.mem_map.mp hl with ⟨C0, hC0, rfl⟩
    have hsub : ∀ x ∈ C, x ∈ C0 := by
      intro x hx
      have : x ∈ (splitClass (alphaSorted D) D.delta P C0).flatten :=
        List.mem_flatten.mpr ⟨C, hCl, hx⟩
      exact (splitClass_flatten_perm _ _ P C0).mem_iff.mp this
    exact hpure C0 hC0 s (hsub s hs) t (hsub t ht)

theorem length_le_flatten_length {σ : Type _} (P : List (List σ))
    (hne : ∀ C ∈ P, C ≠ []) : P.length ≤ P.flatten.length := by
  induction P with
  | nil => simp
  | cons C P ih =>
    simp only [List.length_cons, List.flatten_cons, List.length_append]
    have hC := hne C (by simp)
    have : 1 ≤ C.length := by
      cases C with
      | nil => exact absurd rfl hC
      | cons a l => simp
    have hih := ih (fun C2 h2 => hne C2 (by simp [h2]))
    omega

theorem splitClass_length_pos {σ : Type _} [DecidableEq σ]
    (alpha : List String) (delta : σ → String → Option σ)
    (P : List (List σ)) (C : List σ) (hC : C ≠ []) :
    1 ≤ (splitClass alpha delta P C).length := by
  rcases List.eq_nil_or_concat (splitClass alpha delta P C) with hnil | ⟨l, a, hla⟩
  · exfalso
    have hperm := splitClass_flatten_perm alpha delta P C
    rw [hnil] at hperm
    exact hC (hperm.nil_eq).symm
  · rw [hla]
    simp

theorem refineOnce_length_grow {σ : Type _} [DecidableEq σ]
    (alpha : List String) (delta : σ → String → Option σ)
    (P : List (List σ)) (hne : ∀ C ∈ P, C ≠ [])
    (hch : refineChanged alpha delta P = true) :
    P.length + 1 ≤ (refineOnce alpha delta P).length := by
  unfold refineChanged at hch
  rcases List.any_eq_true.mp hch with ⟨C0, hC0, hsplit⟩
  rw [decide_eq_true_eq] at hsplit
  unfold refineOnce
  have key : ∀ Q : List (List σ), (∀ C ∈ Q, C ≠ []) →
      (Q.length ≤ ((Q.map (fun C => splitClass alpha delta P C)).flatten).length ∧
       (C0 ∈ Q → Q.length + 1 ≤
         ((Q.map (fun C => splitClass alpha delta P C)).flatten).length)) := by
    intro Q
    induction Q with
    | nil => intro _; simp
    | cons C Q ih =>
      intro hneQ
      obtain ⟨ih1, ih2⟩ := ih (fun C2 h2 => hneQ C2 (by simp [h2]))
      have hC1 : 1 ≤ (splitClass alpha delta P C).length :=
        splitClass_length_pos alpha delta P C (hneQ C (by simp))
      simp only [List.map_cons, List.flatten_cons, List.length_append,
        List.length_cons]
      constructor
      · omega
      · intro hC0mem
        rcases List.mem_cons.mp hC0mem with rfl | hC0mem
        · omega
        · have := ih2 hC0mem
          omega
  exact (key P hne).2 hC0

theorem refineLoop_spec {σ : Type _} [DecidableEq σ] (D : DFAr σ) :
    ∀ (fuel : Nat) (P : List (List σ)), ClassesOk D P →
      D.states.length + 1 ≤ fuel + P.length →
      ClassesOk D (refineLoop (alphaSorted D) D.delta fuel P) ∧
        refineChanged (alphaSorted D) D.delta
          (refineLoop (alphaSorted D) D.delta fuel P) = false := by
  intro fuel
  induction fuel with
  | zero =>
    intro P hok hb
    exfalso
    have h1 : P.length ≤ P.flatten.length :=
      length_le_flatten_length P hok.1
    have h2 : P.flatten.length = D.states.length :=
      hok.2.1.length_eq
    omega
  | succ f ih =>
    intro P hok hb
    by_cases hch : refineChanged (alphaSorted D) D.delta P = true
    · have hgrow := refineOnce_length_grow (alphaSorted D) D.delta P hok.1 hch
      have hok2 := refineOnce_ClassesOk D P hok
      have := ih (refineOnce (alphaSorted D) D.delta P) hok2 (by omega)
      simpa [refineLoop, hch] using this
    · rw [Bool.not_eq_true] at hch
      simp only [refineLoop, hch]
      exact ⟨hok, by simp [hch]⟩

/-- A pass that makes no change returns the partition list unchanged, so
checking `changed` before or after the pass is equivalent. -/
theorem refineOnce_of_not_changed {σ : Type _} [DecidableEq σ]
    (alpha : List String) (delta : σ → String → Option σ)
    (P : List (List σ)) (hne : ∀ C ∈ P, C ≠ [])
    (hch : refineChanged alpha delta P = false) :
    refineOnce alpha delta P = P := by
  have hgrp : ∀ (l : List σ) (k : List (Option Nat)) (g : List σ),
      (∀ y ∈ l, behaviorSig alpha delta P y = k) →
      l.foldl (fun acc s =>
        groupInsert (behaviorSig alpha delta P s) s acc) [(k, g)] =
        [(k, g ++ l)] := by
    intro l
    induction l with
    | nil => intro k g _; simp
    | cons y l ih =>
      intro k g hall2
      simp only [List.foldl_cons]
      rw [hall2 y (by simp)]
      simp only [groupInsert, if_pos rfl, if_true]
      rw [ih k (g ++ [y]) (fun z hz => hall2 z (by simp [hz]))]
      simp
  have hall : ∀ C ∈ P, splitClass alpha delta P C = [C] := by
    intro C hC
    have hnot : ¬ 1 < (splitClass alpha delta P C).length := by
      intro hgt
      have : refineChanged alpha delta P = true := by
        unfold refineChanged
        exact List.any_eq_true.mpr ⟨C, hC, by simpa using hgt⟩
      rw [this] at hch
      cases hch
    unfold splitClass
    by_cases hl : C.length ≤ 1
    · rw [if_pos hl]
    · rw [if_neg hl]
      have huni := splitClass_uniform alpha delta P C hnot
      have hCne := hne C hC
      cases C with
      | nil => exact absurd rfl hCne
      | cons x C2 =>
        unfold sigGroups
        simp only [List.foldl_cons, groupInsert]
        rw [hgrp C2 (behaviorSig alpha delta P x) [x]
          (fun y hy => huni y (by simp [hy]) x (by simp))]
        simp
  unfold refineOnce
  have hmapeq : P.map (fun C => splitClass alpha delta P C) =
      P.map (fun C => [C]) := List.map_congr_left hall
  rw [hmapeq]
  have hgen : ∀ l : List (List σ), (l.map (fun C => [C])).flatten = l := by
    intro l
    induction l with
    | nil => rfl
    | cons a l ih => simp [ih]
  exact hgen P

theorem initPartition_mem {σ : Type _} [DecidableEq σ] (D : DFAr σ) :
    ∀ C ∈ initPartition D,
      (C = D.states.filter (fun s => decide (s ∉ D.finals)) ∨
       C = D.states.filter (fun s => decide (s ∈ D.finals))) ∧ C ≠ [] := by
  intro C hC
  simp only [initPartition] at hC
  rcases List.mem_append.mp hC with hC | hC
  · split at hC
    · simp at hC
    · rename_i hne
      rw [List.mem_singleton] at hC
      refine ⟨Or.inl hC, ?_⟩
      rw [hC]
      intro hnil
      rw [hnil] at hne
      simp at hne
  · split at hC
    · simp at hC
    · rename_i hne
      rw [List.mem_singleton] at hC
      refine ⟨Or.inr hC, ?_⟩
      rw [hC]
      intro hnil
      rw [hnil] at hne
      simp at hne

theorem initPartition_flatten {σ : Type _} [DecidableEq σ] (D : DFAr σ) :
    (initPartition D).flatten.Perm D.states := by
  have hperm : (D.states.filter (fun s => decide (s ∉ D.finals))) ++
      (D.states.filter (fun s => decide (s ∈ D.finals))) |>.Perm D.states := by
    have h := List.filter_append_perm (fun s => decide (s ∉ D.finals)) D.states
    have hcongr : D.states.filter (fun s => !decide (s ∉ D.finals)) =
        D.states.filter (fun s => decide (s ∈ D.finals)) := by
      refine List.filter_congr ?_
      intro x _
      by_cases hx : x ∈ D.finals <;> simp [hx]
    rw [hcongr] at h
    exact h
  have key : (initPartition D).flatten =
      (D.states.filter (fun s => decide (s ∉ D.finals))) ++
      (D.states.filter (fun s => decide (s ∈ D.finals))) := by
    simp only [initPartition]
    by_cases h1 : (D.states.filter (fun s => decide (s ∉ D.finals))).isEmpty
    · rw [if_pos h1]
      have e1 := List.isEmpty_iff.mp h1
      by_cases h2 : (D.states.filter (fun s => decide (s ∈ D.finals))).isEmpty
      · rw [if_pos h2]
        have e2 := List.isEmpty_iff.mp h2
        rw [e1, e2]
        simp
      · rw [if_neg h2, e1]
        simp
    · rw [if_neg h1]
      by_cases h2 : (D.states.filter (fun s => decide (s ∈ D.finals))).isEmpty
      · rw [if_pos h2]
        have e2 := List.isEmpty_iff.mp h2
        rw [e2]
        simp
      · rw [if_neg h2]
        simp
  rw [key]
  exact hperm

theorem initPartition_ClassesOk {σ : Type _} [DecidableEq σ] (D : DFAr σ) :
    ClassesOk D (initPartition D) := by
  refine ⟨fun C hC => (initPartition_mem D C hC).2, initPartition_flatten D, ?_⟩
  intro C hC s hs t ht
  rcases (initPartition_mem D C hC).1 with rfl | rfl
  · have hs2 := (List.mem_filter.mp hs).2
    have ht2 := (List.mem_filter.mp ht).2
    simp at hs2 ht2
    simp [hs2, ht2]
  · have hs2 := (List.mem_filter.mp hs).2
    have ht2 := (List.mem_filter.mp ht).2
    simp at hs2 ht2
    simp [hs2, ht2]

/-- The refined partition of a DFA is well formed and stable. -/
theorem refinedPartition_spec {σ : Type _} [DecidableEq σ] (D : DFAr σ) :
    ClassesOk D (refinedPartition D) ∧
      refineChanged (alphaSorted D) D.delta (refinedPartition D) = false := by
  refine refineLoop_spec D (D.states.length + 1) (initPartition D)
    (initPartition_ClassesOk D) (by omega)

/-! ## Class lookup lemmas -/

theorem classIdx_eq_none {σ : Type _} [DecidableEq σ] (t : σ) :
    ∀ P : List (List σ), classIdx t P = none ↔ ∀ C ∈ P, t ∉ C := by
  intro P
  induction P with
  | nil => simp [classIdx]
  | cons C P ih =>
    unfold classIdx
    by_cases hC : t ∈ C
    · simp [hC]
    · simp only [if_neg hC, Option.map_eq_none', ih]
      constructor
      · intro h C2 hC2
        rcases List.mem_cons.mp hC2 with rfl | hC2
        · exact hC
        · exact h C2 hC2
      · intro h C2 hC2
        exact h C2 (by simp [hC2])

theorem classIdx_some {σ : Type _} [DecidableEq σ] (t : σ) :
    ∀ (P : List (List σ)) (i : Nat), classIdx t P = some i →
      ∃ h : i < P.length, t ∈ P.get ⟨i, h⟩ ∧ minFind t P = some (P.get ⟨i, h⟩) := by
  intro P
  induction P with
  | nil => intro i h; simp [classIdx] at h
  | cons C P ih =>
    intro i h
    unfold classIdx at h
    by_cases hC : t ∈ C
    · rw [if_pos hC] at h
      cases h
      exact ⟨by simp, by simpa using hC, by simp [minFind, hC]⟩
    · rw [if_neg hC] at h
      rcases Option.map_eq_some'.mp h with ⟨j, hj, rfl⟩
      rcases ih j hj with ⟨hlt, hmem, hfind⟩
      refine ⟨by simpa using Nat.succ_lt_succ hlt, ?_, ?_⟩
      · simpa using hmem
      · simpa [minFind, hC] using hfind

theorem minFind_mem {σ : Type _} [DecidableEq σ] (t : σ) :
    ∀ (P : List (List σ)) (C : List σ), minFind t P = some C →
      C ∈ P ∧ t ∈ C := by
  intro P
  induction P with
  | nil => intro C h; simp [minFind] at h
  | cons C0 P ih =>
    intro C h
    unfold minFind at h
    by_cases hC : t ∈ C0
    · rw [if_pos hC] at h
      cases h
      exact ⟨by simp, hC⟩
    · rw [if_neg hC] at h
      rcases ih C h with ⟨h1, h2⟩
      exact ⟨by simp [h1], h2⟩

/-- In a partition list covering the states, every state has a class. -/
theorem classIdx_isSome_of_mem {σ : Type _} [DecidableEq σ]
    {P : List (List σ)} {t : σ} (h : ∃ C ∈ P, t ∈ C) :
    ∃ i, classIdx t P = some i := by
  cases hidx : classIdx t P with
  | none =>
    rcases h with ⟨C, hC, htC⟩
    exact absurd htC ((classIdx_eq_none t P).mp hidx C hC)
  | some i => exact ⟨i, rfl⟩

theorem coverage_of_ClassesOk {σ : Type _} [DecidableEq σ] {D : DFAr σ}
    {P : List (List σ)} (hok : ClassesOk D P) {t : σ} (ht : t ∈ D.states) :
    ∃ C ∈ P, t ∈ C := by
  have : t ∈ P.flatten := hok.2.1.mem_iff.mpr ht
  rcases List.mem_flatten.mp this with ⟨C, hC, htC⟩
  exact ⟨C, hC, htC⟩

theorem class_mem_states {σ : Type _} [DecidableEq σ] {D : DFAr σ}
    {P : List (List σ)} (hok : ClassesOk D P) {C : List σ} (hC : C ∈ P)
    {s : σ} (hs : s ∈ C) : s ∈ D.states :=
  hok.2.1.mem_iff.mp (List.mem_flatten.mpr ⟨C, hC, hs⟩)

theorem stable_sig_uniform {σ : Type _} [DecidableEq σ] (D : DFAr σ)
    (P : List (List σ))
    (hst : refineChanged (alphaSorted D) D.delta P = false) :
    ∀ C ∈ P, ∀ s ∈ C, ∀ t ∈ C,
      behaviorSig (alphaSorted D) D.delta P s =
        behaviorSig (alphaSorted D) D.delta P t := by
  intro C hC
  refine splitClass_uniform (alphaSorted D) D.delta P C ?_
  intro hgt
  have : refineChanged (alphaSorted D) D.delta P = true := by
    unfold refineChanged
    exact List.any_eq_true.mpr ⟨C, hC, by simpa using hgt⟩
  rw [this] at hst
  cases hst

theorem map_eq_map_mem {α β : Type _} {f g : α → β} :
    ∀ {l : List α}, l.map f = l.map g → ∀ x ∈ l, f x = g x := by
  intro l
  induction l with
  | nil => intro _ x hx; simp at hx
  | cons a l ih =>
    intro h x hx
    simp only [List.map_cons, List.cons.injEq] at h
    rcases List.mem_cons.mp hx with rfl | hx
    · exact h.1
    · exact ih h.2 x hx

/-- On an alphabet symbol, two states with the same behaviour signature
either both lack a transition or transition into the same partition. -/
theorem sig_step_match {σ : Type _} [DecidableEq σ] (D : DFAr σ)
    (P : List (List σ)) (hok : ClassesOk D P)
    (hclosed : ∀ s ∈ D.states, ∀ (c : String) (t : σ),
      D.delta s c = some t → t ∈ D.states)
    {s r : σ}
    (hsig : behaviorSig (alphaSorted D) D.delta P s =
      behaviorSig (alphaSorted D) D.delta P r)
    (hs : s ∈ D.states) (hr : r ∈ D.states) (c : String)
    (hc : c ∈ D.alphabet) :
    (D.delta s c = none ∧ D.delta r c = none) ∨
    (∃ (ts tr : σ) (i : Nat) (h : i < P.length),
      D.delta s c = some ts ∧ D.delta r c = some tr ∧
      ts ∈ P.get ⟨i, h⟩ ∧ tr ∈ P.get ⟨i, h⟩ ∧
      minFind tr P = some (P.get ⟨i, h⟩) ∧
      minFind ts P = some (P.get ⟨i, h⟩)) := by
  have hcs : c ∈ alphaSorted D := by
    simpa [alphaSorted] using hc
  have hpt := map_eq_map_mem hsig c hcs
  simp only at hpt
  cases hds : D.delta s c with
  | none =>
    cases hdr : D.delta r c with
    | none => exact Or.inl ⟨rfl, rfl⟩
    | some tr =>
      simp only [hds, hdr] at hpt
      rcases classIdx_isSome_of_mem
        (coverage_of_ClassesOk hok (hclosed r hr c tr hdr)) with ⟨i, hi⟩
      rw [hi] at hpt
      cases hpt
  | some ts =>
    cases hdr : D.delta r c with
    | none =>
      simp only [hds, hdr] at hpt
      rcases classIdx_isSome_of_mem
        (coverage_of_ClassesOk hok (hclosed s hs c ts hds)) with ⟨i, hi⟩
      rw [hi] at hpt
      cases hpt
    | some tr =>
      simp only [hds, hdr] at hpt
      rcases classIdx_isSome_of_mem
        (coverage_of_ClassesOk hok (hclosed s hs c ts hds)) with ⟨i, hi⟩
      have hitr : classIdx tr P = some i := by
        rw [← hpt, hi]
      rcases classIdx_some ts P i hi with ⟨hlt, hmem, hfinds⟩
      rcases classIdx_some tr P i hitr with ⟨hlt2, hmem2, hfind2⟩
      exact Or.inr ⟨ts, tr, i, hlt, rfl, rfl, hmem, hmem2, hfind2, hfinds⟩

/-- States in one class of a stable partition accept exactly the same
inputs. -/
theorem same_class_same_sim {σ : Type _} [DecidableEq σ] (D : DFAr σ)
    (P : List (List σ)) (hok : ClassesOk D P)
    (hst : refineChanged (alphaSorted D) D.delta P = false)
    (hclosed : ∀ s ∈ D.states, ∀ (c : String) (t : σ),
      D.delta s c = some t → t ∈ D.states)
    (halpha : ∀ s ∈ D.states, ∀ c : String, c ∉ D.alphabet →
      D.delta s c = none) :
    ∀ (w : List Char) (C : List σ), C ∈ P → ∀ s ∈ C, ∀ t ∈ C,
      dfaSimGo D s w = dfaSimGo D t w := by
  intro w
  induction w with
  | nil =>
    intro C hC s hs t ht
    simp only [dfaSimGo]
    have := hok.2.2 C hC s hs t ht
    simp [this]
  | cons c w ih =>
    intro C hC s hs t ht
    simp only [dfaSimGo]
    have hsst : s ∈ D.states := class_mem_states hok hC hs
    have htst : t ∈ D.states := class_mem_states hok hC ht
    by_cases hcal : String.mk [c] ∈ D.alphabet
    · have hsig := stable_sig_uniform D P hst C hC s hs t ht
      rcases sig_step_match D P hok hclosed hsig hsst htst (String.mk [c]) hcal with
        ⟨h1, h2⟩ | ⟨ts, tr, i, hlt, h1, h2, hm1, hm2, _, _⟩
      · rw [h1, h2]
      · rw [h1, h2]
        exact ih (P.get ⟨i, hlt⟩) (P.get_mem _ _) ts hm1 tr hm2
    · rw [halpha s hsst _ hcal, halpha t htst _ hcal]

/-- Simulation from a state of the original DFA agrees with simulation
from its class in the minimized DFA. -/
theorem quotient_sim {σ : Type _} [DecidableEq σ] (D : DFAr σ)
    (hclosed : ∀ s ∈ D.states, ∀ (c : String) (t : σ),
      D.delta s c = some t → t ∈ D.states)
    (halpha : ∀ s ∈ D.states, ∀ c : String, c ∉ D.alphabet →
      D.delta s c = none) :
    ∀ (w : List Char) (C : List σ), C ∈ refinedPartition D → ∀ s ∈ C,
      dfaSimGo D s w = dfaSimGo (buildMinimized D) C w := by
  obtain ⟨hok, hst⟩ := refinedPartition_spec D
  intro w
  induction w with
  | nil =>
    intro C hC s hs
    simp only [dfaSimGo, buildMinimized]
    have : s ∈ D.finals ↔ C ∈ minFinalsL D (refinedPartition D) := by
      constructor
      · intro hsf
        refine List.mem_filter.mpr ⟨hC, ?_⟩
        exact List.any_eq_true.mpr ⟨s, hs, by simpa using hsf⟩
      · intro hCf
        rcases List.any_eq_true.mp (List.mem_filter.mp hCf).2 with ⟨x, hx, hxf⟩
        rw [decide_eq_true_eq] at hxf
        exact (hok.2.2 C hC s hs x hx).mpr hxf
    simp [this]
  | cons c w ih =>
    intro C hC s hs
    simp only [dfaSimGo, buildMinimized]
    have hsst : s ∈ D.states := class_mem_states hok hC hs
    have hCne : C ≠ [] := hok.1 C hC
    obtain ⟨r, C2, rfl⟩ : ∃ r C2, C = r :: C2 := by
      cases C with
      | nil => exact absurd rfl hCne
      | cons r C2 => exact ⟨r, C2, rfl⟩
    have hrC : r ∈ r :: C2 := by simp
    have hrst : r ∈ D.states := class_mem_states hok hC hrC
    by_cases hcal : String.mk [c] ∈ D.alphabet
    · have hsig := stable_sig_uniform D _ hst _ hC s hs r hrC
      rcases sig_step_match D _ hok hclosed hsig hsst hrst (String.mk [c]) hcal with
        ⟨h1, h2⟩ | ⟨ts, tr, i, hlt, h1, h2, hm1, hm2, hfind, hfinds⟩
      · rw [h1]
        simp only [minDelta, if_pos hcal, List.head?, h2]
      · rw [h1]
        have hmd : minDelta D (refinedPartition D) (r :: C2) (String.mk [c]) =
            some ((refinedPartition D).get ⟨i, hlt⟩) := by
          simp only [minDelta, if_pos hcal, List.head?, h2, hfind]
        rw [hmd]
        exact ih ((refinedPartition D).get ⟨i, hlt⟩) (List.get_mem _ _ _) ts hm1
    · rw [halpha s hsst _ hcal]
      have hmd : minDelta D (refinedPartition D) (r :: C2) (String.mk [c]) = none := by
        simp [minDelta, hcal]
      rw [hmd]

/-- `minimize_dfa` preserves the simulated language. -/
theorem minimizeSimulate_eq {σ : Type _} [DecidableEq σ] (D : DFAr σ)
    (hstart : D.start ∈ D.states)
    (hclosed : ∀ s ∈ D.states, ∀ (c : String) (t : σ),
      D.delta s c = some t → t ∈ D.states)
    (halpha : ∀ s ∈ D.states, ∀ c : String, c ∉ D.alphabet →
      D.delta s c = none) :
    ∀ w : String, minimizeSimulate D w = dfaSimulate D w := by
  intro w
  unfold minimizeSimulate
  by_cases hlen : D.states.length ≤ 1
  · rw [if_pos hlen]
  · rw [if_neg hlen]
    obtain ⟨hok, hst⟩ := refinedPartition_spec D
    rcases classIdx_isSome_of_mem (coverage_of_ClassesOk hok hstart) with ⟨i, hi⟩
    rcases classIdx_some D.start (refinedPartition D) i hi with ⟨hlt, hmem, hfind⟩
    have hms : (buildMinimized D).start = (refinedPartition D).get ⟨i, hlt⟩ := by
      simp only [buildMinimized, minStart, hfind, Option.getD_some]
    unfold dfaSimulate
    rw [hms]
    exact (quotient_sim D hclosed halpha w.toList _ (List.get_mem _ _ _) D.start hmem).symm

/-! ## State counts of the minimized DFA -/

/-- The one-step transition relation of a DFA through any symbol. -/
def dfaEdge {σ : Type _} (D : DFAr σ) (a b : σ) : Prop :=
  ∃ c : String, D.delta a c = some b

theorem minCollect_seeds_ok {σ : Type _} [DecidableEq σ] (D : DFAr σ)
    (hok : ClassesOk D (refinedPartition D)) (hstart : D.start ∈ D.states) :
    ∀ C ∈ minStart D (refinedPartition D) ::
      minFinalsL D (refinedPartition D), C ∈ (refinedPartition D).toFinset := by
  intro C hC
  rcases List.mem_cons.mp hC with rfl | hC
  · rcases classIdx_isSome_of_mem (coverage_of_ClassesOk hok hstart) with ⟨i, hi⟩
    rcases classIdx_some D.start (refinedPartition D) i hi with ⟨hlt, _, hfind⟩
    rw [List.mem_toFinset]
    simp only [minStart, hfind, Option.getD_some]
    exact List.get_mem _ _ _
  · rw [List.mem_toFinset]
    exact (List.mem_filter.mp hC).1

theorem minDelta_target_ok {σ : Type _} [DecidableEq σ] (D : DFAr σ)
    (P : List (List σ)) :
    ∀ (C : List σ), ∀ T ∈ (alphaSorted D).filterMap
      (fun c => minDelta D P C c), T ∈ P.toFinset := by
  intro C T hT
  rcases List.mem_filterMap.mp hT with ⟨c, _, hdel⟩
  unfold minDelta at hdel
  by_cases hcal : c ∈ D.alphabet
  · rw [if_pos hcal] at hdel
    cases hhd : C.head? with
    | none => simp only [hhd] at hdel; cases hdel
    | some rep =>
      simp only [hhd] at hdel
      cases hdr : D.delta rep c with
      | none => simp only [hdr] at hdel; cases hdel
      | some t =>
        simp only [hdr] at hdel
        rw [List.mem_toFinset]
        exact (minFind_mem t P T hdel).1
  · rw [if_neg hcal] at hdel
    cases hdel

theorem minCollect_subset {σ : Type _} [DecidableEq σ] (D : DFAr σ)
    (hok : ClassesOk D (refinedPartition D)) (hstart : D.start ∈ D.states) :
    ∀ C ∈ minCollect D (refinedPartition D), C ∈ refinedPartition D := by
  intro C hC
  rw [← List.mem_toFinset]
  refine closureOfL_subset_univ _ _ _
    (minCollect_seeds_ok D hok hstart)
    (fun x _ y hy => minDelta_target_ok D _ x y hy) C hC

theorem classes_le_states {σ : Type _} [DecidableEq σ] {D : DFAr σ}
    {P : List (List σ)} (hok : ClassesOk D P) :
    P.length ≤ D.states.length := by
  have h1 := length_le_flatten_length P hok.1
  have h2 := hok.2.1.length_eq
  omega

theorem buildMinimized_card_le {σ : Type _} [DecidableEq σ] (D : DFAr σ)
    (hstart : D.start ∈ D.states) :
    (buildMinimized D).states.length ≤ D.states.length := by
  obtain ⟨hok, _⟩ := refinedPartition_spec D
  have hnd : (buildMinimized D).states.Nodup := closureOfL_nodup _ _ _
  have hsub : ∀ C ∈ (buildMinimized D).states, C ∈ refinedPartition D :=
    minCollect_subset D hok hstart
  calc (buildMinimized D).states.length
      = (buildMinimized D).states.toFinset.card := (List.toFinset_card_of_nodup hnd).symm
    _ ≤ (refinedPartition D).toFinset.card := by
        refine Finset.card_le_card ?_
        intro C hC
        rw [List.mem_toFinset] at hC ⊢
        exact hsub C hC
    _ ≤ (refinedPartition D).length := List.toFinset_card_le _
    _ ≤ D.states.length := classes_le_states hok

/-- State count never grows under `minimize_dfa`. -/
theorem minimizeStatesCount_le {σ : Type _} [DecidableEq σ] (D : DFAr σ)
    (hstart : D.start ∈ D.states) :
    minimizeStatesCount D ≤ D.states.length := by
  unfold minimizeStatesCount
  by_cases hlen : D.states.length ≤ 1
  · rw [if_pos hlen]
  · rw [if_neg hlen]
    exact buildMinimized_card_le D hstart

theorem nodup_of_mem_flatten_nodup {σ : Type _} {P : List (List σ)}
    (hnd : P.flatten.Nodup) : ∀ C ∈ P, C.Nodup := by
  induction P with
  | nil => simp
  | cons C0 P ih =>
    intro C hC
    simp only [List.flatten_cons, List.nodup_append] at hnd
    rcases List.mem_cons.mp hC with rfl | hC
    · exact hnd.1
    · exact ih hnd.2.1 C hC

theorem partition_nodup {σ : Type _} {P : List (List σ)}
    (hnd : P.flatten.Nodup) (hne : ∀ C ∈ P, C ≠ []) : P.Nodup := by
  induction P with
  | nil => simp
  | cons C0 P ih =>
    simp only [List.flatten_cons, List.nodup_append] at hnd
    refine List.nodup_cons.mpr ⟨?_, ih hnd.2.1 (fun C hC => hne C (by simp [hC]))⟩
    intro hC0
    have hC0ne := hne C0 (by simp)
    rcases hx : C0 with _ | ⟨x, C2⟩
    · exact hC0ne hx
    · have hx0 : x ∈ C0 := by rw [hx]; simp
      have hxfl : x ∈ P.flatten := List.mem_flatten.mpr ⟨C0, hC0, hx0⟩
      exact hnd.2.2 hx0 hxfl

/-- In a partition whose flattening has no duplicates, the class found
for a member is the class itself. -/
theorem minFind_unique {σ : Type _} [DecidableEq σ] {P : List (List σ)}
    (hnd : P.flatten.Nodup) {C : List σ} (hC : C ∈ P) {s : σ} (hs : s ∈ C) :
    minFind s P = some C := by
  induction P with
  | nil => simp at hC
  | cons C0 P ih =>
    simp only [List.flatten_cons, List.nodup_append] at hnd
    rcases List.mem_cons.mp hC with rfl | hC
    · simp [minFind, hs]
    · have hsni : s ∉ C0 := by
        intro hs0
        exact hnd.2.2 hs0 (List.mem_flatten.mpr ⟨C, hC, hs⟩)
      simp only [minFind, if_neg hsni]
      exact ih hnd.2.1 hC

/-- Classes of reachable states are collected: lifting an original
reachability path to the quotient. -/
theorem lift_reach {σ : Type _} [DecidableEq σ] (D : DFAr σ)
    (hok : ClassesOk D (refinedPartition D))
    (hst : refineChanged (alphaSorted D) D.delta (refinedPartition D) = false)
    (hclosed : ∀ s ∈ D.states, ∀ (c : String) (t : σ),
      D.delta s c = some t → t ∈ D.states)
    (halpha : ∀ s ∈ D.states, ∀ c : String, c ∉ D.alphabet →
      D.delta s c = none)
    (hstart : D.start ∈ D.states) :
    ∀ {a b : σ}, Relation.ReflTransGen (dfaEdge D) a b →
      a ∈ D.states →
      (∃ Ca, minFind a (refinedPartition D) = some Ca ∧
        Ca ∈ minCollect D (refinedPartition D)) →
      b ∈ D.states ∧
      ∃ Cb, minFind b (refinedPartition D) = some Cb ∧
        Cb ∈ minCollect D (refinedPartition D) := by
  intro a b hab ha hCa
  induction hab with
  | refl => exact ⟨ha, hCa⟩
  | tail hr2 hstep ih =>
    rename_i b2 t
    obtain ⟨hb2, Cb, hfindb, hcoll⟩ := ih
    rcases hstep with ⟨c, hdelc⟩
    have hcal : c ∈ D.alphabet := by
      by_contra hcal
      rw [halpha b2 hb2 c hcal] at hdelc
      cases hdelc
    have htst : t ∈ D.states := hclosed b2 hb2 c t hdelc
    obtain ⟨hCbP, hbCb⟩ := minFind_mem b2 (refinedPartition D) Cb hfindb
    have hCbne : Cb ≠ [] := hok.1 Cb hCbP
    obtain ⟨r, C2, rfl⟩ : ∃ r C2, Cb = r :: C2 := by
      cases Cb with
      | nil => exact absurd rfl hCbne
      | cons r C2 => exact ⟨r, C2, rfl⟩
    have hrst : r ∈ D.states := class_mem_states hok hCbP (by simp)
    have hsig := stable_sig_uniform D _ hst _ hCbP b2 hbCb r (by simp)
    rcases sig_step_match D _ hok hclosed hsig hb2 hrst c hcal with
      ⟨h1, _⟩ | ⟨ts, tr, i, hlt, h1, h2, hm1, hm2, hfind, hfinds⟩
    · rw [h1] at hdelc; cases hdelc
    · rw [h1] at hdelc
      injection hdelc with hts
      subst hts
      refine ⟨htst, (refinedPartition D).get ⟨i, hlt⟩, hfinds, ?_⟩
      refine closureOfL_closed _ _ _
        (minCollect_seeds_ok D hok hstart)
        (fun x _ y hy => minDelta_target_ok D _ x y hy) _ hcoll _ ?_
      refine List.mem_filterMap.mpr ⟨c, by simpa [alphaSorted] using hcal, ?_⟩
      simp only [minDelta, if_pos hcal, List.head?, h2, hfind]

theorem minCollect_complete {σ : Type _} [DecidableEq σ] (D : DFAr σ)
    (hnd : D.states.Nodup) (hstart : D.start ∈ D.states)
    (hfin : ∀ f ∈ D.finals, f ∈ D.states)
    (hclosed : ∀ s ∈ D.states, ∀ (c : String) (t : σ),
      D.delta s c = some t → t ∈ D.states)
    (halpha : ∀ s ∈ D.states, ∀ c : String, c ∉ D.alphabet →
      D.delta s c = none)
    (hreach : ∀ s ∈ D.states, ∃ r, (r = D.start ∨ r ∈ D.finals) ∧
      Relation.ReflTransGen (dfaEdge D) r s) :
    ∀ C ∈ refinedPartition D, C ∈ minCollect D (refinedPartition D) := by
  obtain ⟨hok, hst⟩ := refinedPartition_spec D
  have hflnd : (refinedPartition D).flatten.Nodup :=
    (hok.2.1.nodup_iff).mpr hnd
  intro C hC
  have hCne : C ≠ [] := hok.1 C hC
  obtain ⟨x, hx⟩ : ∃ x, x ∈ C := by
    cases C with
    | nil => exact absurd rfl hCne
    | cons a l => exact ⟨a, by simp⟩
  have hxst : x ∈ D.states := class_mem_states hok hC hx
  rcases hreach x hxst with ⟨r, hr, hrx⟩
  have hrst : r ∈ D.states := by
    rcases hr with rfl | hr
    · exact hstart
    · exact hfin r hr
  rcases classIdx_isSome_of_mem (coverage_of_ClassesOk hok hrst) with ⟨i, hi⟩
  rcases classIdx_some r (refinedPartition D) i hi with ⟨hlt, hmem, hfind⟩
  have hseedcoll : (refinedPartition D).get ⟨i, hlt⟩ ∈
      minCollect D (refinedPartition D) := by
    refine closureOfL_seeds _ _ _
      (minCollect_seeds_ok D hok hstart)
      (fun x2 _ y hy => minDelta_target_ok D _ x2 y hy) _ ?_
    rcases hr with rfl | hr
    · refine List.mem_cons.mpr (Or.inl ?_)
      simp only [minStart, hfind, Option.getD_some]
    · refine List.mem_cons.mpr (Or.inr ?_)
      refine List.mem_filter.mpr ⟨List.get_mem _ _ _, ?_⟩
      exact List.any_eq_true.mpr ⟨r, hmem, by simpa using hr⟩
  obtain ⟨_, Cx, hfindx, hcollx⟩ :=
    lift_reach D hok hst hclosed halpha hstart hrx hrst
      ⟨(refinedPartition D).get ⟨i, hlt⟩, hfind, hseedcoll⟩
  have : minFind x (refinedPartition D) = some C := minFind_unique hflnd hC hx
  rw [this] at hfindx
  injection hfindx with hCx
  rw [hCx]
  exact hcollx

/-- A DFA is (observationally) minimal when distinct states are
distinguished by some input. -/
def PairwiseDistinguishable {σ : Type _} [DecidableEq σ] (D : DFAr σ) : Prop :=
  ∀ s ∈ D.states, ∀ t ∈ D.states, s ≠ t →
    ∃ w : List Char, dfaSimGo D s w ≠ dfaSimGo D t w

theorem minimal_classes_singleton {σ : Type _} [DecidableEq σ] (D : DFAr σ)
    (hnd : D.states.Nodup)
    (hclosed : ∀ s ∈ D.states, ∀ (c : String) (t : σ),
      D.delta s c = some t → t ∈ D.states)
    (halpha : ∀ s ∈ D.states, ∀ c : String, c ∉ D.alphabet →
      D.delta s c = none)
    (hdist : PairwiseDistinguishable D) :
    ∀ C ∈ refinedPartition D, ∃ x, C = [x] := by
  obtain ⟨hok, hst⟩ := refinedPartition_spec D
  have hflnd : (refinedPartition D).flatten.Nodup :=
    (hok.2.1.nodup_iff).mpr hnd
  intro C hC
  have heq : ∀ s ∈ C, ∀ t ∈ C, s = t := by
    intro s hs t ht
    by_contra hne
    rcases hdist s (class_mem_states hok hC hs) t (class_mem_states hok hC ht)
      hne with ⟨w, hw⟩
    exact hw (same_class_same_sim D _ hok hst hclosed halpha w C hC s hs t ht)
  have hCnd : C.Nodup := nodup_of_mem_flatten_nodup hflnd C hC
  cases C with
  | nil => exact absurd rfl (hok.1 _ hC)
  | cons x C2 =>
    refine ⟨x, ?_⟩
    cases C2 with
    | nil => rfl
    | cons y C3 =>
      exfalso
      have : x = y := heq x (by simp) y (by simp)
      rw [List.nodup_cons] at hCnd
      exact hCnd.1 (by simp [this])

theorem singleton_flatten_length {σ : Type _} {P : List (List σ)}
    (h : ∀ C ∈ P, ∃ x, C = [x]) : P.flatten.length = P.length := by
  induction P with
  | nil => simp
  | cons C P ih =>
    rcases h C (by simp) with ⟨x, rfl⟩
    simp only [List.flatten_cons, List.length_append, List.length_cons]
    rw [ih (fun C2 h2 => h C2 (by simp [h2]))]
    simp only [List.length_cons, List.length_nil]
    omega

/-- On an already-minimal DFA, minimization keeps the state count. -/
theorem minimizeStatesCount_eq_of_minimal {σ : Type _} [DecidableEq σ]
    (D : DFAr σ) (hnd : D.states.Nodup) (hstart : D.start ∈ D.states)
    (hfin : ∀ f ∈ D.finals, f ∈ D.states)
    (hclosed : ∀ s ∈ D.states, ∀ (c : String) (t : σ),
      D.delta s c = some t → t ∈ D.states)
    (halpha : ∀ s ∈ D.states, ∀ c : String, c ∉ D.alphabet →
      D.delta s c = none)
    (hreach : ∀ s ∈ D.states, ∃ r, (r = D.start ∨ r ∈ D.finals) ∧
      Relation.ReflTransGen (dfaEdge D) r s)
    (hdist : PairwiseDistinguishable D) :
    minimizeStatesCount D = D.states.length := by
  unfold minimizeStatesCount
  by_cases hlen : D.states.length ≤ 1
  · rw [if_pos hlen]
  · rw [if_neg hlen]
    obtain ⟨hok, hst⟩ := refinedPartition_spec D
    have hsing := minimal_classes_singleton D hnd hclosed halpha hdist
    have hPlen : (refinedPartition D).length = D.states.length := by
      have h1 := singleton_flatten_length hsing
      have h2 := hok.2.1.length_eq
      omega
    have hPnd : (refinedPartition D).Nodup :=
      partition_nodup ((hok.2.1.nodup_iff).mpr hnd) hok.1
    have hcnd : (buildMinimized D).states.Nodup := closureOfL_nodup _ _ _
    have hsetEq : (buildMinimized D).states.toFinset =
        (refinedPartition D).toFinset := by
      ext C
      rw [List.mem_toFinset, List.mem_toFinset]
      constructor
      · exact fun h => minCollect_subset D hok hstart C h
      · exact fun h => minCollect_complete D hnd hstart hfin hclosed halpha
          hreach C h
    calc (buildMinimized D).states.length
        = (buildMinimized D).states.toFinset.card :=
          (List.toFinset_card_of_nodup hcnd).symm
      _ = (refinedPartition D).toFinset.card := by rw [hsetEq]
      _ = (refinedPartition D).length := List.toFinset_card_of_nodup hPnd
      _ = D.states.length := hPlen

/-! ## Well-formedness of the constructed subset DFA -/

theorem subsetDfa_states_nodup (N : NFAr) : (subsetDfa N).states.Nodup :=
  closureOfL_nodup _ _ _

theorem subsetDfa_start_mem (N : NFAr) :
    (subsetDfa N).start ∈ (subsetDfa N).states := by
  have : dfaStart N ∈ subsetCollect N :=
    closureOfL_seeds _ _ _ (subsetCollect_seeds_powerset N)
      (fun x _ y hy => subsetDelta_target_powerset N x y hy) _ (by simp)
  exact this

theorem subsetDfa_finals_mem (N : NFAr) :
    ∀ S ∈ (subsetDfa N).finals, S ∈ (subsetDfa N).states := by
  intro S hS
  exact closureOfL_seeds _ _ _ (subsetCollect_seeds_powerset N)
    (fun x _ y hy => subsetDelta_target_powerset N x y hy) _
    (List.mem_cons.mpr (Or.inr hS))

theorem subsetDfa_closed (N : NFAr) :
    ∀ S ∈ (subsetDfa N).states, ∀ (c : String) (T : Finset Nat),
      (subsetDfa N).delta S c = some T → T ∈ (subsetDfa N).states := by
  intro S hS c T hdel
  have hSdisc : S ∈ discoveredL N := (subsetCollect_eq_discovered N S).mp hS
  have hdel2 : subsetDelta N S c = some T := hdel
  unfold subsetDelta at hdel2
  by_cases hg : S ∈ discoveredL N ∧ c ∈ nfaAlphabet N
  · rw [if_pos hg] at hdel2
    have hTdisc : T ∈ discoveredL N := by
      refine discoveredL_closed N hSdisc ?_
      refine List.mem_filterMap.mpr ⟨c, ?_, hdel2⟩
      simpa [sortedAlphabet] using hg.2
    exact (subsetCollect_eq_discovered N T).mpr hTdisc
  · rw [if_neg hg] at hdel2
    cases hdel2

theorem subsetDfa_halpha (N : NFAr) :
    ∀ S ∈ (subsetDfa N).states, ∀ c : String,
      c ∉ (subsetDfa N).alphabet → (subsetDfa N).delta S c = none := by
  intro S _ c hc
  show subsetDelta N S c = none
  unfold subsetDelta
  rw [if_neg]
  intro ⟨_, h2⟩
  exact hc h2

theorem subsetDfa_hreach (N : NFAr) :
    ∀ S ∈ (subsetDfa N).states, ∃ R,
      (R = (subsetDfa N).start ∨ R ∈ (subsetDfa N).finals) ∧
      Relation.ReflTransGen (dfaEdge (subsetDfa N)) R S := by
  intro S hS
  refine ⟨dfaStart N, Or.inl rfl, ?_⟩
  have hdisc : S ∈ discoveredL N := (subsetCollect_eq_discovered N S).mp hS
  have hr := (mem_discoveredL N S).mp hdisc
  clear hS hdisc
  induction hr with
  | refl => exact Relation.ReflTransGen.refl
  | tail hr2 hstep ih =>
    rename_i b t
    refine Relation.ReflTransGen.tail ih ?_
    rcases List.mem_filterMap.mp hstep with ⟨c, hc, hdel⟩
    refine ⟨c, ?_⟩
    show subsetDelta N b c = some t
    unfold subsetDelta
    rw [if_pos ⟨(mem_discoveredL N b).mpr hr2, by simpa [sortedAlphabet] using hc⟩]
    exact hdel

/-- Minimization preserves the language of the constructed subset DFA. -/
theorem subset_minimizeSimulate_eq (N : NFAr) (w : String) :
    minimizeSimulate (subsetDfa N) w = dfaSimulate (subsetDfa N) w :=
  minimizeSimulate_eq (subsetDfa N) (subsetDfa_start_mem N)
    (subsetDfa_closed N) (subsetDfa_halpha N) w

/-! ## AST (`ast_builder.py`) and Thompson construction
(`automata_constructors.py`, `ThompsonNFAConstructor`)

`ASTNode` carries a string value and optional left/right children (the
integer id used for drawing is irrelevant to the semantics and
omitted).  The Thompson constructor threads a state counter and the
arena of created state objects through the structural recursion;
composing constructions mutates previously created states (clearing
finality flags, adding epsilon edges), which the embedding performs by
functional update of the arena. -/

/-- A Python `ASTNode(value, left, right)`. -/
inductive AST where
  | node (value : String) (left : Option AST) (right : Option AST)
deriving Repr

/-- `ASTNode.is_leaf`. -/
def AST.isLeaf : AST → Bool
  | .node _ none none => true
  | _ => false

/-- Update the state object with the given id (mutation of a state
object referenced from the arena). -/
def updSt (A : Arena) (i : Nat) (f : StateData → StateData) : Arena :=
  A.map (fun p => (p.1, if p.1 = i then f p.2 else p.2))

/-- Assignment `state.is_final = b`. -/
def setFinalA (A : Arena) (i : Nat) (b : Bool) : Arena :=
  updSt A i (fun d => ⟨b, d.trans, d.eps⟩)

/-- `state.add_epsilon_transition(target)`. -/
def addEpsA (A : Arena) (i t : Nat) : Arena :=
  updSt A i (fun d => ⟨d.isFinal, d.trans, d.eps ++ [t]⟩)

/-- `state.add_transition(symbol, target)` on the transitions dict:
append to the symbol's list, creating the key if absent. -/
def addTransEntry (c : String) (t : Nat) :
    List (String × List Nat) → List (String × List Nat)
  | [] => [(c, [t])]
  | (k, ts) :: rest =>
    if k = c then (k, ts ++ [t]) :: rest else (k, ts) :: addTransEntry c t rest

/-- `state.add_transition(symbol, target)`. -/
def addTransA (A : Arena) (i : Nat) (c : String) (t : Nat) : Arena :=
  updSt A i (fun d => ⟨d.isFinal, addTransEntry c t d.trans, d.eps⟩)

/-- `startswith("L")`. -/
def startsWithL (v : String) : Bool :=
  match v.data with
  | 'L' :: _ => true
  | _ => false

/-- `symbol[1:] if len(symbol) > 1 else symbol`. -/
def litSym (v : String) : String :=
  if 1 < v.data.length then ⟨v.data.drop 1⟩ else v

/-- `_construct_basic`: two fresh states, linked by an epsilon edge for
`ε`, by the unprefixed character for an `L` literal, and by the symbol
itself otherwise.  Returns (next counter, arena, start, final list). -/
def constructBasic (v : String) (ctr : Nat) (A : Arena) :
    Nat × Arena × Nat × List Nat :=
  let s := ctr
  let f := ctr + 1
  let A1 : Arena := (f, ⟨true, [], []⟩) :: (s, ⟨false, [], []⟩) :: A
  let A2 :=
    if v = "ε" then addEpsA A1 s f
    else if startsWithL v then addTransA A1 s (litSym v) f
    else addTransA A1 s v f
  (ctr + 2, A2, s, [f])

/-- `_construct_concatenation`: clear finality of the left accepts and
wire them to the right start. -/
def constructConcat (A : Arena) (f1 : List Nat) (s2 : Nat) : Arena :=
  f1.foldl (fun acc fs => addEpsA (setFinalA acc fs false) fs s2) A

/-- `_construct_union`. -/
def constructUnion (A : Arena) (ctr : Nat) (s1 : Nat) (f1 : List Nat)
    (s2 : Nat) (f2 : List Nat) : Nat × Arena × Nat × List Nat :=
  let ns := ctr
  let nf := ctr + 1
  let A1 : Arena := (nf, ⟨true, [], []⟩) :: (ns, ⟨false, [], []⟩) :: A
  let A2 := addEpsA (addEpsA A1 ns s1) ns s2
  let A3 := (f1 ++ f2).foldl
    (fun acc fs => addEpsA (setFinalA acc fs false) fs nf) A2
  (ctr + 2, A3, ns, [nf])

/-- `_construct_kleene_star`. -/
def constructStar (A : Arena) (ctr : Nat) (sc : Nat) (fc : List Nat) :
    Nat × Arena × Nat × List Nat :=
  let ns := ctr
  let nf := ctr + 1
  let A1 : Arena := (nf, ⟨true, [], []⟩) :: (ns, ⟨false, [], []⟩) :: A
  let A2 := addEpsA (addEpsA A1 ns nf) ns sc
  let A3 := fc.foldl
    (fun acc fs => addEpsA (addEpsA (setFinalA acc fs false) fs nf) fs sc) A2
  (ctr + 2, A3, ns, [nf])

/-- `_build_nfa_recursive`: leaves first, then dispatch on the operator
value; an unsupported operator or a missing child raises in Python,
modelled by `none`. -/
def buildNfaRec : AST → Nat → Arena → Option (Nat × Arena × Nat × List Nat)
  | AST.node v l r, ctr, A =>
    if l.isNone && r.isNone then some (constructBasic v ctr A)
    else if v = "." then
      match l, r with
      | some lt, some rt =>
        match buildNfaRec lt ctr A with
        | none => none
        | some (c1, A1, s1, f1) =>
          match buildNfaRec rt c1 A1 with
          | none => none
          | some (c2, A2, s2, f2) =>
            some (c2, constructConcat A2 f1 s2, s1, f2)
      | _, _ => none
    else if v = "|" then
      match l, r with
      | some lt, some rt =>
        match buildNfaRec lt ctr A with
        | none => none
        | some (c1, A1, s1, f1) =>
          match buildNfaRec rt c1 A1 with
          | none => none
          | some (c2, A2, s2, f2) => some (constructUnion A2 c2 s1 f1 s2 f2)
      | _, _ => none
    else if v = "*" then
      match l with
      | some lt =>
        match buildNfaRec lt ctr A with
        | none => none
        | some (c1, A1, sc, fc) => some (constructStar A1 c1 sc fc)
      | none => none
    else none

/-- `ThompsonNFAConstructor.construct_nfa`: reset the counter and build. -/
def constructNfa (t : AST) : Option NFAr :=
  match buildNfaRec t 0 [] with
  | none => none
  | some (_, A, s, fs) => some ⟨s, fs, A⟩

/-- The metacharacters recognized by the escape handler
(`handle_escaped_chars`). -/
def isMeta (c : Char) : Bool :=
  c ∈ ['(', ')', '[', ']', '\x7b', '\x7d', '.', '*', '+', '?', '|', '^']

/-- Well-formed leaf tokens per the data model: alphanumerics, the
epsilon symbol, and escaped literals `L<c>` for a metacharacter or `n`. -/
def wfLeafVal (v : String) : Prop :=
  v = "ε" ∨ (∃ c : Char, v = String.mk [c] ∧ c.isAlphanum = true) ∨
    (∃ c : Char, v = String.mk ['L', c] ∧ (isMeta c = true ∨ c = 'n'))

/-- Well-formed ASTs: the trees the AST builder produces from postfix
token streams over the documented alphabet. -/
inductive WFAst : AST → Prop where
  | leaf (v : String) (h : wfLeafVal v) : WFAst (AST.node v none none)
  | cat (l r : AST) (hl : WFAst l) (hr : WFAst r) :
      WFAst (AST.node "." (some l) (some r))
  | alt (l r : AST) (hl : WFAst l) (hr : WFAst r) :
      WFAst (AST.node "|" (some l) (some r))
  | star (l : AST) (hl : WFAst l) : WFAst (AST.node "*" (some l) none)

/-! ## Arena update lemmas -/

theorem lookupSt_cons (i : Nat) (d : StateData) (A : Arena) (j : Nat) :
    lookupSt ((i, d) :: A) j = if i = j then some d else lookupSt A j := rfl

theorem lookupSt_updSt (A : Arena) (i : Nat) (f : StateData → StateData)
    (j : Nat) :
    lookupSt (updSt A i f) j =
      if j = i then (lookupSt A j).map f else lookupSt A j := by
  induction A with
  | nil => by_cases h : j = i <;> simp [lookupSt, updSt, alookup, h]
  | cons p A ih =>
    obtain ⟨k, d⟩ := p
    by_cases hkj : k = j
    · subst hkj
      by_cases hki : k = i
      · subst hki
        simp [lookupSt, updSt, alookup]
      · simp [lookupSt, updSt, alookup, hki,
          if_neg (fun h : k = i => hki h)]
    · simp only [lookupSt, updSt, List.map_cons, alookup, if_neg hkj]
      exact ih

theorem updSt_keys (A : Arena) (i : Nat) (f : StateData → StateData) :
    (updSt A i f).map Prod.fst = A.map Prod.fst := by
  induction A with
  | nil => rfl
  | cons p A ih =>
    simp only [updSt, List.map_cons] at ih ⊢
    rw [ih]

theorem lookupSt_isSome_iff_keys (A : Arena) (j : Nat) :
    (lookupSt A j).isSome = true ↔ j ∈ A.map Prod.fst := by
  induction A with
  | nil => simp [lookupSt, alookup]
  | cons p A ih =>
    obtain ⟨k, d⟩ := p
    by_cases h : k = j
    · subst h
      simp [lookupSt, alookup]
    · simp only [lookupSt, alookup, if_neg h, List.map_cons, List.mem_cons]
      rw [show alookup j A = lookupSt A j from rfl, ih]
      constructor
      · exact fun h2 => Or.inr h2
      · rintro (rfl | h2)
        · exact absurd rfl h
        · exact h2

theorem setFinalA_lookup (A : Arena) (i : Nat) (b : Bool) (j : Nat) :
    lookupSt (setFinalA A i b) j =
      if j = i then (lookupSt A j).map (fun d => ⟨b, d.trans, d.eps⟩)
      else lookupSt A j := lookupSt_updSt A i _ j

theorem addEpsA_lookup (A : Arena) (i t : Nat) (j : Nat) :
    lookupSt (addEpsA A i t) j =
      if j = i then
        (lookupSt A j).map (fun d => ⟨d.isFinal, d.trans, d.eps ++ [t]⟩)
      else lookupSt A j := lookupSt_updSt A i _ j

theorem addTransA_lookup (A : Arena) (i : Nat) (c : String) (t : Nat)
    (j : Nat) :
    lookupSt (addTransA A i c t) j =
      if j = i then
        (lookupSt A j).map
          (fun d => ⟨d.isFinal, addTransEntry c t d.trans, d.eps⟩)
      else lookupSt A j := lookupSt_updSt A i _ j

theorem addTransEntry_keys_mem (c : String) (t : Nat)
    (l : List (String × List Nat)) (k : String) :
    k ∈ (addTransEntry c t l).map Prod.fst ↔
      k ∈ l.map Prod.fst ∨ k = c := by
  induction l with
  | nil => simp [addTransEntry, eq_comm]
  | cons p l ih =>
    obtain ⟨k0, ts⟩ := p
    unfold addTransEntry
    by_cases h : k0 = c
    · rw [if_pos h]
      subst h
      simp only [List.map_cons, List.mem_cons]
      tauto
    · rw [if_neg h]
      simp only [List.map_cons, List.mem_cons, ih]
      tauto

theorem addTransEntry_alookup (c : String) (t : Nat)
    (l : List (String × List Nat)) (k : String) :
    alookup k (addTransEntry c t l) =
      if k = c then some ((alookup c l).getD [] ++ [t]) else alookup k l := by
  induction l with
  | nil =>
    by_cases h : k = c
    · subst h
      simp [addTransEntry, alookup]
    · have h2 : ¬ c = k := fun h3 => h h3.symm
      simp [addTransEntry, alookup, h, h2]
  | cons p l ih =>
    obtain ⟨k0, ts⟩ := p
    unfold addTransEntry
    by_cases h0 : k0 = c
    · rw [if_pos h0]
      subst h0
      by_cases hk : k = k0
      · subst hk
        simp [alookup]
      · have hk2 : ¬ k0 = k := fun h3 => hk h3.symm
        simp [alookup, hk, hk2]
    · rw [if_neg h0]
      by_cases hk : k0 = k
      · subst hk
        simp only [alookup, if_pos rfl]
        rw [if_neg (fun h3 : k0 = c => h0 h3)]
        simp [alookup]
      · simp only [alookup, if_neg hk]
        rw [ih]
        by_cases hkc : k = c
        · rw [if_pos hkc, if_pos hkc, if_neg h0]
        · rw [if_neg hkc, if_neg hkc]

theorem addTransEntry_flatten_mem (c : String) (t : Nat)
    (l : List (String × List Nat)) (y : Nat) :
    y ∈ ((addTransEntry c t l).map Prod.snd).flatten ↔
      y ∈ (l.map Prod.snd).flatten ∨ y = t := by
  induction l with
  | nil => simp [addTransEntry]
  | cons p l ih =>
    obtain ⟨k0, ts⟩ := p
    unfold addTransEntry
    by_cases h : k0 = c
    · rw [if_pos h]
      simp only [List.map_cons, List.flatten_cons, List.mem_append,
        List.mem_singleton]
      tauto
    · rw [if_neg h]
      simp only [List.map_cons, List.flatten_cons, List.mem_append, ih]
      tauto

theorem stateSuccs_setFinalA (A : Arena) (i : Nat) (b : Bool) (j : Nat) :
    stateSuccs (setFinalA A i b) j = stateSuccs A j := by
  unfold stateSuccs
  rw [setFinalA_lookup]
  by_cases h : j = i
  · rw [if_pos h]
    cases lookupSt A j <;> simp
  · rw [if_neg h]

theorem transKeys_setFinalA (A : Arena) (i : Nat) (b : Bool) (j : Nat) :
    transKeys (setFinalA A i b) j = transKeys A j := by
  unfold transKeys
  rw [setFinalA_lookup]
  by_cases h : j = i
  · rw [if_pos h]
    cases lookupSt A j <;> simp
  · rw [if_neg h]

theorem symTargets_setFinalA (A : Arena) (i : Nat) (b : Bool) (j : Nat)
    (c : String) :
    symTargets (setFinalA A i b) j c = symTargets A j c := by
  unfold symTargets
  rw [setFinalA_lookup]
  by_cases h : j = i
  · rw [if_pos h]
    cases lookupSt A j <;> simp
  · rw [if_neg h]

theorem epsTargets_setFinalA (A : Arena) (i : Nat) (b : Bool) (j : Nat) :
    epsTargets (setFinalA A i b) j = epsTargets A j := by
  unfold epsTargets
  rw [setFinalA_lookup]
  by_cases h : j = i
  · rw [if_pos h]
    cases lookupSt A j <;> simp
  · rw [if_neg h]

theorem isFinalSt_setFinalA_self (A : Arena) (i : Nat) (b : Bool)
    (h : (lookupSt A i).isSome = true) : isFinalSt (setFinalA A i b) i = b := by
  unfold isFinalSt
  rw [setFinalA_lookup, if_pos rfl]
  cases hA : lookupSt A i with
  | none => rw [hA] at h; cases h
  | some d => simp

theorem isFinalSt_setFinalA_ne (A : Arena) (i : Nat) (b : Bool) (j : Nat)
    (h : ¬ j = i) : isFinalSt (setFinalA A i b) j = isFinalSt A j := by
  unfold isFinalSt
  rw [setFinalA_lookup, if_neg h]

theorem isFinalSt_addEpsA (A : Arena) (i t : Nat) (j : Nat) :
    isFinalSt (addEpsA A i t) j = isFinalSt A j := by
  unfold isFinalSt
  rw [addEpsA_lookup]
  by_cases h : j = i
  · rw [if_pos h]
    cases lookupSt A j <;> simp
  · rw [if_neg h]

theorem transKeys_addEpsA (A : Arena) (i t : Nat) (j : Nat) :
    transKeys (addEpsA A i t) j = transKeys A j := by
  unfold transKeys
  rw [addEpsA_lookup]
  by_cases h : j = i
  · rw [if_pos h]
    cases lookupSt A j <;> simp
  · rw [if_neg h]

theorem symTargets_addEpsA (A : Arena) (i t : Nat) (j : Nat) (c : String) :
    symTargets (addEpsA A i t) j c = symTargets A j c := by
  unfold symTargets
  rw [addEpsA_lookup]
  by_cases h : j = i
  · rw [if_pos h]
    cases lookupSt A j <;> simp
  · rw [if_neg h]

theorem epsTargets_addEpsA_ne (A : Arena) (i t : Nat) (j : Nat)
    (h : ¬ j = i) : epsTargets (addEpsA A i t) j = epsTargets A j := by
  unfold epsTargets
  rw [addEpsA_lookup, if_neg h]

theorem epsTargets_addEpsA_self (A : Arena) (i t : Nat)
    (h : (lookupSt A i).isSome = true) :
    epsTargets (addEpsA A i t) i = epsTargets A i ++ [t] := by
  unfold epsTargets
  rw [addEpsA_lookup, if_pos rfl]
  cases hA : lookupSt A i with
  | none => rw [hA] at h; cases h
  | some d => simp

theorem stateSuccs_addEpsA_mem (A : Arena) (i t : Nat) (j : Nat) (y : Nat) :
    y ∈ stateSuccs (addEpsA A i t) j ↔
      y ∈ stateSuccs A j ∨ (j = i ∧ (lookupSt A i).isSome = true ∧ y = t) := by
  unfold stateSuccs
  rw [addEpsA_lookup]
  by_cases h : j = i
  · subst h
    rw [if_pos rfl]
    cases hA : lookupSt A j with
    | none => simp
    | some d =>
      simp only [Option.map_some', Option.isSome_some]
      simp only [List.mem_append, List.mem_singleton]
      constructor
      · rintro (hy | (hy | rfl))
        · exact Or.inl (by simp [hy])
        · exact Or.inl (by simp [hy])
        · exact Or.inr (by simp)
      · rintro ((hy | hy) | ⟨_, _, rfl⟩)
        · exact Or.inl hy
        · exact Or.inr (Or.inl hy)
        · exact Or.inr (Or.inr rfl)
  · rw [if_neg h]
    constructor
    · exact fun hy => Or.inl hy
    · rintro (hy | ⟨rfl, _, _⟩)
      · exact hy
      · exact absurd rfl h

theorem isFinalSt_addTransA (A : Arena) (i : Nat) (c : String) (t : Nat)
    (j : Nat) : isFinalSt (addTransA A i c t) j = isFinalSt A j := by
  unfold isFinalSt
  rw [addTransA_lookup]
  by_cases h : j = i
  · rw [if_pos h]
    cases lookupSt A j <;> simp
  · rw [if_neg h]

theorem epsTargets_addTransA (A : Arena) (i : Nat) (c : String) (t : Nat)
    (j : Nat) : epsTargets (addTransA A i c t) j = epsTargets A j := by
  unfold epsTargets
  rw [addTransA_lookup]
  by_cases h : j = i
  · rw [if_pos h]
    cases lookupSt A j <;> simp
  · rw [if_neg h]

theorem transKeys_addTransA_mem (A : Arena) (i : Nat) (c : String) (t : Nat)
    (j : Nat) (k : String) :
    k ∈ transKeys (addTransA A i c t) j ↔
      k ∈ transKeys A j ∨ (j = i ∧ (lookupSt A i).isSome = true ∧ k = c) := by
  unfold transKeys
  rw [addTransA_lookup]
  by_cases h : j = i
  · subst h
    rw [if_pos rfl]
    cases hA : lookupSt A j with
    | none => simp
    | some d =>
      simp only [Option.map_some', Option.isSome_some]
      rw [addTransEntry_keys_mem]
      constructor
      · rintro (hk | rfl)
        · exact Or.inl hk
        · exact Or.inr (by simp)
      · rintro (hk | ⟨_, _, rfl⟩)
        · exact Or.inl hk
        · exact Or.inr rfl
  · rw [if_neg h]
    constructor
    · exact fun hk => Or.inl hk
    · rintro (hk | ⟨rfl, _, _⟩)
      · exact hk
      · exact absurd rfl h

theorem symTargets_addTransA_ne (A : Arena) (i : Nat) (c : String) (t : Nat)
    (j : Nat) (k : String) (h : ¬ j = i) :
    symTargets (addTransA A i c t) j k = symTargets A j k := by
  unfold symTargets
  rw [addTransA_lookup, if_neg h]

theorem symTargets_addTransA_self (A : Arena) (i : Nat) (c : String) (t : Nat)
    (k : String) (h : (lookupSt A i).isSome = true) :
    symTargets (addTransA A i c t) i k =
      if k = c then symTargets A i c ++ [t] else symTargets A i k := by
  unfold symTargets
  rw [addTransA_lookup, if_pos rfl]
  cases hA : lookupSt A i with
  | none => rw [hA] at h; cases h
  | some d =>
    simp only [Option.map_some']
    rw [addTransEntry_alookup]
    by_cases hk : k = c
    · rw [if_pos hk, if_pos hk]
      cases alookup c d.trans <;> simp
    · rw [if_neg hk, if_neg hk]

theorem stateSuccs_addTransA_mem (A : Arena) (i : Nat) (c : String) (t : Nat)
    (j : Nat) (y : Nat) :
    y ∈ stateSuccs (addTransA A i c t) j ↔
      y ∈ stateSuccs A j ∨ (j = i ∧ (lookupSt A i).isSome = true ∧ y = t) := by
  unfold stateSuccs
  rw [addTransA_lookup]
  by_cases h : j = i
  · subst h
    rw [if_pos rfl]
    cases hA : lookupSt A j with
    | none => simp
    | some d =>
      simp only [Option.map_some', Option.isSome_some]
      simp only [List.mem_append]
      rw [addTransEntry_flatten_mem]
      constructor
      · rintro ((hy | rfl) | hy)
        · exact Or.inl (Or.inl hy)
        · exact Or.inr (by simp)
        · exact Or.inl (Or.inr hy)
      · rintro ((hy | hy) | ⟨_, _, rfl⟩)
        · exact Or.inl (Or.inl hy)
        · exact Or.inr hy
        · exact Or.inl (Or.inr rfl)
  · rw [if_neg h]
    constructor
    · exact fun hy => Or.inl hy
    · rintro (hy | ⟨rfl, _, _⟩)
      · exact hy
      · exact absurd rfl h

theorem rtg_transfer {γ : Type _} (f g : γ → List γ) (Q : γ → Prop)
    (hQf : ∀ x, Q x → ∀ y ∈ f x, Q y)
    (hsub : ∀ x, Q x → ∀ y ∈ f x, y ∈ g x) :
    ∀ {a b : γ}, Relation.ReflTransGen (succStep f) a b → Q a →
      Relation.ReflTransGen (succStep g) a b ∧ Q b := by
  intro a b hab hQa
  induction hab with
  | refl => exact ⟨Relation.ReflTransGen.refl, hQa⟩
  | tail hr2 hstep ih =>
    obtain ⟨hg, hQ⟩ := ih
    exact ⟨Relation.ReflTransGen.tail hg (hsub _ hQ _ hstep), hQf _ hQ _ hstep⟩

/-! ## The Thompson invariant

`BuildOut c0 A0 c1 A1 s f` records the shape of one recursive Thompson
construction step: states below the initial counter are untouched, the
ids `[c0, c1)` are exactly the freshly created states, the returned
final list is the single state `f`, only `f` carries the finality flag
among the new states, transitions of new states stay inside the block,
every new state is reachable from the returned start, no transition is
keyed by the epsilon symbol, and every transition key has a target. -/

structure BuildOut (c0 : Nat) (A0 : Arena) (c1 : Nat) (A1 : Arena)
    (s f : Nat) : Prop where
  hc : c0 + 2 ≤ c1
  pres : ∀ j, j < c0 → lookupSt A1 j = lookupSt A0 j
  dom : ∀ j, (lookupSt A1 j).isSome = true ↔
    ((lookupSt A0 j).isSome = true ∨ (c0 ≤ j ∧ j < c1))
  nd : (A1.map Prod.fst).Nodup
  bound : ∀ i ∈ A1.map Prod.fst, i < c1
  hs1 : c0 ≤ s
  hs2 : s < c1
  hf1 : c0 ≤ f
  hf2 : f < c1
  flags : ∀ j, c0 ≤ j → j < c1 → (isFinalSt A1 j = true ↔ j = f)
  succIn : ∀ j, c0 ≤ j → j < c1 → ∀ y ∈ stateSuccs A1 j, c0 ≤ y ∧ y < c1
  reach : ∀ j, c0 ≤ j → j < c1 →
    Relation.ReflTransGen (succStep (stateSuccs A1)) s j
  noEps : ∀ j, c0 ≤ j → j < c1 → "ε" ∉ transKeys A1 j
  keysNE : ∀ j, c0 ≤ j → j < c1 → ∀ k ∈ transKeys A1 j,
    symTargets A1 j k ≠ []

theorem isFinalSt_congr {A B : Arena} {j : Nat}
    (h : lookupSt A j = lookupSt B j) : isFinalSt A j = isFinalSt B j := by
  unfold isFinalSt
  rw [h]

theorem stateSuccs_congr {A B : Arena} {j : Nat}
    (h : lookupSt A j = lookupSt B j) : stateSuccs A j = stateSuccs B j := by
  unfold stateSuccs
  rw [h]

theorem transKeys_congr {A B : Arena} {j : Nat}
    (h : lookupSt A j = lookupSt B j) : transKeys A j = transKeys B j := by
  unfold transKeys
  rw [h]

theorem symTargets_congr {A B : Arena} {j : Nat} (c : String)
    (h : lookupSt A j = lookupSt B j) : symTargets A j c = symTargets B j c := by
  unfold symTargets
  rw [h]

theorem epsTargets_congr {A B : Arena} {j : Nat}
    (h : lookupSt A j = lookupSt B j) : epsTargets A j = epsTargets B j := by
  unfold epsTargets
  rw [h]

theorem string_mk_ne_eps {ch : Char} (h : ¬ ch = 'ε') :
    ¬ String.mk [ch] = "ε" := by
  intro h2
  apply h
  have : (String.mk [ch]).data = ("ε" : String).data := by rw [h2]
  simpa using this

/-- Common shape of `_construct_basic`: two fresh states, the first
carrying the single created edge to the second. -/
theorem buildOut_two_states (c0 : Nat) (A0 : Arena)
    (hA0 : ∀ i ∈ A0.map Prod.fst, i < c0) (hnd : (A0.map Prod.fst).Nodup)
    (d0 : StateData) (A2 : Arena)
    (hlook : ∀ j, lookupSt A2 j =
      if j = c0 then some d0
      else if j = c0 + 1 then some ⟨true, [], []⟩
      else lookupSt A0 j)
    (hkeysA2 : A2.map Prod.fst = (c0 + 1) :: c0 :: A0.map Prod.fst)
    (hflag : d0.isFinal = false)
    (hsucc : (d0.trans.map Prod.snd).flatten ++ d0.eps = [c0 + 1])
    (hnoeps : "ε" ∉ d0.trans.map Prod.fst)
    (hkne : ∀ k ∈ d0.trans.map Prod.fst,
      (match alookup k d0.trans with | none => [] | some l => l) ≠ []) :
    BuildOut c0 A0 (c0 + 2) A2 c0 (c0 + 1) := by
  have hlookc0 : lookupSt A2 c0 = some d0 := by rw [hlook, if_pos rfl]
  have hlookc1 : lookupSt A2 (c0 + 1) = some ⟨true, [], []⟩ := by
    rw [hlook, if_neg (by omega), if_pos rfl]
  have hsuccs_c0 : stateSuccs A2 c0 = [c0 + 1] := by
    unfold stateSuccs
    simp only [hlookc0]
    exact hsucc
  have hsuccs_c1 : stateSuccs A2 (c0 + 1) = [] := by
    unfold stateSuccs
    simp [hlookc1]
  refine ⟨by omega, ?_, ?_, ?_, ?_, by omega, by omega, by omega, by omega,
    ?_, ?_, ?_, ?_, ?_⟩
  · intro j hj
    rw [hlook, if_neg (by omega), if_neg (by omega)]
  · intro j
    rw [hlook]
    by_cases h1 : j = c0
    · subst h1
      simp only [if_pos rfl]
      constructor
      · intro _; exact Or.inr ⟨by omega, by omega⟩
      · intro _; rfl
    · rw [if_neg h1]
      by_cases h2 : j = c0 + 1
      · subst h2
        simp only [if_pos rfl]
        constructor
        · intro _; exact Or.inr ⟨by omega, by omega⟩
        · intro _; rfl
      · rw [if_neg h2]
        constructor
        · exact fun h => Or.inl h
        · rintro (h | h)
          · exact h
          · omega
  · rw [hkeysA2]
    refine List.nodup_cons.mpr ⟨?_, List.nodup_cons.mpr ⟨?_, hnd⟩⟩
    · intro h
      rcases List.mem_cons.mp h with h | h
      · omega
      · have := hA0 _ h; omega
    · intro h
      have := hA0 _ h; omega
  · intro i hi
    rw [hkeysA2] at hi
    rcases List.mem_cons.mp hi with rfl | hi
    · omega
    · rcases List.mem_cons.mp hi with rfl | hi
      · omega
      · have := hA0 _ hi; omega
  · intro j h1 h2
    have : j = c0 ∨ j = c0 + 1 := by omega
    rcases this with rfl | rfl
    · unfold isFinalSt
      simp only [hlookc0, hflag]
      constructor
      · intro h; cases h
      · intro h; omega
    · unfold isFinalSt
      simp [hlookc1]
  · intro j h1 h2 y hy
    have : j = c0 ∨ j = c0 + 1 := by omega
    rcases this with rfl | rfl
    · rw [hsuccs_c0] at hy
      simp at hy
      omega
    · rw [hsuccs_c1] at hy
      simp at hy
  · intro j h1 h2
    have : j = c0 ∨ j = c0 + 1 := by omega
    rcases this with rfl | rfl
    · exact Relation.ReflTransGen.refl
    · refine Relation.ReflTransGen.tail Relation.ReflTransGen.refl ?_
      show c0 + 1 ∈ stateSuccs A2 c0
      rw [hsuccs_c0]
      simp
  · intro j h1 h2
    have : j = c0 ∨ j = c0 + 1 := by omega
    rcases this with rfl | rfl
    · unfold transKeys
      simp only [hlookc0]
      exact hnoeps
    · unfold transKeys
      simp [hlookc1]
  · intro j h1 h2 k hk
    have : j = c0 ∨ j = c0 + 1 := by omega
    rcases this with rfl | rfl
    · unfold transKeys at hk
      simp only [hlookc0] at hk
      unfold symTargets
      simp only [hlookc0]
      exact hkne k hk
    · unfold transKeys at hk
      simp only [hlookc1] at hk
      simp at hk

theorem litSym_single (ch : Char) : litSym (String.mk [ch]) = String.mk [ch] := by
  simp [litSym]

theorem litSym_two (ch : Char) :
    litSym (String.mk ['L', ch]) = String.mk [ch] := by
  simp [litSym]

theorem buildOut_basic {v : String} (hv : wfLeafVal v) (c0 : Nat) (A0 : Arena)
    (hA0 : ∀ i ∈ A0.map Prod.fst, i < c0) (hnd : (A0.map Prod.fst).Nodup) :
    BuildOut c0 A0 (c0 + 2) (constructBasic v c0 A0).2.1 c0 (c0 + 1) := by
  set A1 : Arena := (c0 + 1, ⟨true, [], []⟩) :: (c0, ⟨false, [], []⟩) :: A0
    with hA1def
  have hlookA1 : ∀ j, lookupSt A1 j =
      if j = c0 then some ⟨false, [], []⟩
      else if j = c0 + 1 then some ⟨true, [], []⟩
      else lookupSt A0 j := by
    intro j
    rw [hA1def, lookupSt_cons, lookupSt_cons]
    by_cases h1 : j = c0
    · rw [if_neg (show ¬ c0 + 1 = j by omega), if_pos h1.symm, if_pos h1]
    · by_cases h2 : j = c0 + 1
      · rw [if_pos h2.symm, if_neg h1, if_pos h2]
      · rw [if_neg (fun h : c0 + 1 = j => h2 h.symm),
          if_neg (fun h : c0 = j => h1 h.symm), if_neg h1, if_neg h2]
  have hkeysA1 : A1.map Prod.fst = (c0 + 1) :: c0 :: A0.map Prod.fst := by
    rw [hA1def]
    rfl
  -- the transition branch, shared by the two non-epsilon leaf forms
  have htrans : ∀ sym : String, ¬ sym = "ε" →
      BuildOut c0 A0 (c0 + 2) (addTransA A1 c0 sym (c0 + 1)) c0 (c0 + 1) := by
    intro sym hsym
    refine buildOut_two_states c0 A0 hA0 hnd
      ⟨false, [(sym, [c0 + 1])], []⟩ _ ?_ ?_ rfl (by simp) ?_ ?_
    · intro j
      rw [addTransA_lookup]
      by_cases h1 : j = c0
      · subst h1
        rw [if_pos rfl, hlookA1, if_pos rfl, if_pos rfl]
        rfl
      · rw [if_neg h1, hlookA1, if_neg h1, if_neg h1]
    · rw [show addTransA A1 c0 sym (c0 + 1) = updSt A1 c0 _ from rfl,
        updSt_keys, hkeysA1]
    · simp only [List.map_cons, List.map_nil, List.mem_singleton]
      exact fun h => hsym h.symm
    · intro k hk
      simp only [List.map_cons, List.map_nil, List.mem_singleton] at hk
      subst hk
      simp [alookup]
  by_cases hveps : v = "ε"
  · -- epsilon leaf
    have : (constructBasic v c0 A0).2.1 = addEpsA A1 c0 (c0 + 1) := by
      simp only [constructBasic, if_pos hveps, hA1def]
    rw [this]
    refine buildOut_two_states c0 A0 hA0 hnd
      ⟨false, [], [c0 + 1]⟩ _ ?_ ?_ rfl (by simp) (by simp) (by simp)
    · intro j
      rw [addEpsA_lookup]
      by_cases h1 : j = c0
      · subst h1
        rw [if_pos rfl, hlookA1, if_pos rfl, if_pos rfl]
        rfl
      · rw [if_neg h1, hlookA1, if_neg h1, if_neg h1]
    · rw [show addEpsA A1 c0 (c0 + 1) = updSt A1 c0 _ from rfl,
        updSt_keys, hkeysA1]
  · rcases hv with rfl | ⟨ch, rfl, hch⟩ | ⟨ch, rfl, hch⟩
    · exact absurd rfl hveps
    · -- single-character leaf
      have hchne : ¬ ch = 'ε' := by
        intro h
        subst h
        exact absurd hch (by decide)
      have hsymne : ¬ String.mk [ch] = "ε" := string_mk_ne_eps hchne
      by_cases hL : startsWithL (String.mk [ch])
      · have : (constructBasic (String.mk [ch]) c0 A0).2.1 =
            addTransA A1 c0 (String.mk [ch]) (c0 + 1) := by
          simp only [constructBasic, if_neg hveps, if_pos hL, litSym_single,
            hA1def]
        rw [this]
        exact htrans _ hsymne
      · have : (constructBasic (String.mk [ch]) c0 A0).2.1 =
            addTransA A1 c0 (String.mk [ch]) (c0 + 1) := by
          simp only [constructBasic, if_neg hveps, if_neg hL, hA1def]
        rw [this]
        exact htrans _ hsymne
    · -- escaped literal leaf
      have hchne : ¬ ch = 'ε' := by
        rcases hch with hch | rfl
        · intro h
          subst h
          exact absurd hch (by decide)
        · decide
      have hL : startsWithL (String.mk ['L', ch]) = true := rfl
      have : (constructBasic (String.mk ['L', ch]) c0 A0).2.1 =
          addTransA A1 c0 (String.mk [ch]) (c0 + 1) := by
        simp only [constructBasic, if_neg hveps, hL, if_pos, litSym_two,
          hA1def]
      rw [this]
      exact htrans _ (string_mk_ne_eps hchne)

theorem buildOut_concat {c0 c1 c2 s1 f1 s2 f2 : Nat} {A0 A1 A2 : Arena}
    (L : BuildOut c0 A0 c1 A1 s1 f1) (R : BuildOut c1 A1 c2 A2 s2 f2) :
    BuildOut c0 A0 c2 (constructConcat A2 [f1] s2) s1 f2 := by
  have hA3 : constructConcat A2 [f1] s2 =
      addEpsA (setFinalA A2 f1 false) f1 s2 := by
    simp [constructConcat]
  rw [hA3]
  have hLc := L.hc
  have hRc := R.hc
  have hLs1 := L.hs1
  have hLs2 := L.hs2
  have hLf1 := L.hf1
  have hLf2 := L.hf2
  have hRs1 := R.hs1
  have hRs2 := R.hs2
  have hRf1 := R.hf1
  have hRf2 := R.hf2
  set A3 : Arena := addEpsA (setFinalA A2 f1 false) f1 s2 with hA3def
  have hA2f1some : (lookupSt A2 f1).isSome = true := by
    rw [R.pres f1 L.hf2]
    exact (L.dom f1).mpr (Or.inr ⟨L.hf1, L.hf2⟩)
  have hlook_ne : ∀ j, ¬ j = f1 → lookupSt A3 j = lookupSt A2 j := by
    intro j hj
    rw [hA3def, addEpsA_lookup, if_neg hj, setFinalA_lookup, if_neg hj]
  have hsome_pres : ∀ j, (lookupSt A3 j).isSome = (lookupSt A2 j).isSome := by
    intro j
    by_cases hj : j = f1
    · subst hj
      rw [hA3def, addEpsA_lookup, if_pos rfl, setFinalA_lookup, if_pos rfl]
      cases lookupSt A2 j <;> simp
    · rw [hlook_ne j hj]
  have hsuccs_ne : ∀ j, ¬ j = f1 → stateSuccs A3 j = stateSuccs A2 j :=
    fun j hj => stateSuccs_congr (hlook_ne j hj)
  have hsuccs_f1 : ∀ y, y ∈ stateSuccs A3 f1 ↔
      y ∈ stateSuccs A2 f1 ∨ y = s2 := by
    intro y
    rw [hA3def, stateSuccs_addEpsA_mem]
    rw [stateSuccs_setFinalA]
    have : (lookupSt (setFinalA A2 f1 false) f1).isSome = true := by
      rw [setFinalA_lookup, if_pos rfl]
      cases hl : lookupSt A2 f1 with
      | none => rw [hl] at hA2f1some; cases hA2f1some
      | some d => simp
    constructor
    · rintro (hy | ⟨_, _, rfl⟩)
      · exact Or.inl hy
      · exact Or.inr rfl
    · rintro (hy | rfl)
      · exact Or.inl hy
      · exact Or.inr ⟨rfl, this, rfl⟩
  have hpresA2 : ∀ j, j < c1 → lookupSt A2 j = lookupSt A1 j := R.pres
  have hkeysA3 : A3.map Prod.fst = A2.map Prod.fst := by
    rw [hA3def]
    show (updSt (updSt A2 f1 _) f1 _).map Prod.fst = A2.map Prod.fst
    rw [updSt_keys, updSt_keys]
  -- successors of left-block states in the final arena contain the old ones
  have hsub_left : ∀ x, (c0 ≤ x ∧ x < c1) → ∀ y ∈ stateSuccs A1 x,
      y ∈ stateSuccs A3 x := by
    intro x hx y hy
    by_cases hxf : x = f1
    · subst hxf
      refine (hsuccs_f1 y).mpr (Or.inl ?_)
      rw [stateSuccs_congr (hpresA2 _ hx.2)]
      exact hy
    · rw [hsuccs_ne x hxf, stateSuccs_congr (hpresA2 _ hx.2)]
      exact hy
  have hreach_left : ∀ j, c0 ≤ j → j < c1 →
      Relation.ReflTransGen (succStep (stateSuccs A3)) s1 j := by
    intro j h1 h2
    exact (rtg_transfer (stateSuccs A1) (stateSuccs A3) (fun x => c0 ≤ x ∧ x < c1)
      (fun x hx y hy => L.succIn x hx.1 hx.2 y hy)
      hsub_left (L.reach j h1 h2) ⟨L.hs1, L.hs2⟩).1
  have hreach_right : ∀ j, c1 ≤ j → j < c2 →
      Relation.ReflTransGen (succStep (stateSuccs A3)) s2 j := by
    intro j h1 h2
    refine (rtg_transfer (stateSuccs A2) (stateSuccs A3) (fun x => c1 ≤ x ∧ x < c2)
      (fun x hx y hy => R.succIn x hx.1 hx.2 y hy)
      ?_ (R.reach j h1 h2) ⟨R.hs1, R.hs2⟩).1
    intro x hx y hy
    rw [hsuccs_ne x (by intro h; subst h; exact absurd hx.1 (by omega))]
    exact hy
  refine ⟨by omega, ?_, ?_, ?_, ?_, L.hs1, by omega, by omega, R.hf2,
    ?_, ?_, ?_, ?_, ?_⟩
  · intro j hj
    rw [hlook_ne j (by omega), hpresA2 j (by omega), L.pres j hj]
  · intro j
    rw [hsome_pres j, R.dom j]
    constructor
    · rintro (h | h)
      · rcases (L.dom j).mp h with h2 | h2
        · exact Or.inl h2
        · exact Or.inr ⟨by omega, by omega⟩
      · exact Or.inr ⟨by omega, by omega⟩
    · rintro (h | ⟨h1, h2⟩)
      · exact Or.inl ((L.dom j).mpr (Or.inl h))
      · by_cases hcj : j < c1
        · exact Or.inl ((L.dom j).mpr (Or.inr ⟨h1, hcj⟩))
        · exact Or.inr ⟨by omega, h2⟩
  · rw [hkeysA3]
    exact R.nd
  · intro i hi
    rw [hkeysA3] at hi
    exact R.bound i hi
  · intro j h1 h2
    by_cases hjf : j = f1
    · subst hjf
      have : isFinalSt A3 j = false := by
        rw [hA3def, isFinalSt_addEpsA]
        exact isFinalSt_setFinalA_self A2 j false hA2f1some
      rw [this]
      constructor
      · intro h; cases h
      · intro h
        exfalso
        have := R.hf1
        omega
    · have heqA2 : isFinalSt A3 j = isFinalSt A2 j :=
        isFinalSt_congr (hlook_ne j hjf)
      by_cases hcj : j < c1
      · rw [heqA2, isFinalSt_congr (hpresA2 j hcj)]
        rw [show (isFinalSt A1 j = true ↔ j = f1) from L.flags j h1 hcj]
        constructor
        · intro h; exact absurd h hjf
        · intro h
          exfalso
          have := R.hf1
          omega
      · rw [heqA2]
        exact R.flags j (by omega) h2
  · intro j h1 h2 y hy
    by_cases hjf : j = f1
    · subst hjf
      rcases (hsuccs_f1 y).mp hy with hy2 | rfl
      · rw [stateSuccs_congr (hpresA2 _ L.hf2)] at hy2
        have := L.succIn j L.hf1 L.hf2 y hy2
        omega
      · have := R.hs1
        have := R.hs2
        omega
    · rw [hsuccs_ne j hjf] at hy
      by_cases hcj : j < c1
      · rw [stateSuccs_congr (hpresA2 j hcj)] at hy
        have := L.succIn j h1 hcj y hy
        omega
      · have := R.succIn j (by omega) h2 y hy
        omega
  · intro j h1 h2
    by_cases hcj : j < c1
    · exact hreach_left j h1 hcj
    · refine Relation.ReflTransGen.trans ?_ (hreach_right j (by omega) h2)
      refine Relation.ReflTransGen.tail (hreach_left f1 L.hf1 L.hf2) ?_
      show s2 ∈ stateSuccs A3 f1
      exact (hsuccs_f1 s2).mpr (Or.inr rfl)
  · intro j h1 h2
    have hkeq : transKeys A3 j = transKeys A2 j := by
      rw [hA3def, transKeys_addEpsA, transKeys_setFinalA]
    rw [hkeq]
    by_cases hcj : j < c1
    · rw [transKeys_congr (hpresA2 j hcj)]
      exact L.noEps j h1 hcj
    · exact R.noEps j (by omega) h2
  · intro j h1 h2 k hk
    have hkeq : transKeys A3 j = transKeys A2 j := by
      rw [hA3def, transKeys_addEpsA, transKeys_setFinalA]
    have hseq : symTargets A3 j k = symTargets A2 j k := by
      rw [hA3def, symTargets_addEpsA, symTargets_setFinalA]
    rw [hkeq] at hk
    rw [hseq]
    by_cases hcj : j < c1
    · rw [transKeys_congr (hpresA2 j hcj)] at hk
      rw [symTargets_congr k (hpresA2 j hcj)]
      exact L.keysNE j h1 hcj k hk
    · exact R.keysNE j (by omega) h2 k hk

theorem wireFinal_lookup (B : Arena) (f tgt : Nat) (j : Nat) :
    lookupSt (addEpsA (setFinalA B f false) f tgt) j =
      if j = f then
        (lookupSt B j).map (fun d => ⟨false, d.trans, d.eps ++ [tgt]⟩)
      else lookupSt B j := by
  by_cases h : j = f
  · rw [addEpsA_lookup, if_pos h, setFinalA_lookup, if_pos h, if_pos h]
    cases lookupSt B j <;> simp
  · rw [addEpsA_lookup, if_neg h, setFinalA_lookup, if_neg h, if_neg h]

theorem wireFinal2_lookup (B : Arena) (f t1 t2 : Nat) (j : Nat) :
    lookupSt (addEpsA (addEpsA (setFinalA B f false) f t1) f t2) j =
      if j = f then
        (lookupSt B j).map (fun d => ⟨false, d.trans, d.eps ++ [t1] ++ [t2]⟩)
      else lookupSt B j := by
  by_cases h : j = f
  · rw [addEpsA_lookup, if_pos h, addEpsA_lookup, if_pos h, setFinalA_lookup,
      if_pos h, if_pos h]
    cases lookupSt B j <;> simp
  · rw [addEpsA_lookup, if_neg h, addEpsA_lookup, if_neg h, setFinalA_lookup,
      if_neg h, if_neg h]

theorem addEps2_lookup (B : Arena) (n t1 t2 : Nat) (j : Nat) :
    lookupSt (addEpsA (addEpsA B n t1) n t2) j =
      if j = n then
        (lookupSt B j).map (fun d => ⟨d.isFinal, d.trans, d.eps ++ [t1] ++ [t2]⟩)
      else lookupSt B j := by
  by_cases h : j = n
  · rw [addEpsA_lookup, if_pos h, addEpsA_lookup, if_pos h, if_pos h]
    cases lookupSt B j <;> simp
  · rw [addEpsA_lookup, if_neg h, addEpsA_lookup, if_neg h, if_neg h]

theorem buildOut_union {c0 c1 c2 s1 f1 s2 f2 : Nat} {A0 A1 A2 : Arena}
    (L : BuildOut c0 A0 c1 A1 s1 f1) (R : BuildOut c1 A1 c2 A2 s2 f2) :
    BuildOut c0 A0 (c2 + 2) (constructUnion A2 c2 s1 [f1] s2 [f2]).2.1 c2
      (c2 + 1) := by
  have hLc := L.hc
  have hRc := R.hc
  have hLs1 := L.hs1
  have hLs2 := L.hs2
  have hLf1 := L.hf1
  have hLf2 := L.hf2
  have hRs1 := R.hs1
  have hRs2 := R.hs2
  have hRf1 := R.hf1
  have hRf2 := R.hf2
  have hA2f1some : (lookupSt A2 f1).isSome = true := by
    rw [R.pres f1 (by omega)]
    exact (L.dom f1).mpr (Or.inr ⟨by omega, by omega⟩)
  have hA2f2some : (lookupSt A2 f2).isSome = true :=
    (R.dom f2).mpr (Or.inr ⟨by omega, by omega⟩)
  have hB4 : (constructUnion A2 c2 s1 [f1] s2 [f2]).2.1 =
      addEpsA (setFinalA (addEpsA (setFinalA
        (addEpsA (addEpsA ((c2 + 1, ⟨true, [], []⟩) ::
          (c2, ⟨false, [], []⟩) :: A2) c2 s1) c2 s2)
        f1 false) f1 (c2 + 1)) f2 false) f2 (c2 + 1) := by
    simp [constructUnion]
  rw [hB4]
  set B0 : Arena := (c2 + 1, ⟨true, [], []⟩) :: (c2, ⟨false, [], []⟩) :: A2
    with hB0def
  set B2 : Arena := addEpsA (addEpsA B0 c2 s1) c2 s2 with hB2def
  set B4 : Arena := addEpsA (setFinalA (addEpsA (setFinalA B2 f1 false)
    f1 (c2 + 1)) f2 false) f2 (c2 + 1) with hB4def
  have hlookB0 : ∀ j, lookupSt B0 j =
      if j = c2 then some ⟨false, [], []⟩
      else if j = c2 + 1 then some ⟨true, [], []⟩
      else lookupSt A2 j := by
    intro j
    rw [hB0def, lookupSt_cons, lookupSt_cons]
    by_cases h1 : j = c2
    · rw [if_neg (show ¬ c2 + 1 = j by omega), if_pos h1.symm, if_pos h1]
    · by_cases h2 : j = c2 + 1
      · rw [if_pos h2.symm, if_neg h1, if_pos h2]
      · rw [if_neg (fun h : c2 + 1 = j => h2 h.symm),
          if_neg (fun h : c2 = j => h1 h.symm), if_neg h1, if_neg h2]
  have hlookB2 : ∀ j, lookupSt B2 j =
      if j = c2 then some ⟨false, [], [] ++ [s1] ++ [s2]⟩
      else if j = c2 + 1 then some ⟨true, [], []⟩
      else lookupSt A2 j := by
    intro j
    rw [hB2def, addEps2_lookup]
    by_cases h1 : j = c2
    · rw [if_pos h1, if_pos h1, hlookB0, if_pos h1]
      rfl
    · rw [if_neg h1, hlookB0, if_neg h1, if_neg h1]
  have hlookB4 : ∀ j, lookupSt B4 j =
      if j = f1 then
        (lookupSt A2 f1).map (fun d => ⟨false, d.trans, d.eps ++ [c2 + 1]⟩)
      else if j = f2 then
        (lookupSt A2 f2).map (fun d => ⟨false, d.trans, d.eps ++ [c2 + 1]⟩)
      else if j = c2 then some ⟨false, [], [] ++ [s1] ++ [s2]⟩
      else if j = c2 + 1 then some ⟨true, [], []⟩
      else lookupSt A2 j := by
    intro j
    rw [hB4def, wireFinal_lookup]
    by_cases h2 : j = f2
    · rw [if_pos h2, wireFinal_lookup, if_neg (show ¬ j = f1 by omega),
        hlookB2, if_neg (show ¬ j = c2 by omega),
        if_neg (show ¬ j = c2 + 1 by omega),
        if_neg (show ¬ j = f1 by omega), if_pos h2, h2]
    · rw [if_neg h2, wireFinal_lookup]
      by_cases h1 : j = f1
      · rw [if_pos h1, hlookB2, if_neg (show ¬ j = c2 by omega),
          if_neg (show ¬ j = c2 + 1 by omega), if_pos h1, h1]
      · rw [if_neg h1, hlookB2, if_neg h1, if_neg h2]
  have hkeysB4 : B4.map Prod.fst = (c2 + 1) :: c2 :: A2.map Prod.fst := by
    rw [hB4def]
    show (updSt (updSt (updSt (updSt (updSt (updSt B0 c2 _) c2 _) f1 _)
      f1 _) f2 _) f2 _).map Prod.fst = _
    rw [updSt_keys, updSt_keys, updSt_keys, updSt_keys, updSt_keys,
      updSt_keys, hB0def]
    rfl
  have hlook_out : ∀ j, ¬ j = f1 → ¬ j = f2 → ¬ j = c2 → ¬ j = c2 + 1 →
      lookupSt B4 j = lookupSt A2 j := by
    intro j h1 h2 h3 h4
    rw [hlookB4, if_neg h1, if_neg h2, if_neg h3, if_neg h4]
  have hlook_ns : lookupSt B4 c2 = some ⟨false, [], [] ++ [s1] ++ [s2]⟩ := by
    rw [hlookB4, if_neg (by omega), if_neg (by omega), if_pos rfl]
  have hlook_nf : lookupSt B4 (c2 + 1) = some ⟨true, [], []⟩ := by
    rw [hlookB4, if_neg (by omega), if_neg (by omega), if_neg (by omega),
      if_pos rfl]
  have hsuccs_ns : stateSuccs B4 c2 = [s1, s2] := by
    unfold stateSuccs
    simp [hlook_ns]
  have hsuccs_nf : stateSuccs B4 (c2 + 1) = [] := by
    unfold stateSuccs
    simp [hlook_nf]
  have hsuccs_f1 : ∀ y, y ∈ stateSuccs B4 f1 ↔
      y ∈ stateSuccs A2 f1 ∨ y = c2 + 1 := by
    intro y
    unfold stateSuccs
    rw [hlookB4, if_pos rfl]
    cases hl : lookupSt A2 f1 with
    | none => rw [hl] at hA2f1some; cases hA2f1some
    | some d =>
      simp only [Option.map_some']
      simp only [List.mem_append, List.mem_singleton]
      tauto
  have hsuccs_f2 : ∀ y, y ∈ stateSuccs B4 f2 ↔
      y ∈ stateSuccs A2 f2 ∨ y = c2 + 1 := by
    intro y
    unfold stateSuccs
    rw [hlookB4, if_neg (by omega), if_pos rfl]
    cases hl : lookupSt A2 f2 with
    | none => rw [hl] at hA2f2some; cases hA2f2some
    | some d =>
      simp only [Option.map_some']
      simp only [List.mem_append, List.mem_singleton]
      tauto
  have htk_f1 : transKeys B4 f1 = transKeys A2 f1 := by
    unfold transKeys
    rw [hlookB4, if_pos rfl]
    cases lookupSt A2 f1 <;> simp
  have htk_f2 : transKeys B4 f2 = transKeys A2 f2 := by
    unfold transKeys
    rw [hlookB4, if_neg (by omega), if_pos rfl]
    cases lookupSt A2 f2 <;> simp
  have hst_f1 : ∀ k, symTargets B4 f1 k = symTargets A2 f1 k := by
    intro k
    unfold symTargets
    rw [hlookB4, if_pos rfl]
    cases lookupSt A2 f1 <;> simp
  have hst_f2 : ∀ k, symTargets B4 f2 k = symTargets A2 f2 k := by
    intro k
    unfold symTargets
    rw [hlookB4, if_neg (by omega), if_pos rfl]
    cases lookupSt A2 f2 <;> simp
  have hpresA2 : ∀ j, j < c1 → lookupSt A2 j = lookupSt A1 j := fun j hj =>
    R.pres j hj
  have hsub_left : ∀ x, (c0 ≤ x ∧ x < c1) → ∀ y ∈ stateSuccs A1 x,
      y ∈ stateSuccs B4 x := by
    intro x hx y hy
    by_cases hxf : x = f1
    · subst hxf
      refine (hsuccs_f1 y).mpr (Or.inl ?_)
      rw [stateSuccs_congr (hpresA2 _ hx.2)]
      exact hy
    · rw [stateSuccs_congr (hlook_out x hxf (by omega) (by omega) (by omega)),
        stateSuccs_congr (hpresA2 _ hx.2)]
      exact hy
  have hsub_right : ∀ x, (c1 ≤ x ∧ x < c2) → ∀ y ∈ stateSuccs A2 x,
      y ∈ stateSuccs B4 x := by
    intro x hx y hy
    by_cases hxf : x = f2
    · subst hxf
      exact (hsuccs_f2 y).mpr (Or.inl hy)
    · rw [stateSuccs_congr (hlook_out x (by omega) hxf (by omega) (by omega))]
      exact hy
  have hreach_left : ∀ j, c0 ≤ j → j < c1 →
      Relation.ReflTransGen (succStep (stateSuccs B4)) s1 j := by
    intro j h1 h2
    exact (rtg_transfer (stateSuccs A1) (stateSuccs B4)
      (fun x => c0 ≤ x ∧ x < c1)
      (fun x hx y hy => L.succIn x hx.1 hx.2 y hy)
      hsub_left (L.reach j h1 h2) ⟨L.hs1, L.hs2⟩).1
  have hreach_right : ∀ j, c1 ≤ j → j < c2 →
      Relation.ReflTransGen (succStep (stateSuccs B4)) s2 j := by
    intro j h1 h2
    exact (rtg_transfer (stateSuccs A2) (stateSuccs B4)
      (fun x => c1 ≤ x ∧ x < c2)
      (fun x hx y hy => R.succIn x hx.1 hx.2 y hy)
      hsub_right (R.reach j h1 h2) ⟨R.hs1, R.hs2⟩).1
  have hstep_s1 : Relation.ReflTransGen (succStep (stateSuccs B4)) c2 s1 := by
    refine Relation.ReflTransGen.tail Relation.ReflTransGen.refl ?_
    show s1 ∈ stateSuccs B4 c2
    rw [hsuccs_ns]
    simp
  have hstep_s2 : Relation.ReflTransGen (succStep (stateSuccs B4)) c2 s2 := by
    refine Relation.ReflTransGen.tail Relation.ReflTransGen.refl ?_
    show s2 ∈ stateSuccs B4 c2
    rw [hsuccs_ns]
    simp
  refine ⟨by omega, ?_, ?_, ?_, ?_, by omega, by omega, by omega, by omega,
    ?_, ?_, ?_, ?_, ?_⟩
  · intro j hj
    rw [hlook_out j (by omega) (by omega) (by omega) (by omega),
      hpresA2 j (by omega), L.pres j hj]
  · intro j
    by_cases h1 : j = f1
    · rw [h1, hlookB4, if_pos rfl]
      cases hl : lookupSt A2 f1 with
      | none => rw [hl] at hA2f1some; cases hA2f1some
      | some d =>
        simp only [Option.map_some', Option.isSome_some]
        constructor
        · intro _; exact Or.inr ⟨by omega, by omega⟩
        · intro _; trivial
    · by_cases h2 : j = f2
      · rw [h2, hlookB4, if_neg (by omega), if_pos rfl]
        cases hl : lookupSt A2 f2 with
        | none => rw [hl] at hA2f2some; cases hA2f2some
        | some d =>
          simp only [Option.map_some', Option.isSome_some]
          constructor
          · intro _; exact Or.inr ⟨by omega, by omega⟩
          · intro _; trivial
      · by_cases h3 : j = c2
        · rw [h3, hlook_ns]
          simp only [Option.isSome_some]
          constructor
          · intro _; exact Or.inr ⟨by omega, by omega⟩
          · intro _; trivial
        · by_cases h4 : j = c2 + 1
          · rw [h4, hlook_nf]
            simp only [Option.isSome_some]
            constructor
            · intro _; exact Or.inr ⟨by omega, by omega⟩
            · intro _; trivial
          · rw [hlook_out j h1 h2 h3 h4, R.dom j]
            constructor
            · rintro (h | h)
              · rcases (L.dom j).mp h with h5 | h5
                · exact Or.inl h5
                · exact Or.inr ⟨by omega, by omega⟩
              · exact Or.inr ⟨by omega, by omega⟩
            · rintro (h | ⟨h5, h6⟩)
              · exact Or.inl ((L.dom j).mpr (Or.inl h))
              · by_cases hcj : j < c1
                · exact Or.inl ((L.dom j).mpr (Or.inr ⟨h5, hcj⟩))
                · exact Or.inr ⟨by omega, by omega⟩
  · rw [hkeysB4]
    refine List.nodup_cons.mpr ⟨?_, List.nodup_cons.mpr ⟨?_, R.nd⟩⟩
    · intro h
      rcases List.mem_cons.mp h with h | h
      · omega
      · have := R.bound _ h; omega
    · intro h
      have := R.bound _ h; omega
  · intro i hi
    rw [hkeysB4] at hi
    rcases List.mem_cons.mp hi with rfl | hi
    · omega
    · rcases List.mem_cons.mp hi with rfl | hi
      · omega
      · have := R.bound _ hi; omega
  · intro j hj1 hj2
    by_cases h1 : j = f1
    · have hfalse : isFinalSt B4 j = false := by
        rw [h1]
        unfold isFinalSt
        rw [hlookB4, if_pos rfl]
        cases hl : lookupSt A2 f1 with
        | none => rw [hl] at hA2f1some; cases hA2f1some
        | some d => simp
      rw [hfalse]
      constructor
      · intro h; cases h
      · intro h; omega
    · by_cases h2 : j = f2
      · have hfalse : isFinalSt B4 j = false := by
          rw [h2]
          unfold isFinalSt
          rw [hlookB4, if_neg (by omega), if_pos rfl]
          cases hl : lookupSt A2 f2 with
          | none => rw [hl] at hA2f2some; cases hA2f2some
          | some d => simp
        rw [hfalse]
        constructor
        · intro h; cases h
        · intro h; omega
      · by_cases h3 : j = c2
        · have hfalse : isFinalSt B4 j = false := by
            rw [h3]
            unfold isFinalSt
            rw [hlook_ns]
          rw [hfalse]
          constructor
          · intro h; cases h
          · intro h; omega
        · by_cases h4 : j = c2 + 1
          · have htrue : isFinalSt B4 j = true := by
              rw [h4]
              unfold isFinalSt
              rw [hlook_nf]
            rw [htrue]
            constructor
            · intro _; omega
            · intro _; rfl
          · have heq : isFinalSt B4 j = isFinalSt A2 j :=
              isFinalSt_congr (hlook_out j h1 h2 h3 h4)
            by_cases hcj : j < c1
            · rw [heq, isFinalSt_congr (hpresA2 j hcj)]
              rw [show (isFinalSt A1 j = true ↔ j = f1) from
                L.flags j hj1 hcj]
              constructor
              · intro h; exact absurd h h1
              · intro h; omega
            · rw [heq]
              rw [show (isFinalSt A2 j = true ↔ j = f2) from
                R.flags j (by omega) (by omega)]
              constructor
              · intro h; exact absurd h h2
              · intro h; omega
  · intro j hj1 hj2 y hy
    by_cases h1 : j = f1
    · rw [h1] at hy
      rcases (hsuccs_f1 y).mp hy with hy2 | rfl
      · rw [stateSuccs_congr (hpresA2 _ (by omega))] at hy2
        have := L.succIn f1 (by omega) (by omega) y hy2
        omega
      · omega
    · by_cases h2 : j = f2
      · rw [h2] at hy
        rcases (hsuccs_f2 y).mp hy with hy2 | rfl
        · have := R.succIn f2 (by omega) (by omega) y hy2
          omega
        · omega
      · by_cases h3 : j = c2
        · rw [h3, hsuccs_ns] at hy
          simp at hy
          rcases hy with rfl | rfl
          · omega
          · omega
        · by_cases h4 : j = c2 + 1
          · rw [h4, hsuccs_nf] at hy
            simp at hy
          · rw [stateSuccs_congr (hlook_out j h1 h2 h3 h4)] at hy
            by_cases hcj : j < c1
            · rw [stateSuccs_congr (hpresA2 j hcj)] at hy
              have := L.succIn j hj1 hcj y hy
              omega
            · have := R.succIn j (by omega) (by omega) y hy
              omega
  · intro j hj1 hj2
    by_cases h3 : j = c2
    · rw [h3]
    · by_cases h4 : j = c2 + 1
      · rw [h4]
        refine Relation.ReflTransGen.tail
          (hstep_s1.trans (hreach_left f1 (by omega) (by omega))) ?_
        show c2 + 1 ∈ stateSuccs B4 f1
        exact (hsuccs_f1 (c2 + 1)).mpr (Or.inr rfl)
      · by_cases hcj : j < c1
        · exact hstep_s1.trans (hreach_left j hj1 hcj)
        · exact hstep_s2.trans (hreach_right j (by omega) (by omega))
  · intro j hj1 hj2
    by_cases h1 : j = f1
    · rw [h1, htk_f1, transKeys_congr (hpresA2 _ (by omega))]
      exact L.noEps f1 (by omega) (by omega)
    · by_cases h2 : j = f2
      · rw [h2, htk_f2]
        exact R.noEps f2 (by omega) (by omega)
      · by_cases h3 : j = c2
        · rw [h3]
          unfold transKeys
          rw [hlook_ns]
          simp
        · by_cases h4 : j = c2 + 1
          · rw [h4]
            unfold transKeys
            rw [hlook_nf]
            simp
          · rw [transKeys_congr (hlook_out j h1 h2 h3 h4)]
            by_cases hcj : j < c1
            · rw [transKeys_congr (hpresA2 j hcj)]
              exact L.noEps j hj1 hcj
            · exact R.noEps j (by omega) (by omega)
  · intro j hj1 hj2 k hk
    by_cases h1 : j = f1
    · rw [h1, htk_f1, transKeys_congr (hpresA2 _ (by omega))] at hk
      rw [h1, hst_f1, symTargets_congr k (hpresA2 _ (by omega))]
      exact L.keysNE f1 (by omega) (by omega) k hk
    · by_cases h2 : j = f2
      · rw [h2, htk_f2] at hk
        rw [h2, hst_f2]
        exact R.keysNE f2 (by omega) (by omega) k hk
      · by_cases h3 : j = c2
        · rw [h3] at hk
          unfold transKeys at hk
          rw [hlook_ns] at hk
          simp at hk
        · by_cases h4 : j = c2 + 1
          · rw [h4] at hk
            unfold transKeys at hk
            rw [hlook_nf] at hk
            simp at hk
          · rw [transKeys_congr (hlook_out j h1 h2 h3 h4)] at hk
            rw [symTargets_congr k (hlook_out j h1 h2 h3 h4)]
            by_cases hcj : j < c1
            · rw [transKeys_congr (hpresA2 j hcj)] at hk
              rw [symTargets_congr k (hpresA2 j hcj)]
              exact L.keysNE j hj1 hcj k hk
            · exact R.keysNE j (by omega) (by omega) k hk

/-- `_construct_kleene_star` preserves the construction invariant:
two fresh states, the new start wired to the new final and the child
start, every child final rewired to the new final and back to the child
start. -/
theorem buildOut_star {c0 c1 sc fc : Nat} {A0 A1 : Arena}
    (K : BuildOut c0 A0 c1 A1 sc fc) :
    BuildOut c0 A0 (c1 + 2) (constructStar A1 c1 sc [fc]).2.1 c1
      (c1 + 1) := by
  have hKc := K.hc
  have hKs1 := K.hs1
  have hKs2 := K.hs2
  have hKf1 := K.hf1
  have hKf2 := K.hf2
  have hA1fcsome : (lookupSt A1 fc).isSome = true :=
    (K.dom fc).mpr (Or.inr (by omega))
  have hB4 : (constructStar A1 c1 sc [fc]).2.1 =
      addEpsA (addEpsA (setFinalA
        (addEpsA (addEpsA ((c1 + 1, (⟨true, [], []⟩ : StateData)) ::
          (c1, (⟨false, [], []⟩ : StateData)) :: A1) c1 (c1 + 1)) c1 sc)
        fc false) fc (c1 + 1)) fc sc := by
    simp [constructStar]
  rw [hB4]
  set B0 : Arena := (c1 + 1, (⟨true, [], []⟩ : StateData)) ::
    (c1, (⟨false, [], []⟩ : StateData)) :: A1 with hB0def
  set B2 : Arena := addEpsA (addEpsA B0 c1 (c1 + 1)) c1 sc with hB2def
  set B4 : Arena := addEpsA (addEpsA (setFinalA B2 fc false) fc (c1 + 1))
    fc sc with hB4def
  have hlookB0 : ∀ j, lookupSt B0 j =
      if j = c1 then some (⟨false, [], []⟩ : StateData)
      else if j = c1 + 1 then some (⟨true, [], []⟩ : StateData)
      else lookupSt A1 j := by
    intro j
    rw [hB0def, lookupSt_cons, lookupSt_cons]
    by_cases h1 : j = c1
    · rw [if_neg (show ¬ c1 + 1 = j by omega), if_pos h1.symm, if_pos h1]
    · by_cases h2 : j = c1 + 1
      · rw [if_pos h2.symm, if_neg h1, if_pos h2]
      · rw [if_neg (fun h : c1 + 1 = j => h2 h.symm),
          if_neg (fun h : c1 = j => h1 h.symm), if_neg h1, if_neg h2]
  have hlookB2 : ∀ j, lookupSt B2 j =
      if j = c1 then some (⟨false, [], [] ++ [c1 + 1] ++ [sc]⟩ : StateData)
      else if j = c1 + 1 then some (⟨true, [], []⟩ : StateData)
      else lookupSt A1 j := by
    intro j
    rw [hB2def, addEps2_lookup]
    by_cases h1 : j = c1
    · rw [if_pos h1, if_pos h1, hlookB0, if_pos h1]
      rfl
    · rw [if_neg h1, hlookB0, if_neg h1, if_neg h1]
  have hlookB4 : ∀ j, lookupSt B4 j =
      if j = fc then
        (lookupSt A1 fc).map
          (fun d => ⟨false, d.trans, d.eps ++ [c1 + 1] ++ [sc]⟩)
      else if j = c1 then
        some (⟨false, [], [] ++ [c1 + 1] ++ [sc]⟩ : StateData)
      else if j = c1 + 1 then some (⟨true, [], []⟩ : StateData)
      else lookupSt A1 j := by
    intro j
    rw [hB4def, wireFinal2_lookup]
    by_cases h1 : j = fc
    · rw [if_pos h1, hlookB2, if_neg (show ¬ j = c1 by omega),
        if_neg (show ¬ j = c1 + 1 by omega), if_pos h1, h1]
    · rw [if_neg h1, hlookB2, if_neg h1]
  have hkeysB4 : B4.map Prod.fst = (c1 + 1) :: c1 :: A1.map Prod.fst := by
    rw [hB4def]
    show (updSt (updSt (updSt (updSt (updSt B0 c1 _) c1 _) fc _)
      fc _) fc _).map Prod.fst = _
    rw [updSt_keys, updSt_keys, updSt_keys, updSt_keys, updSt_keys, hB0def]
    rfl
  have hlook_out : ∀ j, ¬ j = fc → ¬ j = c1 → ¬ j = c1 + 1 →
      lookupSt B4 j = lookupSt A1 j := by
    intro j h1 h2 h3
    rw [hlookB4, if_neg h1, if_neg h2, if_neg h3]
  have hlook_ns : lookupSt B4 c1 =
      some (⟨false, [], [] ++ [c1 + 1] ++ [sc]⟩ : StateData) := by
    rw [hlookB4, if_neg (by omega), if_pos rfl]
  have hlook_nf : lookupSt B4 (c1 + 1) =
      some (⟨true, [], []⟩ : StateData) := by
    rw [hlookB4, if_neg (by omega), if_neg (by omega), if_pos rfl]
  have hsuccs_ns : stateSuccs B4 c1 = [c1 + 1, sc] := by
    unfold stateSuccs
    simp [hlook_ns]
  have hsuccs_nf : stateSuccs B4 (c1 + 1) = [] := by
    unfold stateSuccs
    simp [hlook_nf]
  have hsuccs_fc : ∀ y, y ∈ stateSuccs B4 fc ↔
      y ∈ stateSuccs A1 fc ∨ y = c1 + 1 ∨ y = sc := by
    intro y
    unfold stateSuccs
    rw [hlookB4, if_pos rfl]
    cases hl : lookupSt A1 fc with
    | none => rw [hl] at hA1fcsome; cases hA1fcsome
    | some d =>
      simp only [Option.map_some']
      simp only [List.mem_append, List.mem_singleton]
      tauto
  have htk_fc : transKeys B4 fc = transKeys A1 fc := by
    unfold transKeys
    rw [hlookB4, if_pos rfl]
    cases lookupSt A1 fc <;> simp
  have hst_fc : ∀ k, symTargets B4 fc k = symTargets A1 fc k := by
    intro k
    unfold symTargets
    rw [hlookB4, if_pos rfl]
    cases lookupSt A1 fc <;> simp
  have hsub : ∀ x, (c0 ≤ x ∧ x < c1) → ∀ y ∈ stateSuccs A1 x,
      y ∈ stateSuccs B4 x := by
    intro x hx y hy
    by_cases hxf : x = fc
    · rw [hxf] at hy
      rw [hxf]
      exact (hsuccs_fc y).mpr (Or.inl hy)
    · rw [stateSuccs_congr (hlook_out x hxf (by omega) (by omega))]
      exact hy
  have hreach_child : ∀ j, c0 ≤ j → j < c1 →
      Relation.ReflTransGen (succStep (stateSuccs B4)) sc j := by
    intro j h1 h2
    exact (rtg_transfer (stateSuccs A1) (stateSuccs B4)
      (fun x => c0 ≤ x ∧ x < c1)
      (fun x hx y hy => K.succIn x hx.1 hx.2 y hy)
      hsub (K.reach j h1 h2) ⟨K.hs1, K.hs2⟩).1
  have hstep_sc : Relation.ReflTransGen (succStep (stateSuccs B4)) c1 sc := by
    refine Relation.ReflTransGen.tail Relation.ReflTransGen.refl ?_
    show sc ∈ stateSuccs B4 c1
    rw [hsuccs_ns]
    simp
  refine ⟨by omega, ?_, ?_, ?_, ?_, by omega, by omega, by omega, by omega,
    ?_, ?_, ?_, ?_, ?_⟩
  · intro j hj
    rw [hlook_out j (by omega) (by omega) (by omega), K.pres j hj]
  · intro j
    by_cases h1 : j = fc
    · rw [h1, hlookB4, if_pos rfl]
      cases hl : lookupSt A1 fc with
      | none => rw [hl] at hA1fcsome; cases hA1fcsome
      | some d =>
        simp only [Option.map_some', Option.isSome_some]
        constructor
        · intro _; exact Or.inr ⟨by omega, by omega⟩
        · intro _; trivial
    · by_cases h2 : j = c1
      · rw [h2, hlook_ns]
        simp only [Option.isSome_some]
        constructor
        · intro _; exact Or.inr ⟨by omega, by omega⟩
        · intro _; trivial
      · by_cases h3 : j = c1 + 1
        · rw [h3, hlook_nf]
          simp only [Option.isSome_some]
          constructor
          · intro _; exact Or.inr ⟨by omega, by omega⟩
          · intro _; trivial
        · rw [hlook_out j h1 h2 h3, K.dom j]
          constructor
          · rintro (h | h)
            · exact Or.inl h
            · exact Or.inr ⟨by omega, by omega⟩
          · rintro (h | ⟨h5, h6⟩)
            · exact Or.inl h
            · by_cases hcj : j < c1
              · exact Or.inr ⟨h5, hcj⟩
              · omega
  · rw [hkeysB4]
    refine List.nodup_cons.mpr ⟨?_, List.nodup_cons.mpr ⟨?_, K.nd⟩⟩
    · intro h
      rcases List.mem_cons.mp h with h | h
      · omega
      · have := K.bound _ h; omega
    · intro h
      have := K.bound _ h; omega
  · intro i hi
    rw [hkeysB4] at hi
    rcases List.mem_cons.mp hi with rfl | hi
    · omega
    · rcases List.mem_cons.mp hi with rfl | hi
      · omega
      · have := K.bound _ hi; omega
  · intro j hj1 hj2
    by_cases h1 : j = fc
    · have hfalse : isFinalSt B4 j = false := by
        rw [h1]
        unfold isFinalSt
        rw [hlookB4, if_pos rfl]
        cases hl : lookupSt A1 fc with
        | none => rw [hl] at hA1fcsome; cases hA1fcsome
        | some d => simp
      rw [hfalse]
      constructor
      · intro h; cases h
      · intro h; omega
    · by_cases h2 : j = c1
      · have hfalse : isFinalSt B4 j = false := by
          rw [h2]
          unfold isFinalSt
          rw [hlook_ns]
        rw [hfalse]
        constructor
        · intro h; cases h
        · intro h; omega
      · by_cases h3 : j = c1 + 1
        · have htrue : isFinalSt B4 j = true := by
            rw [h3]
            unfold isFinalSt
            rw [hlook_nf]
          rw [htrue]
          constructor
          · intro _; omega
          · intro _; rfl
        · have heq : isFinalSt B4 j = isFinalSt A1 j :=
            isFinalSt_congr (hlook_out j h1 h2 h3)
          rw [heq]
          rw [show (isFinalSt A1 j = true ↔ j = fc) from
            K.flags j hj1 (by omega)]
          constructor
          · intro h; exact absurd h h1
          · intro h; omega
  · intro j hj1 hj2 y hy
    by_cases h1 : j = fc
    · rw [h1] at hy
      rcases (hsuccs_fc y).mp hy with hy2 | hy2 | hy2
      · have := K.succIn fc (by omega) (by omega) y hy2
        omega
      · omega
      · omega
    · by_cases h2 : j = c1
      · rw [h2, hsuccs_ns] at hy
        simp at hy
        rcases hy with rfl | rfl
        · omega
        · omega
      · by_cases h3 : j = c1 + 1
        · rw [h3, hsuccs_nf] at hy
          simp at hy
        · rw [stateSuccs_congr (hlook_out j h1 h2 h3)] at hy
          have := K.succIn j hj1 (by omega) y hy
          omega
  · intro j hj1 hj2
    by_cases h2 : j = c1
    · rw [h2]
    · by_cases h3 : j = c1 + 1
      · rw [h3]
        refine Relation.ReflTransGen.tail Relation.ReflTransGen.refl ?_
        show c1 + 1 ∈ stateSuccs B4 c1
        rw [hsuccs_ns]
        simp
      · exact hstep_sc.trans (hreach_child j hj1 (by omega))
  · intro j hj1 hj2
    by_cases h1 : j = fc
    · rw [h1, htk_fc]
      exact K.noEps fc (by omega) (by omega)
    · by_cases h2 : j = c1
      · rw [h2]
        unfold transKeys
        rw [hlook_ns]
        simp
      · by_cases h3 : j = c1 + 1
        · rw [h3]
          unfold transKeys
          rw [hlook_nf]
          simp
        · rw [transKeys_congr (hlook_out j h1 h2 h3)]
          exact K.noEps j hj1 (by omega)
  · intro j hj1 hj2 k hk
    by_cases h1 : j = fc
    · rw [h1, htk_fc] at hk
      rw [h1, hst_fc]
      exact K.keysNE fc (by omega) (by omega) k hk
    · by_cases h2 : j = c1
      · rw [h2] at hk
        unfold transKeys at hk
        rw [hlook_ns] at hk
        simp at hk
      · by_cases h3 : j = c1 + 1
        · rw [h3] at hk
          unfold transKeys at hk
          rw [hlook_nf] at hk
          simp at hk
        · rw [transKeys_congr (hlook_out j h1 h2 h3)] at hk
          rw [symTargets_congr k (hlook_out j h1 h2 h3)]
          exact K.keysNE j hj1 (by omega) k hk

/-- The Thompson construction invariant holds for every well-formed AST:
`_build_nfa_recursive` succeeds, returns a single final state, and the
output satisfies `BuildOut`. -/
theorem buildNfaRec_inv {t : AST} (hwf : WFAst t) :
    ∀ c0 A0, (∀ i ∈ A0.map Prod.fst, i < c0) → (A0.map Prod.fst).Nodup →
      ∃ c1 A1 s f, buildNfaRec t c0 A0 = some (c1, A1, s, [f]) ∧
        BuildOut c0 A0 c1 A1 s f := by
  induction hwf with
  | leaf v h =>
    intro c0 A0 hb hnd
    exact ⟨c0 + 2, (constructBasic v c0 A0).2.1, c0, c0 + 1, rfl,
      buildOut_basic h c0 A0 hb hnd⟩
  | cat l r hl hr IHl IHr =>
    intro c0 A0 hb hnd
    rcases IHl c0 A0 hb hnd with ⟨c1, A1, s1, f1, heq1, B1⟩
    rcases IHr c1 A1 B1.bound B1.nd with ⟨c2, A2, s2, f2, heq2, B2⟩
    refine ⟨c2, constructConcat A2 [f1] s2, s1, f2, ?_,
      buildOut_concat B1 B2⟩
    show (match buildNfaRec l c0 A0 with
      | none => none
      | some (c1, A1, s1, f1) =>
        match buildNfaRec r c1 A1 with
        | none => none
        | some (c2, A2, s2, f2) =>
          some (c2, constructConcat A2 f1 s2, s1, f2)) =
      some (c2, constructConcat A2 [f1] s2, s1, [f2])
    simp only [heq1, heq2]
  | alt l r hl hr IHl IHr =>
    intro c0 A0 hb hnd
    rcases IHl c0 A0 hb hnd with ⟨c1, A1, s1, f1, heq1, B1⟩
    rcases IHr c1 A1 B1.bound B1.nd with ⟨c2, A2, s2, f2, heq2, B2⟩
    refine ⟨c2 + 2, (constructUnion A2 c2 s1 [f1] s2 [f2]).2.1, c2, c2 + 1,
      ?_, buildOut_union B1 B2⟩
    show (match buildNfaRec l c0 A0 with
      | none => none
      | some (c1, A1, s1, f1) =>
        match buildNfaRec r c1 A1 with
        | none => none
        | some (c2, A2, s2, f2) => some (constructUnion A2 c2 s1 f1 s2 f2)) =
      some (c2 + 2, (constructUnion A2 c2 s1 [f1] s2 [f2]).2.1, c2, [c2 + 1])
    simp only [heq1, heq2]
    rfl
  | star l hl IH =>
    intro c0 A0 hb hnd
    rcases IH c0 A0 hb hnd with ⟨c1, A1, sc, fc, heq1, B1⟩
    refine ⟨c1 + 2, (constructStar A1 c1 sc [fc]).2.1, c1, c1 + 1, ?_,
      buildOut_star B1⟩
    show (match buildNfaRec l c0 A0 with
      | none => none
      | some (c1, A1, sc, fc) => some (constructStar A1 c1 sc fc)) =
      some (c1 + 2, (constructStar A1 c1 sc [fc]).2.1, c1, [c1 + 1])
    simp only [heq1]
    rfl

/-- `construct_nfa` on a well-formed AST: success, one final state,
invariant from a fresh counter and empty heap. -/
theorem constructNfa_inv {t : AST} (hwf : WFAst t) :
    ∃ c1 A s f, constructNfa t = some ⟨s, [f], A⟩ ∧
      BuildOut 0 [] c1 A s f := by
  rcases buildNfaRec_inv hwf 0 [] (by simp) (by simp)
    with ⟨c1, A, s, f, heq, B⟩
  refine ⟨c1, A, s, f, ?_, B⟩
  unfold constructNfa
  simp only [heq]

/-- Every collected state of the constructed NFA carries an id below the
final counter. -/
theorem constructNfa_states_bound {c1 : Nat} {A : Arena} {s f : Nat}
    (B : BuildOut 0 [] c1 A s f) :
    ∀ x ∈ nfaStatesL ⟨s, [f], A⟩, x < c1 := by
  intro x hx
  rcases (mem_nfaStatesL ⟨s, [f], A⟩ x).mp hx with ⟨x0, hx0, hrtg⟩
  have hx0lt : x0 < c1 := by
    rcases List.mem_cons.mp hx0 with rfl | hx0
    · exact B.hs2
    · rcases List.mem_singleton.mp hx0 with rfl
      exact B.hf2
  exact (rtg_transfer (stateSuccs A) (stateSuccs A) (fun z => z < c1)
    (fun z hz y hy => (B.succIn z (Nat.zero_le z) hz y hy).2)
    (fun z _ y hy => hy) hrtg hx0lt).2

/-- Finality flags of the constructed NFA are consistent with its
`final_states` list on every collected state. -/
theorem constructNfa_flagCons {c1 : Nat} {A : Arena} {s f : Nat}
    (B : BuildOut 0 [] c1 A s f) :
    ∀ x ∈ nfaStatesL ⟨s, [f], A⟩,
      (isFinalSt A x = true ↔ x ∈ ([f] : List Nat)) := by
  intro x hx
  have hxlt : x < c1 := constructNfa_states_bound B x hx
  rw [B.flags x (Nat.zero_le x) hxlt, List.mem_singleton]

/-! ## Spec-level NFA acceptance

The specification describes `NFA.simulate` in terms of a mathematical
epsilon closure, defined as the least set containing the seeds and
closed under epsilon transitions.  These definitions follow the spec
text; the claims compare them with the worklist implementation. -/

/-- The set of targets `T` of the spec: the union of `delta(s, a)` over
the current states. -/
def specStepSet (A : Arena) (S : Set Nat) (c : Char) : Set Nat :=
  {t | ∃ s ∈ S, t ∈ symTargets A s (String.mk [c])}

/-- The epsilon closure of the spec: the least set containing `S` that
is closed under epsilon transitions. -/
def specClose (A : Arena) (S : Set Nat) : Set Nat :=
  ⋂₀ {T : Set Nat | S ⊆ T ∧ ∀ x ∈ T, ∀ y ∈ epsTargets A x, y ∈ T}

/-- The simulation loop of the spec: reject when the target set is
empty, otherwise advance to the epsilon closure; accept at the end iff
an accept state is current. -/
def specGo (A : Arena) : Set Nat → List Char → Prop
  | S, [] => ∃ s ∈ S, isFinalSt A s = true
  | S, c :: w =>
    specStepSet A S c ≠ ∅ ∧ specGo A (specClose A (specStepSet A S c)) w

/-- Spec-level NFA acceptance: run from the epsilon closure of the
start state. -/
def specAccept (N : NFAr) (w : String) : Prop :=
  specGo N.arena (specClose N.arena {N.start}) w.toList

/-- The worklist closure is the least set that contains the seeds and
is closed under epsilon transitions. -/
theorem ecloseL_isLeast (A : Arena) (seeds : List Nat) :
    IsLeast {T : Set Nat | (∀ x ∈ seeds, x ∈ T) ∧
        ∀ x ∈ T, ∀ y ∈ epsTargets A x, y ∈ T}
      {y | y ∈ ecloseL A seeds} := by
  refine ⟨⟨?_, ?_⟩, ?_⟩
  · intro x hx
    exact (mem_ecloseL A seeds x).mpr ⟨x, hx, Relation.ReflTransGen.refl⟩
  · intro x hx y hy
    rcases (mem_ecloseL A seeds x).mp hx with ⟨x0, hx0, hr⟩
    exact (mem_ecloseL A seeds y).mpr
      ⟨x0, hx0, Relation.ReflTransGen.tail hr hy⟩
  · intro T hT y hy
    rcases (mem_ecloseL A seeds y).mp hy with ⟨x0, hx0, hr⟩
    have aux : ∀ a b : Nat,
        Relation.ReflTransGen (succStep (epsTargets A)) a b →
        a ∈ T → b ∈ T := by
      intro a b hab ha
      induction hab with
      | refl => exact ha
      | tail h1 h2 ih => exact hT.2 _ ih _ h2
    exact aux x0 y hr (hT.1 x0 hx0)

theorem specClose_eq_ecloseL (A : Arena) (seeds : List Nat) :
    specClose A {y | y ∈ seeds} = {y | y ∈ ecloseL A seeds} := by
  have h := ecloseL_isLeast A seeds
  apply Set.Subset.antisymm
  · intro y hy
    exact Set.mem_sInter.mp hy {y | y ∈ ecloseL A seeds} ⟨h.1.1, h.1.2⟩
  · intro y hy
    refine Set.mem_sInter.mpr ?_
    intro T hT
    exact h.2 ⟨hT.1, hT.2⟩ hy

theorem specClose_coe (A : Arena) (S : Finset Nat) :
    specClose A ↑S = ↑(ecloseF A S) := by
  have h1 : (↑S : Set Nat) = {y | y ∈ S.sort (· ≤ ·)} := by
    ext y
    simp [Finset.mem_sort]
  rw [h1, specClose_eq_ecloseL]
  ext y
  simp [ecloseF, List.mem_toFinset]

theorem specStepSet_coe (A : Arena) (S : Finset Nat) (c : Char) :
    specStepSet A ↑S c = ↑(nfaStep A S c) := by
  ext t
  simp [specStepSet, nfaStep, Finset.mem_biUnion, List.mem_toFinset]

theorem nfaSimGo_iff_specGo (N : NFAr) :
    ∀ (w : List Char) (S : Finset Nat),
      (nfaSimGo N S w = true) ↔ specGo N.arena ↑S w := by
  intro w
  induction w with
  | nil =>
    intro S
    simp only [nfaSimGo, specGo, decide_eq_true_eq, Finset.mem_coe]
  | cons c w ih =>
    intro S
    rw [show nfaSimGo N S (c :: w) =
        (if nfaStep N.arena S c = ∅ then false
         else nfaSimGo N (ecloseF N.arena (nfaStep N.arena S c)) w) from rfl,
      show specGo N.arena (↑S) (c :: w) =
        (specStepSet N.arena (↑S) c ≠ ∅ ∧
         specGo N.arena (specClose N.arena (specStepSet N.arena (↑S) c)) w)
        from rfl,
      specStepSet_coe, specClose_coe]
    by_cases hT : nfaStep N.arena S c = ∅
    · rw [if_pos hT, hT]
      simp
    · rw [if_neg hT, ih]
      have hco : (↑(nfaStep N.arena S c) : Set Nat) ≠ ∅ := by
        intro h
        exact hT (Finset.coe_eq_empty.mp h)
      exact (and_iff_right hco).symm

/-! ## Witness inputs -/

/-- A single-character regex AST leaf. -/
def leafA : AST := AST.node "a" none none

/-- The Thompson NFA of `leafA`: two states joined by an `a` edge. -/
def nfaA : NFAr :=
  ⟨0, [1], [(1, ⟨true, [], []⟩), (0, ⟨false, [("a", [1])], []⟩)]⟩

/-- A one-state DFA with no transitions, accepting only the empty
string. -/
def dfaB : DFAr Nat :=
  { start := 0
    finals := [0]
    alphabet := ∅
    delta := fun _ _ => none
    states := [0] }

/-! ## The claims -/

/-- Claim C1: for every well-formed AST accepted by the pipeline and
every input string, the NFA simulator, the subset-construction DFA
simulator and the minimized-DFA simulator agree. -/
theorem claim_C1 {t : AST} (hwf : WFAst t) {N : NFAr}
    (hN : constructNfa t = some N) (w : String) :
    nfaSimulate N w = dfaSimulate (subsetDfa N) w ∧
    dfaSimulate (subsetDfa N) w = minimizeSimulate (subsetDfa N) w := by
  rcases constructNfa_inv hwf with ⟨c1, A, s, f, heq, B⟩
  rw [heq] at hN
  injection hN with hN2
  subst hN2
  exact ⟨nfaSimulate_eq_subset _ (constructNfa_flagCons B) w,
    (subset_minimizeSimulate_eq _ w).symm⟩

theorem claim_C1_witness :
    WFAst leafA ∧ constructNfa leafA = some nfaA ∧
      (nfaSimulate nfaA "a" = dfaSimulate (subsetDfa nfaA) "a" ∧
       dfaSimulate (subsetDfa nfaA) "a" =
         minimizeSimulate (subsetDfa nfaA) "a") := by
  have hwf : WFAst leafA :=
    WFAst.leaf "a" (Or.inr (Or.inl ⟨'a', rfl, by decide⟩))
  exact ⟨hwf, rfl, claim_C1 hwf rfl "a"⟩

/-- Claim C2: `NFA.simulate` computes the acceptance predicate the spec
describes (current set, target union, early reject on empty targets,
closure advance, acceptance by a final current state), and the worklist
epsilon closure is the least set containing the seeds and closed under
epsilon transitions. -/
theorem claim_C2 (N : NFAr) (w : String) :
    (nfaSimulate N w = true ↔ specAccept N w) ∧
    ∀ seeds : List Nat,
      IsLeast {T : Set Nat | (∀ x ∈ seeds, x ∈ T) ∧
          ∀ x ∈ T, ∀ y ∈ epsTargets N.arena x, y ∈ T}
        {y | y ∈ ecloseL N.arena seeds} := by
  refine ⟨?_, fun seeds => ecloseL_isLeast N.arena seeds⟩
  unfold nfaSimulate specAccept
  have h2 : ({N.start} : Set Nat) = ↑({N.start} : Finset Nat) := by simp
  have h1 : specClose N.arena {N.start} =
      ↑((ecloseL N.arena [N.start]).toFinset) := by
    rw [h2, specClose_coe]
    unfold ecloseF
    rw [Finset.sort_singleton]
  rw [h1]
  exact nfaSimGo_iff_specGo N w.toList _

theorem claim_C2_witness :
    (nfaSimulate nfaA "a" = true ↔ specAccept nfaA "a") ∧
    ∀ seeds : List Nat,
      IsLeast {T : Set Nat | (∀ x ∈ seeds, x ∈ T) ∧
          ∀ x ∈ T, ∀ y ∈ epsTargets nfaA.arena x, y ∈ T}
        {y | y ∈ ecloseL nfaA.arena seeds} :=
  claim_C2 nfaA "a"

/-- Claim C3: `DFA.simulate` follows the deterministic transitions from
the start state, rejects as soon as a transition is missing, and
accepts exactly when the run exists and ends in an accepting state. -/
theorem claim_C3 {σ : Type} [DecidableEq σ] (D : DFAr σ) (w : String) :
    dfaSimulate D w = true ↔
      ∃ t, dfaRunOpt D D.start w.toList = some t ∧ t ∈ D.finals := by
  unfold dfaSimulate
  rw [dfaSimGo_eq_run]
  cases h : dfaRunOpt D D.start w.toList with
  | none => simp
  | some t => simp

theorem claim_C3_witness :
    dfaSimulate dfaB "" = true ↔
      ∃ t, dfaRunOpt dfaB dfaB.start "".toList = some t ∧ t ∈ dfaB.finals :=
  claim_C3 dfaB ""

/-- Claim C4: the NFA constructed from a well-formed AST has exactly
one accept state, every collected state is reachable from the start
state, and its alphabet is exactly the set of symbols on non-epsilon
transitions, in particular never `ε`. -/
theorem claim_C4 {t : AST} (hwf : WFAst t) {N : NFAr}
    (hN : constructNfa t = some N) :
    (∃ f, N.finals = [f] ∧
      ∀ x ∈ nfaStatesL N, (isFinalSt N.arena x = true ↔ x = f)) ∧
    (∀ x ∈ nfaStatesL N,
      Relation.ReflTransGen (succStep (stateSuccs N.arena)) N.start x) ∧
    "ε" ∉ nfaAlphabet N ∧
    (∀ a, a ∈ nfaAlphabet N ↔ ∃ x ∈ nfaStatesL N, a ∈ transKeys N.arena x)
    := by
  rcases constructNfa_inv hwf with ⟨c1, A, s, f, heq, B⟩
  rw [heq] at hN
  injection hN with hN2
  subst hN2
  refine ⟨⟨f, rfl, ?_⟩, ?_, ?_, ?_⟩
  · intro x hx
    exact B.flags x (Nat.zero_le x) (constructNfa_states_bound B x hx)
  · intro x hx
    exact B.reach x (Nat.zero_le x) (constructNfa_states_bound B x hx)
  · intro h
    rcases Finset.mem_biUnion.mp h with ⟨x, hx, hk⟩
    exact B.noEps x (Nat.zero_le x)
      (constructNfa_states_bound B x (List.mem_toFinset.mp hx))
      (List.mem_toFinset.mp hk)
  · intro a
    unfold nfaAlphabet
    rw [Finset.mem_biUnion]
    constructor
    · rintro ⟨x, hx, hk⟩
      exact ⟨x, List.mem_toFinset.mp hx, List.mem_toFinset.mp hk⟩
    · rintro ⟨x, hx, hk⟩
      exact ⟨x, List.mem_toFinset.mpr hx, List.mem_toFinset.mpr hk⟩

theorem claim_C4_witness :
    WFAst leafA ∧ constructNfa leafA = some nfaA ∧
      ((∃ f, nfaA.finals = [f] ∧
        ∀ x ∈ nfaStatesL nfaA, (isFinalSt nfaA.arena x = true ↔ x = f)) ∧
      (∀ x ∈ nfaStatesL nfaA,
        Relation.ReflTransGen (succStep (stateSuccs nfaA.arena))
          nfaA.start x) ∧
      "ε" ∉ nfaAlphabet nfaA ∧
      (∀ a, a ∈ nfaAlphabet nfaA ↔
        ∃ x ∈ nfaStatesL nfaA, a ∈ transKeys nfaA.arena x)) := by
  have hwf : WFAst leafA :=
    WFAst.leaf "a" (Or.inr (Or.inl ⟨'a', rfl, by decide⟩))
  exact ⟨hwf, rfl, claim_C4 hwf rfl⟩

/-- Claim C5: in the subset-construction DFA, the start state is the
epsilon closure of the NFA start, a state is final exactly when its
subset contains an NFA accept state, and on each alphabet symbol a
state has a transition exactly when the move set is nonempty, in which
case the target is the epsilon closure of the move set. -/
theorem claim_C5 (N : NFAr) :
    (subsetDfa N).start = ecloseF N.arena {N.start} ∧
    (∀ S ∈ (subsetDfa N).states,
      (S ∈ (subsetDfa N).finals ↔ ∃ n ∈ S, n ∈ N.finals)) ∧
    (∀ S ∈ (subsetDfa N).states, ∀ a ∈ (subsetDfa N).alphabet,
      (((subsetDfa N).delta S a).isSome = true ↔ moveSet N.arena S a ≠ ∅) ∧
      ∀ T, (subsetDfa N).delta S a = some T →
        T = ecloseF N.arena (moveSet N.arena S a)) := by
  refine ⟨?_, ?_, ?_⟩
  · show dfaStart N = ecloseF N.arena {N.start}
    unfold dfaStart ecloseF
    rw [Finset.sort_singleton]
  · intro S hS
    have hSd : S ∈ discoveredL N := (subsetCollect_eq_discovered N S).mp hS
    show S ∈ subsetFinals N ↔ _
    unfold subsetFinals
    rw [List.mem_filter]
    constructor
    · rintro ⟨h1, h2⟩
      rcases List.any_eq_true.mp h2 with ⟨n, hn1, hn2⟩
      exact ⟨n, of_decide_eq_true hn2, hn1⟩
    · rintro ⟨n, hn1, hn2⟩
      exact ⟨hSd, List.any_eq_true.mpr ⟨n, hn2, decide_eq_true hn1⟩⟩
  · intro S hS a ha
    have hSd : S ∈ discoveredL N := (subsetCollect_eq_discovered N S).mp hS
    have hdel : (subsetDfa N).delta S a = dfaDelta N S a := by
      show subsetDelta N S a = _
      unfold subsetDelta
      rw [if_pos ⟨hSd, ha⟩]
    rw [hdel]
    by_cases hM : moveSet N.arena S a = ∅
    · constructor
      · simp [dfaDelta, hM]
      · intro T hT
        simp [dfaDelta, hM] at hT
    · constructor
      · simp [dfaDelta, hM]
      · intro T hT
        simp only [dfaDelta, if_neg hM, Option.some.injEq] at hT
        exact hT.symm

theorem claim_C5_witness :
    (subsetDfa nfaA).start ∈ (subsetDfa nfaA).states ∧
    "a" ∈ (subsetDfa nfaA).alphabet ∧
    (((subsetDfa nfaA).delta (subsetDfa nfaA).start "a").isSome = true ↔
      moveSet nfaA.arena (subsetDfa nfaA).start "a" ≠ ∅) := by
  refine ⟨subsetDfa_start_mem nfaA, by decide, ?_⟩
  exact ((claim_C5 nfaA).2.2 (subsetDfa nfaA).start (subsetDfa_start_mem nfaA)
    "a" (by decide)).1

/-- Claim C6: minimization never increases the state count, and on a
DFA whose distinct states are already pairwise distinguishable it
leaves the state count unchanged. -/
theorem claim_C6 {σ : Type} [DecidableEq σ] (D : DFAr σ)
    (hnd : D.states.Nodup) (hstart : D.start ∈ D.states)
    (hfin : ∀ f ∈ D.finals, f ∈ D.states)
    (hclosed : ∀ s ∈ D.states, ∀ (c : String) (t : σ),
      D.delta s c = some t → t ∈ D.states)
    (halpha : ∀ s ∈ D.states, ∀ c : String, c ∉ D.alphabet →
      D.delta s c = none)
    (hreach : ∀ s ∈ D.states, ∃ r, (r = D.start ∨ r ∈ D.finals) ∧
      Relation.ReflTransGen (dfaEdge D) r s) :
    minimizeStatesCount D ≤ D.states.length ∧
    (PairwiseDistinguishable D →
      minimizeStatesCount D = D.states.length) :=
  ⟨minimizeStatesCount_le D hstart,
    fun hdist => minimizeStatesCount_eq_of_minimal D hnd hstart hfin hclosed
      halpha hreach hdist⟩

theorem claim_C6_witness :
    dfaB.states.Nodup ∧ dfaB.start ∈ dfaB.states ∧
    (∀ f ∈ dfaB.finals, f ∈ dfaB.states) ∧
    (∀ s ∈ dfaB.states, ∀ (c : String) (t : Nat),
      dfaB.delta s c = some t → t ∈ dfaB.states) ∧
    (∀ s ∈ dfaB.states, ∀ c : String, c ∉ dfaB.alphabet →
      dfaB.delta s c = none) ∧
    (∀ s ∈ dfaB.states, ∃ r, (r = dfaB.start ∨ r ∈ dfaB.finals) ∧
      Relation.ReflTransGen (dfaEdge dfaB) r s) ∧
    (minimizeStatesCount dfaB ≤ dfaB.states.length ∧
      (PairwiseDistinguishable dfaB →
        minimizeStatesCount dfaB = dfaB.states.length)) := by
  have hnd : dfaB.states.Nodup := by decide
  have hstart : dfaB.start ∈ dfaB.states := by decide
  have hfin : ∀ f ∈ dfaB.finals, f ∈ dfaB.states := by decide
  have hclosed : ∀ s ∈ dfaB.states, ∀ (c : String) (t : Nat),
      dfaB.delta s c = some t → t ∈ dfaB.states := by
    intro s hs c t h
    exact absurd h (by simp [dfaB])
  have halpha : ∀ s ∈ dfaB.states, ∀ c : String, c ∉ dfaB.alphabet →
      dfaB.delta s c = none := by
    intro s hs c hc
    rfl
  have hreach : ∀ s ∈ dfaB.states, ∃ r, (r = dfaB.start ∨ r ∈ dfaB.finals) ∧
      Relation.ReflTransGen (dfaEdge dfaB) r s := by
    intro s hs
    refine ⟨dfaB.start, Or.inl rfl, ?_⟩
    have hs0 : s = 0 := by simpa [dfaB] using hs
    rw [hs0]
    exact Relation.ReflTransGen.refl
  exact ⟨hnd, hstart, hfin, hclosed, halpha, hreach,
    claim_C6 dfaB hnd hstart hfin hclosed halpha hreach⟩

/-! ## The shunting-yard regex pipeline (`regex_parser.py`)

Strings are processed as character lists.  Backward scans carry an
explicit fuel argument (each Python loop strictly decreases an index or
the number of `+`/`?` characters, so the chosen fuels are ample); where
the loop would exit early (a `break`), the step function returns
`none`. -/

/-- `normalize_unicode_chars`: every replacement is of one character by
one character and no produced character is itself replaced, so the
sequence of `str.replace` calls is a character map. -/
def normalizeChar (c : Char) : Char :=
  if c = '𝑁' then 'N'
  else if c = '𝑎' then 'a' else if c = '𝑏' then 'b'
  else if c = '𝑐' then 'c' else if c = '𝑑' then 'd'
  else if c = '𝑒' then 'e' else if c = '𝑓' then 'f'
  else if c = '𝑔' then 'g' else if c = '𝑕' then 'h'
  else if c = '𝑖' then 'i' else if c = '𝑗' then 'j'
  else if c = '𝑘' then 'k' else if c = '𝑙' then 'l'
  else if c = '𝑚' then 'm' else if c = '𝑛' then 'n'
  else if c = '𝑜' then 'o' else if c = '𝑝' then 'p'
  else if c = '𝑞' then 'q' else if c = '𝑟' then 'r'
  else if c = '𝑠' then 's' else if c = '𝑡' then 't'
  else if c = '𝑢' then 'u' else if c = '𝑣' then 'v'
  else if c = '𝑤' then 'w' else if c = '𝑥' then 'x'
  else if c = '𝑦' then 'y' else if c = '𝑧' then 'z'
  else if c = '𝜀' then 'ε' else if c = '∗' then '*'
  else c

def normalizeUnicode (s : String) : String :=
  ⟨s.data.map normalizeChar⟩

/-- Skip spaces backwards from an index: the largest index `≤ i` with a
non-space character, `none` when the scan runs past the front
(`operand_end < 0`). -/
def backWhileSpace (r : List Char) : Nat → Option Nat
  | 0 => if r.getD 0 ' ' = ' ' then none else some 0
  | i + 1 => if r.getD (i + 1) ' ' = ' ' then backWhileSpace r i
             else some (i + 1)

/-- The backward bracket-matching scan of the transforms (`paren_count`
loop): returns the final value of `operand_start` before the `+= 1`. -/
def scanMatch (r : List Char) (op cl : Char) : Nat → Nat → Int → Int
  | 0, _, i => i
  | fuel + 1, count, i =>
    if 0 ≤ i ∧ 0 < count then
      scanMatch r op cl fuel
        (if r.getD i.toNat ' ' = cl then count + 1
         else if r.getD i.toNat ' ' = op then count - 1 else count)
        (i - 1)
    else i

/-- The backward scan for a simple operand: step left while the
previous character is not a delimiter. -/
def scanSimple (r : List Char) (delims : List Char) : Nat → Nat → Nat
  | 0, i => i
  | fuel + 1, i =>
    if 0 < i ∧ r.getD (i - 1) ' ' ∉ delims then
      scanSimple r delims fuel (i - 1)
    else i

/-- Skip spaces forward from an index. -/
def skipSpacesFwd (r : List Char) : Nat → Nat → Nat
  | 0, i => i
  | fuel + 1, i =>
    if i < r.length ∧ r.getD i 'x' = ' ' then skipSpacesFwd r fuel (i + 1)
    else i

def stopDelims : List Char :=
  ['(', ')', '[', ']', '|', '*', '?', '+', '.', ' ', '\x7b', '\x7d']

/-- One iteration of the `transform_plus_operator` loop: `none` when the
loop exits (no `+` left, or one of the `break`s fires). -/
def transformPlusStep (r : List Char) : Option (List Char) :=
  match List.findIdx? (fun c => c == '+') r with
  | none => none
  | some p =>
    if p = 0 then none
    else
      match backWhileSpace r (p - 1) with
      | none => none
      | some e =>
        let os : Nat :=
          if r.getD e ' ' = ')' then
            (scanMatch r '(' ')' (r.length + 1) 1 (Int.ofNat e - 1) + 1).toNat
          else if r.getD e ' ' = ']' then
            (scanMatch r '[' ']' (r.length + 1) 1 (Int.ofNat e - 1) + 1).toNat
          else scanSimple r stopDelims (r.length + 1) e
        let operand := (r.drop os).take (e + 1 - os)
        let sap := skipSpacesFwd r (r.length + 1) (p + 1)
        some (r.take os ++ operand ++ ['('] ++ operand ++ [')', '*'] ++
          r.drop sap)

/-- The `transform_plus_operator` loop; each productive step removes
exactly one `+` (the leftmost, whose operand holds none), so the length
of the input is ample fuel. -/
def transformPlusGo : Nat → List Char → List Char
  | 0, r => r
  | fuel + 1, r =>
    match transformPlusStep r with
    | none => r
    | some r2 => transformPlusGo fuel r2

def transformPlus (s : String) : String :=
  ⟨transformPlusGo (s.data.length + 1) s.data⟩

/-- Whether `pat` is a prefix of `r`. -/
def startsWithList (pat r : List Char) : Bool :=
  match pat, r with
  | [], _ => true
  | _ :: _, [] => false
  | a :: p2, b :: r2 => a == b && startsWithList p2 r2

/-- `str.replace(pat, rep)`: leftmost, non-overlapping, all
occurrences.  (`transform_question_operator` guards the call with a
containment test, but replacing an absent pattern is the identity, so
the guard is semantically void.) -/
def replaceAllList (pat rep : List Char) : Nat → List Char → List Char
  | 0, r => r
  | fuel + 1, r =>
    if startsWithList pat r then
      rep ++ replaceAllList pat rep fuel (r.drop pat.length)
    else
      match r with
      | [] => []
      | c :: rest => c :: replaceAllList pat rep fuel rest

/-- The hard-coded special case of `transform_question_operator`. -/
def hcPattern : List Char := "0? (1? )? 0".data

def hcReplacement : List Char := "(0|ε)((1|ε)|ε)0".data

/-- `str.rfind` for `?`. -/
def rfindQm (r : List Char) : Option Nat :=
  match List.findIdx? (fun c => c == '?') r.reverse with
  | none => none
  | some k => some (r.length - 1 - k)

/-- One iteration of the `transform_question_operator` loop (which runs
right to left). -/
def transformQuestionStep (r : List Char) : Option (List Char) :=
  match rfindQm r with
  | none => none
  | some p =>
    if p = 0 then none
    else
      match backWhileSpace r (p - 1) with
      | none => none
      | some e =>
        let os : Nat :=
          if r.getD e ' ' = ')' then
            (scanMatch r '(' ')' (r.length + 1) 1 (Int.ofNat e - 1) + 1).toNat
          else scanSimple r stopDelims (r.length + 1) e
        let operand := (r.drop os).take (e + 1 - os)
        let sap := skipSpacesFwd r (r.length + 1) (p + 1)
        some (r.take os ++ ['('] ++ operand ++ ['|', 'ε', ')'] ++ r.drop sap)

def transformQuestionGo : Nat → List Char → List Char
  | 0, r => r
  | fuel + 1, r =>
    match transformQuestionStep r with
    | none => r
    | some r2 => transformQuestionGo fuel r2

/-- `transform_question_operator`: the hard-coded substring replacement
first, then the right-to-left rewriting of the remaining `?`. -/
def transformQuestion (s : String) : String :=
  let r := replaceAllList hcPattern hcReplacement (s.data.length + 1) s.data
  ⟨transformQuestionGo (r.length + 1) r⟩

/-- The escapable characters of `handle_escaped_chars`. -/
def escSet : List Char :=
  ['(', ')', '[', ']', '\x7b', '\x7d', '.', '*', '+', '?', '|', '^']

/-- `handle_escaped_chars`: a backslash followed by an escapable
character or `n` becomes an `L`-prefixed literal; a backslash followed
by anything else is dropped; a trailing backslash is kept. -/
def handleEscaped : List Char → List Char
  | [] => []
  | '\\' :: c :: rest =>
    if c ∈ escSet then 'L' :: c :: handleEscaped rest
    else if c = 'n' then 'L' :: 'n' :: handleEscaped rest
    else c :: handleEscaped rest
  | c :: rest => c :: handleEscaped rest

/-- `str.isalnum` for the characters this pipeline handles: ASCII
alphanumerics plus the non-ASCII characters.  Inside `is_operand` the
result is or-ed with the `ord(c) > 127` test, under which the two
readings agree on every one-character string, and multi-character
arguments are exactly the `L` literals, caught by the `startswith`
disjunct. -/
def pyAlnum (c : Char) : Bool :=
  c.isAlphanum || decide (c.toNat > 127)

/-- `ShuntingYardRegex.is_operand`. -/
def isOperandS (c : String) : Bool :=
  (!c.data.isEmpty && c.data.all pyAlnum) || c == "ε" ||
  (c.data.length == 1 && decide ((c.data.getD 0 ' ').toNat > 127)) ||
  c.data.head? == some 'L' ||
  (["[", "]", "\x7b", "\x7d", "\\", "n"] : List String).contains c

/-- `ShuntingYardRegex.needs_concatenation`; the first argument may be
a two-character `L` literal. -/
def needsConcat (c1 : String) (c2 : Char) : Bool :=
  if c2 ∈ ['|', '?', '*', '^', '.'] ∨ c1 ∈ (["^", "|", "."] : List String) ∨
      c1 = "(" ∨ c2 = ')' ∨ c1 = " " ∨ c2 = ' ' then false
  else if (isOperandS c1 = true ∨ c1 ∈ ([")", "]", "\x7d"] : List String) ∨
        c1 ∈ (["*", "∗", "?"] : List String)) ∧
      (isOperandS (String.mk [c2]) = true ∨ c2 ∈ ['(', '[', '\x7b'] ∨
        c2 = 'L') then true
  else false

/-- The concatenation-insertion loop of `format_regex`: an `L` literal
consumes two characters and checks the immediately following character;
any other character checks the next non-space character. -/
def fmtGo : List Char → List Char
  | [] => []
  | 'L' :: c2 :: rest =>
    'L' :: c2 ::
      (match rest with
       | [] => fmtGo rest
       | c3 :: _ =>
         if needsConcat (String.mk ['L', c2]) c3 then '.' :: fmtGo rest
         else fmtGo rest)
  | c :: rest =>
    c ::
      (if c = ' ' then fmtGo rest
       else
         match List.head? (rest.dropWhile (fun d => d == ' ')) with
         | none => fmtGo rest
         | some cj =>
           if needsConcat (String.mk [c]) cj then '.' :: fmtGo rest
           else fmtGo rest)

/-- `format_regex`: the transforms run again, then escape handling,
then concatenation insertion. -/
def formatRegex (s : String) : String :=
  ⟨fmtGo (handleEscaped (transformQuestion (transformPlus s)).data)⟩

/-- `get_precedence`. -/
def getPrec (c : Char) : Nat :=
  if c = '(' then 1 else if c = '|' then 2 else if c = '.' then 3
  else if c = '?' then 4 else if c = '*' then 4 else if c = '^' then 5
  else 0

/-- `is_operator`. -/
def isOpC (c : Char) : Bool :=
  c ∈ ['|', '?', '*', '^', '.']

/-- The shunting-yard loop of `infix_to_postfix` (the stack grows at
the head), including the final flush of the operator stack. -/
def syGo : List Char → List Char → List Char → List Char
  | [], stack, post => post ++ stack
  | c :: rest, stack, post =>
    if c = '(' then syGo rest (c :: stack) post
    else if c = ')' then
      syGo rest (stack.dropWhile (fun d => !(d == '('))).tail
        (post ++ stack.takeWhile (fun d => !(d == '(')))
    else if isOpC c then
      syGo rest
        (c :: stack.dropWhile
          (fun d => !(d == '(') && decide (getPrec c ≤ getPrec d)))
        (post ++ stack.takeWhile
          (fun d => !(d == '(') && decide (getPrec c ≤ getPrec d)))
    else if c = ' ' then syGo rest stack post
    else syGo rest stack (post ++ [c])

/-- `infix_to_postfix`: unicode normalization, the two transforms (each
gated on the presence of its operator), formatting, then the
shunting-yard loop.  It always returns a postfix string. -/
def infixToPostfix (s : String) : String :=
  let r1 := normalizeUnicode s
  let r2 := if r1.data.any (fun c => c == '+') then transformPlus r1 else r1
  let r3 := if r2.data.any (fun c => c == '?') then transformQuestion r2
            else r2
  ⟨syGo (formatRegex r3).data [] []⟩

/-! ## Spec-level denotation of a regex string

The documented reading of the surface syntax: `L` pairs with the next
character as an escaped literal, spaces are ignored, `ε` is the empty
word, juxtaposition concatenates, `|` alternates, `*` is iteration,
and, per the spec's desugaring laws, `X?` denotes `L(X) ∪ {ε}` and
`X+` denotes `L(X)·L(X)*`.  A string that does not parse (for example
with an unmatched parenthesis) denotes no language. -/

def tokenizeRE : List Char → List String
  | [] => []
  | 'L' :: c :: rest => String.mk ['L', c] :: tokenizeRE rest
  | ' ' :: rest => tokenizeRE rest
  | c :: rest => String.mk [c] :: tokenizeRE rest

/-- The nonterminal being parsed by the recursive-descent reader. -/
inductive PMode where
  | alt | altTail | cat | catTail | factor | postfixTl | atom

/-- Fueled recursive-descent parse; `acc` is the expression parsed so
far in the tail modes and ignored elsewhere. -/
def parseM : Nat → PMode → RegularExpression Char → List String →
    Option (RegularExpression Char × List String)
  | 0, _, _, _ => none
  | fuel + 1, PMode.alt, _, toks =>
    match parseM fuel PMode.cat 0 toks with
    | none => none
    | some (r, rest) => parseM fuel PMode.altTail r rest
  | fuel + 1, PMode.altTail, acc, toks =>
    match toks with
    | "|" :: rest =>
      match parseM fuel PMode.cat 0 rest with
      | none => none
      | some (r, rest2) => parseM fuel PMode.altTail (acc + r) rest2
    | _ => some (acc, toks)
  | fuel + 1, PMode.cat, _, toks =>
    match parseM fuel PMode.factor 0 toks with
    | none => none
    | some (r, rest) => parseM fuel PMode.catTail r rest
  | fuel + 1, PMode.catTail, acc, toks =>
    match parseM fuel PMode.factor 0 toks with
    | none => some (acc, toks)
    | some (r, rest) => parseM fuel PMode.catTail (acc * r) rest
  | fuel + 1, PMode.factor, _, toks =>
    match parseM fuel PMode.atom 0 toks with
    | none => none
    | some (r, rest) => parseM fuel PMode.postfixTl r rest
  | fuel + 1, PMode.postfixTl, acc, toks =>
    match toks with
    | "*" :: rest => parseM fuel PMode.postfixTl acc.star rest
    | "?" :: rest =>
      parseM fuel PMode.postfixTl (acc + RegularExpression.epsilon) rest
    | "+" :: rest => parseM fuel PMode.postfixTl (acc * acc.star) rest
    | _ => some (acc, toks)
  | fuel + 1, PMode.atom, _, toks =>
    match toks with
    | [] => none
    | t :: rest =>
      if t = "(" then
        match parseM fuel PMode.alt 0 rest with
        | none => none
        | some (r, rest2) =>
          match rest2 with
          | [] => none
          | t2 :: rest3 => if t2 = ")" then some (r, rest3) else none
      else if t = "ε" then some (RegularExpression.epsilon, rest)
      else
        match t.data with
        | ['L', c] => some (RegularExpression.char c, rest)
        | [c] =>
          if pyAlnum c then some (RegularExpression.char c, rest) else none
        | _ => none

/-- The denotation of a regex string: the parsed regular expression, or
`none` when the string does not parse in full. -/
def denoteStr (s : String) : Option (RegularExpression Char) :=
  let toks := tokenizeRE s.data
  match parseM (8 * toks.length + 8) PMode.alt 0 toks with
  | some (r, []) => some r
  | _ => none

/-! ## The AST builder (`ast_builder.py`) as a stack machine -/

/-- The tokenization step of `build_ast` (after space filtering): `L`
followed by a character forms a two-character literal token. -/
def tokenizePF : List Char → List String
  | [] => []
  | 'L' :: c :: rest => String.mk ['L', c] :: tokenizePF rest
  | c :: rest => String.mk [c] :: tokenizePF rest

/-- The stack loop of `RegexASTBuilder.build_ast`; a raised
`ValueError` is `none`.  `.` and `|` pop two operands, `*` and `?` pop
one, every other token is an operand. -/
def buildAstTok : List String → List AST → Option AST
  | [], stack =>
    match stack with
    | [t] => some t
    | _ => none
  | t :: rest, stack =>
    if t = "|" ∨ t = "." then
      match stack with
      | r :: l :: st => buildAstTok rest (AST.node t (some l) (some r) :: st)
      | _ => none
    else if t = "*" ∨ t = "?" then
      match stack with
      | ch :: st => buildAstTok rest (AST.node t (some ch) none :: st)
      | _ => none
    else buildAstTok rest (AST.node t none none :: stack)

/-- `RegexASTBuilder.build_ast`. -/
def buildAst (p : String) : Option AST :=
  buildAstTok (tokenizePF (p.data.filter (fun c => !(c == ' ')))) []

/-- The stack-height automaton of the code's error condition: a binary
operator with fewer than two stack entries, a unary operator (`*` or
`?`) with none, or a final stack height other than one. -/
def codeBadTok : List String → Nat → Bool
  | [], h => decide (¬ h = 1)
  | t :: rest, h =>
    if t = "|" ∨ t = "." then
      if h < 2 then true else codeBadTok rest (h - 1)
    else if t = "*" ∨ t = "?" then
      if h = 0 then true else codeBadTok rest h
    else codeBadTok rest (h + 1)

/-- The stack-height automaton of the claim as stated: only `*` is
unary; `?` would be an operand. -/
def claimBadTok : List String → Nat → Bool
  | [], h => decide (¬ h = 1)
  | t :: rest, h =>
    if t = "|" ∨ t = "." then
      if h < 2 then true else claimBadTok rest (h - 1)
    else if t = "*" then
      if h = 0 then true else claimBadTok rest h
    else claimBadTok rest (h + 1)

/-! ## Python object equality of automaton states (`models.py`) -/

/-- An `NFAState` object: its identity (allocation reference) and its
`id` field.  The class defines no `__eq__`, so `==` is object
identity. -/
structure NFAStateObj where
  ref : Nat
  sid : Nat
deriving DecidableEq

/-- A `DFAState` object; the class defines `__eq__` comparing the `id`
fields (and a matching `__hash__`). -/
structure DFAStateObj where
  ref : Nat
  sid : Nat
deriving DecidableEq

/-- Python `==` on `NFAState`: identity. -/
def nfaStateEq (a b : NFAStateObj) : Bool :=
  a.ref == b.ref

/-- Python `==` on `DFAState`: by `id`. -/
def dfaStateEq (a b : DFAStateObj) : Bool :=
  a.sid == b.sid

/-- Inserting into a Python set keeps an element unless one compares
equal to it. -/
def pyInsert (l : List NFAStateObj) (x : NFAStateObj) : List NFAStateObj :=
  if l.any (fun y => nfaStateEq y x) then l else l ++ [x]

/-! ## Claims C7 to C10 -/

/-- Claim C7 (corrected): the desugaring laws themselves hold --
`L(X+) = L(X X*)` and `L(X?) = L(X|ε)` -- and the string transforms
implement them on plain operands; but the transform pipeline does not
preserve the denotation of every expression (see the counterexample:
the hard-coded substring substitution of `transform_question_operator`
rewrites `L0? (1? )? 0` into a string that no longer parses). -/
theorem claim_C7 (r : RegularExpression Char) :
    ({w : List Char | ∃ n : Nat, 0 < n ∧ w ∈ r.matches' ^ n} :
        Language Char) = (r * r.star).matches' ∧
    ({w : List Char | w ∈ r.matches' ∨ w = ([] : List Char)} :
        Language Char) = (r + RegularExpression.epsilon).matches' ∧
    transformPlus "a+" = "a(a)*" ∧ transformQuestion "a?" = "(a|ε)" := by
  refine ⟨?_, ?_, by decide, by decide⟩
  · ext w
    rw [RegularExpression.matches'_mul, RegularExpression.matches'_star]
    simp only [Set.mem_setOf_eq]
    constructor
    · rintro ⟨n, hn, hw⟩
      cases n with
      | zero => exact absurd hn (lt_irrefl 0)
      | succ m =>
        rw [pow_succ'] at hw
        rcases Language.mem_mul.mp hw with ⟨a, ha, b, hb, rfl⟩
        refine Language.mem_mul.mpr ⟨a, ha, b, ?_, rfl⟩
        rw [Language.kstar_eq_iSup_pow]
        exact Language.mem_iSup.mpr ⟨m, hb⟩
    · intro hw
      rcases Language.mem_mul.mp hw with ⟨a, ha, b, hb, rfl⟩
      rw [Language.kstar_eq_iSup_pow] at hb
      rcases Language.mem_iSup.mp hb with ⟨m, hbm⟩
      refine ⟨m + 1, Nat.succ_pos m, ?_⟩
      rw [pow_succ']
      exact Language.mem_mul.mpr ⟨a, ha, b, hbm, rfl⟩
  · ext w
    simp only [Set.mem_setOf_eq]
    rw [RegularExpression.matches'_add,
      show RegularExpression.epsilon = (1 : RegularExpression Char) from rfl,
      RegularExpression.matches'_epsilon]
    rw [show (w ∈ r.matches' + 1 ↔ w ∈ r.matches' ∨ w ∈ (1 : Language Char))
      from Language.mem_add _ _ w]
    rw [show (w ∈ (1 : Language Char) ↔ w = []) from Language.mem_one w]

theorem claim_C7_witness :
    ({w : List Char | ∃ n : Nat, 0 < n ∧
        w ∈ (RegularExpression.char 'a').matches' ^ n} : Language Char) =
      (RegularExpression.char 'a' *
        (RegularExpression.char 'a').star).matches' ∧
    ({w : List Char | w ∈ (RegularExpression.char 'a').matches' ∨
        w = ([] : List Char)} : Language Char) =
      (RegularExpression.char 'a' + RegularExpression.epsilon).matches' ∧
    transformPlus "a+" = "a(a)*" ∧ transformQuestion "a?" = "(a|ε)" :=
  claim_C7 (RegularExpression.char 'a')

theorem claim_C7_counterexample :
    transformQuestion (transformPlus "L0? (1? )? 0") =
      "L(0|ε)((1|ε)|ε)0" ∧
    (denoteStr "L0? (1? )? 0").isSome = true ∧
    (denoteStr (transformQuestion (transformPlus "L0? (1? )? 0"))).isSome
      = false := by
  refine ⟨by decide, by decide, by decide⟩

theorem popAll_of_no_lparen {stack : List Char} (h : '(' ∉ stack) :
    stack.takeWhile (fun d => !(d == '(')) = stack ∧
    stack.dropWhile (fun d => !(d == '(')) = [] := by
  induction stack with
  | nil => exact ⟨rfl, rfl⟩
  | cons a st ih =>
    have ha : ¬ a = '(' := by
      intro hh
      exact h (by rw [hh]; exact List.mem_cons_self _ _)
    obtain ⟨h3, h4⟩ := ih (fun hh => h (List.mem_cons_of_mem _ hh))
    refine ⟨?_, ?_⟩
    · simp [List.takeWhile_cons, ha, h3]
    · simp [List.dropWhile_cons, ha, h4]

/-- Claim C8 (the code's actual behaviour): when `)` is read with no
matching `(` on the operator stack, `infix_to_postfix` silently flushes
the whole stack into the output and continues; no error of any kind is
raised anywhere in the conversion, which always returns a postfix
string. -/
theorem claim_C8 (rest stack post : List Char) (h : '(' ∉ stack) :
    syGo (')' :: rest) stack post = syGo rest [] (post ++ stack) := by
  obtain ⟨h1, h2⟩ := popAll_of_no_lparen h
  show syGo rest (stack.dropWhile (fun d => !(d == '('))).tail
      (post ++ stack.takeWhile (fun d => !(d == '('))) = _
  rw [h1, h2]
  rfl

theorem claim_C8_witness :
    (('(' : Char) ∉ (['a'] : List Char)) ∧
    syGo [')'] ['a'] [] = syGo [] [] ([] ++ ['a']) :=
  ⟨by decide, claim_C8 [] ['a'] [] (by decide)⟩

theorem claim_C8_counterexample : infixToPostfix "a)" = "a" := by decide

theorem buildAstTok_none_iff :
    ∀ (toks : List String) (stack : List AST),
      (buildAstTok toks stack = none ↔
        codeBadTok toks stack.length = true) := by
  intro toks
  induction toks with
  | nil =>
    intro stack
    match stack with
    | [] => simp [buildAstTok, codeBadTok]
    | [t] => simp [buildAstTok, codeBadTok]
    | t1 :: t2 :: ts =>
      simp only [buildAstTok, codeBadTok, decide_eq_true_eq,
        List.length_cons]
      constructor
      · intro _; omega
      · intro _; trivial
  | cons t rest ih =>
    intro stack
    simp only [buildAstTok, codeBadTok]
    by_cases hb : t = "|" ∨ t = "."
    · rw [if_pos hb, if_pos hb]
      match stack with
      | [] => simp
      | [a] => simp
      | a :: b :: st =>
        rw [if_neg (by simp only [List.length_cons]; omega)]
        simpa using ih (AST.node t (some b) (some a) :: st)
    · rw [if_neg hb, if_neg hb]
      by_cases hu : t = "*" ∨ t = "?"
      · rw [if_pos hu, if_pos hu]
        match stack with
        | [] => simp
        | a :: st =>
          rw [if_neg (by simp only [List.length_cons]; omega)]
          simpa using ih (AST.node t (some a) none :: st)
      · rw [if_neg hu, if_neg hu]
        simpa using ih (AST.node t none none :: stack)

/-- Claim C9 (corrected): `build_ast` fails exactly when a binary
operator (`.` or `|`) meets fewer than two stack entries, a unary
operator meets an empty stack, or the final stack height differs from
one -- but the unary operators of the code are `*` AND `?`, not `*`
alone as the claim states (see the counterexample on the stream
`?`). -/
theorem claim_C9 (p : String) :
    buildAst p = none ↔
      codeBadTok (tokenizePF (p.data.filter (fun c => !(c == ' ')))) 0
        = true := by
  unfold buildAst
  simpa using
    buildAstTok_none_iff (tokenizePF (p.data.filter (fun c => !(c == ' ')))) []

theorem claim_C9_witness :
    (buildAst "ab." = none ↔
      codeBadTok (tokenizePF ("ab.".data.filter (fun c => !(c == ' ')))) 0
        = true) :=
  claim_C9 "ab."

theorem claim_C9_counterexample :
    (buildAst "?").isSome = false ∧
    claimBadTok (tokenizePF ("?".data.filter (fun c => !(c == ' ')))) 0
      = false := by
  refine ⟨by decide, by decide⟩

/-- Claim C10 (corrected): `NFAState` defines no `__eq__`, so `==` on
NFA states is object identity, not id comparison; it is `DFAState`
whose equality is by id.  The claim's consequence fails: two distinct
`NFAState` objects with the same id compare unequal and are not
deduplicated in sets. -/
theorem claim_C10 (a b : NFAStateObj) (c d : DFAStateObj) :
    (nfaStateEq a b = true ↔ a.ref = b.ref) ∧
    (dfaStateEq c d = true ↔ c.sid = d.sid) := by
  constructor
  · simp [nfaStateEq]
  · simp [dfaStateEq]

theorem claim_C10_witness :
    (nfaStateEq ⟨0, 0⟩ ⟨0, 0⟩ = true ↔
      (NFAStateObj.mk 0 0).ref = (NFAStateObj.mk 0 0).ref) ∧
    (dfaStateEq ⟨0, 0⟩ ⟨0, 0⟩ = true ↔
      (DFAStateObj.mk 0 0).sid = (DFAStateObj.mk 0 0).sid) :=
  claim_C10 ⟨0, 0⟩ ⟨0, 0⟩ ⟨0, 0⟩ ⟨0, 0⟩

theorem claim_C10_counterexample :
    nfaStateEq ⟨0, 5⟩ ⟨1, 5⟩ = false ∧
    (NFAStateObj.mk 0 5).sid = (NFAStateObj.mk 1 5).sid ∧
    pyInsert (pyInsert [] ⟨0, 5⟩) ⟨1, 5⟩ = [⟨0, 5⟩, ⟨1, 5⟩] := by
  refine ⟨by decide, by decide, by decide⟩

end RegexProj
